import Mathlib

/-!
Email validation policies of `validate/regex.go`

A shallow embedding of the three parse operations `ParseRfc5322`, `ParseCommon`
and `ParseSimple`.

* A Go `string` is a sequence of bytes: `List Nat`, every byte a natural number
  below 256.  `len` is `List.length`.
* `regexp.MatchString` reads the text rune by rune (`utf8.DecodeRuneInString`,
  an invalid byte reads as U+FFFD of width 1) and the three patterns are
  anchored by `^` and `$` (no `m` flag), so a pattern matches a text exactly
  when the whole rune sequence belongs to the language of the expression
  between the anchors.  That language is decided here by Brzozowski derivatives.
* `idna.ToASCII` belongs to `golang.org/x/net/idna`, outside this repository; the
  simple policy takes the conversion as a parameter.
* A Go run-time panic (slice bounds out of range) is an explicit outcome.
-/

namespace Validate

/-! ## Strings as bytes, runes -/

/-- Continuation byte of a UTF-8 sequence (`locb = 0x80`, `hicb = 0xBF`). -/
def isCont (b : Nat) : Bool := 0x80 ≤ b && b ≤ 0xBF

/-- Two-byte sequence after lead byte `b0` (`0xC2..0xDF`); a missing byte reads
as `0`, which is no continuation byte. -/
def decode2 (b0 : Nat) (t : List Nat) : Nat × Nat :=
  if t.length < 1 then (0xFFFD, 1)
  else if ¬ isCont (t.getD 0 0) then (0xFFFD, 1)
  else ((b0 % 32) * 64 + t.getD 0 0 % 64, 2)

/-- Three-byte sequence after lead byte `b0` (`0xE0..0xEF`): the second byte is
held to `0xA0..0xBF` after `0xE0` and to `0x80..0x9F` after `0xED`. -/
def decode3 (b0 : Nat) (t : List Nat) : Nat × Nat :=
  if t.length < 2 then (0xFFFD, 1)
  else if t.getD 0 0 < (if b0 = 0xE0 then 0xA0 else 0x80)
      ∨ (if b0 = 0xED then 0x9F else 0xBF) < t.getD 0 0 then (0xFFFD, 1)
  else if ¬ isCont (t.getD 1 0) then (0xFFFD, 1)
  else ((b0 % 16) * 4096 + (t.getD 0 0 % 64) * 64 + t.getD 1 0 % 64, 3)

/-- Four-byte sequence after lead byte `b0` (`0xF0..0xF4`): the second byte is
held to `0x90..0xBF` after `0xF0` and to `0x80..0x8F` after `0xF4`. -/
def decode4 (b0 : Nat) (t : List Nat) : Nat × Nat :=
  if t.length < 3 then (0xFFFD, 1)
  else if t.getD 0 0 < (if b0 = 0xF0 then 0x90 else 0x80)
      ∨ (if b0 = 0xF4 then 0x8F else 0xBF) < t.getD 0 0 then (0xFFFD, 1)
  else if ¬ isCont (t.getD 1 0) then (0xFFFD, 1)
  else if ¬ isCont (t.getD 2 0) then (0xFFFD, 1)
  else ((b0 % 8) * 262144 + (t.getD 0 0 % 64) * 4096 + (t.getD 1 0 % 64) * 64
          + t.getD 2 0 % 64, 4)

/-- Rune and width read at the head of a byte string, after
`utf8.DecodeRuneInString`: `(RuneError, 1)` for an ill-formed or truncated
sequence, `(RuneError, 0)` for the empty string. -/
def decodeRune : List Nat → Nat × Nat
  | [] => (0xFFFD, 0)
  | b0 :: t =>
    if b0 < 0x80 then (b0, 1)
    else if 0xC2 ≤ b0 ∧ b0 ≤ 0xDF then decode2 b0 t
    else if 0xE0 ≤ b0 ∧ b0 ≤ 0xEF then decode3 b0 t
    else if 0xF0 ≤ b0 ∧ b0 ≤ 0xF4 then decode4 b0 t
    else (0xFFFD, 1)

/-- Runes of a byte string from a position on, `skip` bytes of the rune being
read still to pass over. -/
def decodeFrom : List Nat → Nat → List Nat
  | [], _ => []
  | _ :: t, k + 1 => decodeFrom t k
  | b :: t, 0 => (decodeRune (b :: t)).1 :: decodeFrom t ((decodeRune (b :: t)).2 - 1)

/-- The rune sequence the regexp engine reads from a string. -/
def decodeRunes (s : List Nat) : List Nat := decodeFrom s 0

/-- UTF-8 encoding of a code point, used to write string literals as bytes. -/
def encodeRune (r : Nat) : List Nat :=
  if r < 0x80 then [r]
  else if r < 0x800 then [0xC0 + r / 64, 0x80 + r % 64]
  else if r < 0x10000 then [0xE0 + r / 4096, 0x80 + (r / 64) % 64, 0x80 + r % 64]
  else [0xF0 + r / 262144, 0x80 + (r / 4096) % 64, 0x80 + (r / 64) % 64, 0x80 + r % 64]

/-- Bytes of a string literal. -/
def str (s : String) : List Nat := s.data.flatMap (fun c => encodeRune c.toNat)

/-! ## Regular expressions over runes -/

/-- Does one of the ranges `lo-hi` of a class hold the rune? -/
def inRanges (rs : List (Nat × Nat)) (r : Nat) : Bool :=
  rs.any (fun p => p.1 ≤ r && r ≤ p.2)

/-- The runes that `unicode.SimpleFold` links to `r`, as far as a class of
ASCII ranges can tell: the two cases of an ASCII letter, together with
U+212A KELVIN SIGN for `k` and U+017F LATIN SMALL LETTER LONG S for `s`. -/
def foldOrbit (r : Nat) : List Nat :=
  if r = 0x4B ∨ r = 0x6B ∨ r = 0x212A then [0x4B, 0x6B, 0x212A]
  else if r = 0x53 ∨ r = 0x73 ∨ r = 0x17F then [0x53, 0x73, 0x17F]
  else if 0x41 ≤ r ∧ r ≤ 0x5A then [r, r + 32]
  else if 0x61 ≤ r ∧ r ≤ 0x7A then [r - 32, r]
  else [r]

/-- Membership of a rune in a character class: `fold` is the `(?i)` flag
(the class is closed under case folding), `neg` the leading `^`. -/
def classMatch (fold neg : Bool) (rs : List (Nat × Nat)) (r : Nat) : Bool :=
  xor neg (if fold then (foldOrbit r).any (inRanges rs) else inRanges rs r)

/-- Regular expressions: the operators the three patterns are built from. -/
inductive Regex where
  | noMatch : Regex
  | empty : Regex
  | cls (fold neg : Bool) (rs : List (Nat × Nat)) : Regex
  | alt (a b : Regex) : Regex
  | cat (a b : Regex) : Regex
  | star (a : Regex) : Regex

namespace Regex

/-- Does the expression match the empty text? -/
def nullable : Regex → Bool
  | noMatch => false
  | empty => true
  | cls _ _ _ => false
  | alt a b => a.nullable || b.nullable
  | cat a b => a.nullable && b.nullable
  | star _ => true

/-- Alternation that drops a dead branch. -/
def mkAlt : Regex → Regex → Regex
  | noMatch, b => b
  | a, noMatch => a
  | a, b => alt a b

/-- Concatenation that drops a dead or empty head. -/
def mkCat : Regex → Regex → Regex
  | noMatch, _ => noMatch
  | empty, b => b
  | a, b => cat a b

/-- Brzozowski derivative: what is left to match after reading rune `c`. -/
def deriv : Regex → Nat → Regex
  | noMatch, _ => noMatch
  | empty, _ => noMatch
  | cls f n rs, c => if classMatch f n rs c then empty else noMatch
  | alt a b, c => mkAlt (a.deriv c) (b.deriv c)
  | cat a b, c =>
    if a.nullable then mkAlt (mkCat (a.deriv c) b) (b.deriv c) else mkCat (a.deriv c) b
  | star a, c => mkCat (a.deriv c) (star a)

/-- Whole-text match of a rune sequence. -/
def rmatch : Regex → List Nat → Bool
  | r, [] => r.nullable
  | r, c :: cs => (r.deriv c).rmatch cs

/-- A literal rune. -/
def lit (fold : Bool) (c : Nat) : Regex := cls fold false [(c, c)]

/-- Concatenation of a list of expressions. -/
def seq : List Regex → Regex
  | [] => empty
  | [a] => a
  | a :: t => cat a (seq t)

/-- One or more: `x+`. -/
def plus (a : Regex) : Regex := cat a (star a)

/-- Zero or one: `x?`. -/
def opt (a : Regex) : Regex := alt a empty

/-- Exactly `n` copies: `x{n}`. -/
def rep : Nat → Regex → Regex
  | 0, _ => empty
  | n + 1, a => cat a (rep n a)

/-- At most `n` copies, `(x(x(x)?)?)?`. -/
def upTo : Nat → Regex → Regex
  | 0, _ => empty
  | n + 1, a => opt (cat a (upTo n a))

/-- Between `n` and `m` copies: `x{n,m}`. -/
def repRange (n m : Nat) (a : Regex) : Regex := cat (rep n a) (upTo (m - n) a)

/-- The language of an expression: the rune sequences it matches as a whole. -/
def lang : Regex → Language Nat
  | noMatch => 0
  | empty => 1
  | cls f n rs => {w | ∃ c, w = [c] ∧ classMatch f n rs c = true}
  | alt a b => a.lang + b.lang
  | cat a b => a.lang * b.lang
  | star a => KStar.kstar a.lang

end Regex

open Regex

/-- Whole-string match of an anchored pattern: `re.MatchString(s)`. -/
def matchString (re : Regex) (s : List Nat) : Bool := re.rmatch (decodeRunes s)

/-! ## The three patterns -/

/-- Class `[a-z0-9!#$%&'*+/=?^_BACKTICK{|}~-]`. -/
def atext : List (Nat × Nat) :=
  [(0x61, 0x7A), (0x30, 0x39), (0x21, 0x21), (0x23, 0x23), (0x24, 0x24), (0x25, 0x25),
   (0x26, 0x26), (0x27, 0x27), (0x2A, 0x2A), (0x2B, 0x2B), (0x2F, 0x2F), (0x3D, 0x3D),
   (0x3F, 0x3F), (0x5E, 0x5E), (0x5F, 0x5F), (0x60, 0x60), (0x7B, 0x7B), (0x7C, 0x7C),
   (0x7D, 0x7D), (0x7E, 0x7E), (0x2D, 0x2D)]

/-- Class `[\x01-\x08\x0b\x0c\x0e-\x1f\x21\x23-\x5b\x5d-\x7f]`. -/
def qtext : List (Nat × Nat) :=
  [(0x01, 0x08), (0x0B, 0x0B), (0x0C, 0x0C), (0x0E, 0x1F), (0x21, 0x21), (0x23, 0x5B),
   (0x5D, 0x7F)]

/-- Class `[\x01-\x09\x0b\x0c\x0e-\x7f]`. -/
def qpair : List (Nat × Nat) := [(0x01, 0x09), (0x0B, 0x0B), (0x0C, 0x0C), (0x0E, 0x7F)]

/-- Class `[\x01-\x08\x0b\x0c\x0e-\x1f\x21-\x5a\x53-\x7f]`. -/
def dtext : List (Nat × Nat) :=
  [(0x01, 0x08), (0x0B, 0x0B), (0x0C, 0x0C), (0x0E, 0x1F), (0x21, 0x5A), (0x53, 0x7F)]

/-- Class `[a-z0-9]`. -/
def alnumLower : List (Nat × Nat) := [(0x61, 0x7A), (0x30, 0x39)]

/-- Class `[a-z0-9-]`. -/
def alnumHyphen : List (Nat × Nat) := [(0x61, 0x7A), (0x30, 0x39), (0x2D, 0x2D)]

/-- Class `[0-9]`. -/
def digit : List (Nat × Nat) := [(0x30, 0x39)]

/-- Part `[a-z0-9!#$%&'*+/=?^_BACKTICK{|}~-]+(?:\.[a-z0-9!#$%&'*+/=?^_BACKTICK{|}~-]+)*`. -/
def rfcDotAtom : Regex :=
  cat (plus (cls true false atext))
    (star (cat (lit true 0x2E) (plus (cls true false atext))))

/-- Part `"(?:[\x01-\x08\x0b\x0c\x0e-\x1f\x21\x23-\x5b\x5d-\x7f]|\\[\x01-\x09\x0b\x0c\x0e-\x7f])*"`. -/
def rfcQuoted : Regex :=
  seq [lit true 0x22,
       star (alt (cls true false qtext) (cat (lit true 0x5C) (cls true false qpair))),
       lit true 0x22]

/-- Part `[a-z0-9](?:[a-z0-9-]*[a-z0-9])?`. -/
def rfcLabel : Regex :=
  cat (cls true false alnumLower)
    (opt (cat (star (cls true false alnumHyphen)) (cls true false alnumLower)))

/-- Part `(?:[a-z0-9](?:[a-z0-9-]*[a-z0-9])?\.)+[a-z0-9](?:[a-z0-9-]*[a-z0-9])?`. -/
def rfcDnsDomain : Regex :=
  cat (plus (cat rfcLabel (lit true 0x2E))) rfcLabel

/-- Part `(2(5[0-5]|[0-4][0-9])|1[0-9][0-9]|[1-9]?[0-9])`. -/
def rfcOctet : Regex :=
  alt (cat (lit true 0x32)
        (alt (cat (lit true 0x35) (cls true false [(0x30, 0x35)]))
             (cat (cls true false [(0x30, 0x34)]) (cls true false digit))))
    (alt (seq [lit true 0x31, cls true false digit, cls true false digit])
         (cat (opt (cls true false [(0x31, 0x39)])) (cls true false digit)))

/-- Part `\[(?:(?:OCTET)\.){3}(?:OCTET|[a-z0-9-]*[a-z0-9]:(?:[\x01-\x08\x0b\x0c\x0e-\x1f\x21-\x5a\x53-\x7f]|\\[\x01-\x09\x0b\x0c\x0e-\x7f])+)\]`. -/
def rfcLiteral : Regex :=
  seq [lit true 0x5B,
       rep 3 (cat rfcOctet (lit true 0x2E)),
       alt rfcOctet
         (seq [star (cls true false alnumHyphen), cls true false alnumLower, lit true 0x3A,
               plus (alt (cls true false dtext) (cat (lit true 0x5C) (cls true false qpair)))]),
       lit true 0x5D]

/-- Pattern `_rfc5322` between `^(?i)` and `$`:
`(?:DOTATOM|QUOTED)@(?:DNSDOMAIN|LITERAL)*`. -/
def _rfc5322Regexp : Regex :=
  seq [alt rfcDotAtom rfcQuoted, lit true 0x40, star (alt rfcDnsDomain rfcLiteral)]

/-- Class `[A-Z0-9._%+-]`. -/
def commonLocalChars : List (Nat × Nat) :=
  [(0x41, 0x5A), (0x30, 0x39), (0x2E, 0x2E), (0x5F, 0x5F), (0x25, 0x25), (0x2B, 0x2B),
   (0x2D, 0x2D)]

/-- Class `[A-Z0-9.-]`. -/
def commonDomainChars : List (Nat × Nat) := [(0x41, 0x5A), (0x30, 0x39), (0x2E, 0x2E), (0x2D, 0x2D)]

/-- Class `[A-Z]`. -/
def upper : List (Nat × Nat) := [(0x41, 0x5A)]

/-- Group `([A-Z0-9._%+-]+@[A-Z0-9.-]+\.[A-Z]{2,24})` of the common pattern. -/
def commonGroup : Regex :=
  seq [plus (cls true false commonLocalChars), lit true 0x40,
       plus (cls true false commonDomainChars), lit true 0x2E,
       repRange 2 24 (cls true false upper)]

/-- Pattern `_commonRegexp` between `^(?i)` and `$`: the group, starred. -/
def _commonRegexp : Regex := star commonGroup

/-- Class `[^@\s\."'\(\)\[\]\{\}\/,:;]`, as a list of the excluded runes; `\s` is
`[\t\n\f\r ]`. -/
def simpleExcluded : List (Nat × Nat) :=
  [(0x40, 0x40), (0x09, 0x0A), (0x0C, 0x0D), (0x20, 0x20), (0x2E, 0x2E), (0x22, 0x22),
   (0x27, 0x27), (0x28, 0x28), (0x29, 0x29), (0x5B, 0x5B), (0x5D, 0x5D), (0x7B, 0x7B),
   (0x7D, 0x7D), (0x2F, 0x2F), (0x2C, 0x2C), (0x3A, 0x3A), (0x3B, 0x3B)]

/-- One label of the simple pattern: `[^@\s\."'\(\)\[\]\{\}\/,:;]+`. -/
def simpleLabel : Regex := plus (cls false true simpleExcluded)

/-- Pattern `_simpleRegexp` between `^` and `$`:
`(LABEL\.)*LABEL@LABEL(\.LABEL)+`. -/
def _simpleRegexp : Regex :=
  seq [star (cat simpleLabel (lit false 0x2E)), simpleLabel, lit false 0x40, simpleLabel,
       plus (cat (lit false 0x2E) simpleLabel)]

/-! ## The parse operations -/

/-- Constant `_maxEmailLength`. -/
def _maxEmailLength : Nat := 254

/-- Constant `_maxLocalLength`. -/
def _maxLocalLength : Nat := 64

/-- Modelled from the spec: the result type `Email`, which `regex.go` uses and
does not declare; its attributes are `Local`, the characters before the final
`@`, and `Domain`, the characters after it. -/
structure Email where
  Local : List Nat
  Domain : List Nat
  deriving DecidableEq

/-- The error values the parse operations return, one for each `fmt.Errorf`. -/
inductive ParseError where
  /-- Message `maximum email length exceeded`. -/
  | emailTooLong
  /-- Message `doesn't match RFC 5322`. -/
  | notRfc5322
  /-- Message `doesn't match common email regexp` (`ParseCommon` and `ParseSimple`). -/
  | notCommon
  /-- Message `maximum local part length exceeded`. -/
  | localTooLong
  /-- Message `failed to convert domain to ASCII: %s`. -/
  | domainToASCII (err : String)
  /-- Message `failed to convert local part to ASCII: %s`. -/
  | localToASCII (err : String)
  deriving DecidableEq

/-- What a call of a parse operation ends in: `(&e, nil)`, `(nil, err)`, or a
run-time panic. -/
inductive Outcome where
  | ok (e : Email)
  | error (err : ParseError)
  | panic
  deriving DecidableEq

/-- Guard `emailIsTooLong`. -/
def emailIsTooLong (emailStr : List Nat) : Bool :=
  if emailStr.length > _maxEmailLength then true else false

/-- Guard `localPartIsTooLong`. -/
def localPartIsTooLong (localPart : List Nat) : Bool :=
  if localPart.length > _maxLocalLength then true else false

/-- Index of the last byte equal to `c`, or `-1`: `strings.LastIndexByte`. -/
def lastIndexByte : List Nat → Nat → Int
  | [], _ => -1
  | b :: t, c =>
    if 0 ≤ lastIndexByte t c then lastIndexByte t c + 1
    else if b = c then 0 else -1

/-- Slice `s[:i]`; `none` is the panic of an index out of range. -/
def sliceTo (s : List Nat) (i : Int) : Option (List Nat) :=
  if 0 ≤ i ∧ i ≤ s.length then some (s.take i.toNat) else none

/-- Slice `s[i:]`; `none` is the panic of an index out of range. -/
def sliceFrom (s : List Nat) (i : Int) : Option (List Nat) :=
  if 0 ≤ i ∧ i ≤ s.length then some (s.drop i.toNat) else none

/-- The split `Email{Local: emailStr[:i], Domain: emailStr[i+1:]}` at
`i := strings.LastIndexByte(emailStr, '@')`. -/
def splitAtLast (emailStr : List Nat) : Option Email :=
  match sliceTo emailStr (lastIndexByte emailStr 0x40),
        sliceFrom emailStr (lastIndexByte emailStr 0x40 + 1) with
  | some l, some d => some ⟨l, d⟩
  | _, _ => none

/-- Operation `ParseRfc5322`. -/
def ParseRfc5322 (emailStr : List Nat) : Outcome :=
  if emailIsTooLong emailStr then .error .emailTooLong
  else if !matchString _rfc5322Regexp emailStr then .error .notRfc5322
  else
    match splitAtLast emailStr with
    | none => .panic
    | some e => if localPartIsTooLong e.Local then .error .localTooLong else .ok e

/-- Operation `ParseCommon`. -/
def ParseCommon (emailStr : List Nat) : Outcome :=
  if emailIsTooLong emailStr then .error .emailTooLong
  else if !matchString _commonRegexp emailStr then .error .notCommon
  else
    match splitAtLast emailStr with
    | none => .panic
    | some e => if localPartIsTooLong e.Local then .error .localTooLong else .ok e

/-- Operation `ParseSimple`, over the conversion `idn.ToASCII`. -/
def ParseSimple (toASCII : List Nat → Except String (List Nat)) (emailStr : List Nat) :
    Outcome :=
  if emailIsTooLong emailStr then .error .emailTooLong
  else if !matchString _simpleRegexp emailStr then .error .notCommon
  else
    match splitAtLast emailStr with
    | none => .panic
    | some e =>
      match toASCII e.Domain with
      | .error err => .error (.domainToASCII err)
      | .ok domainAscii =>
        if domainAscii ≠ e.Domain then
          match toASCII e.Local with
          | .error err => .error (.localToASCII err)
          | .ok localAscii =>
            if localPartIsTooLong localAscii then .error .localTooLong
            else .ok ⟨localAscii, domainAscii⟩
        else if localPartIsTooLong e.Local then .error .localTooLong
        else .ok e

/-! ## Properties of patterns, read off their classes -/

namespace Regex

/-- The character classes an expression is built from. -/
def classes : Regex → List (Bool × Bool × List (Nat × Nat))
  | noMatch => []
  | empty => []
  | cls f n rs => [(f, n, rs)]
  | alt a b => a.classes ++ b.classes
  | cat a b => a.classes ++ b.classes
  | star a => a.classes

/-- No class of the expression holds the rune `c`. -/
def excludesRune (c : Nat) (r : Regex) : Bool :=
  r.classes.all (fun t => !classMatch t.1 t.2.1 t.2.2 c)

/-- Every class of the expression is a positive class of ASCII ranges. -/
def asciiClasses (r : Regex) : Bool :=
  r.classes.all (fun t => !t.2.1 && t.2.2.all (fun p => p.2 < 0x80))

/-- A sufficient test that every text the expression matches holds the rune
`c` (a rune below `A`, which case folding leaves alone) as a literal. -/
def requiresRune (c : Nat) : Regex → Bool
  | noMatch => true
  | empty => false
  | cls _ n rs => !n && rs == [(c, c)] && decide (c < 0x41)
  | alt a b => requiresRune c a && requiresRune c b
  | cat a b => requiresRune c a || requiresRune c b
  | star _ => false

end Regex

/-- A rune that a case-folded class of ASCII ranges can hold: an ASCII rune,
U+017F or U+212A. -/
def foldedAscii (r : Nat) : Bool := decide (r < 0x80) || r == 0x17F || r == 0x212A

/-- ASCII letter or digit. -/
def isAlnum (c : Nat) : Bool :=
  (decide (0x30 ≤ c) && decide (c ≤ 0x39)) || (decide (0x41 ≤ c) && decide (c ≤ 0x5A))
    || (decide (0x61 ≤ c) && decide (c ≤ 0x7A))

/-- ASCII letter. -/
def isAlpha (c : Nat) : Bool :=
  (decide (0x41 ≤ c) && decide (c ≤ 0x5A)) || (decide (0x61 ≤ c) && decide (c ≤ 0x7A))

/-- Labels joined by dots. -/
def joinDots : List (List Nat) → List Nat
  | [] => []
  | [a] => a
  | a :: b :: t => a ++ 0x2E :: joinDots (b :: t)

/-- The labels of a name: the pieces between its dots. -/
def splitDots : List Nat → List (List Nat)
  | [] => [[]]
  | c :: t =>
    if c = 0x2E then [] :: splitDots t
    else
      match splitDots t with
      | [] => [[c]]
      | h :: r => (c :: h) :: r

/-- A name of the plain form: one or more non-empty labels of letters and digits,
then a last label of 2 to 24 letters, to be joined by dots. -/
structure PlainDomain (init : List (List Nat)) (last : List Nat) : Prop where
  init_ne : init ≠ []
  labels : ∀ lab ∈ init, lab ≠ [] ∧ ∀ c ∈ lab, isAlnum c = true
  last_min : 2 ≤ last.length
  last_max : last.length ≤ 24
  last_alpha : ∀ c ∈ last, isAlpha c = true

/-! ## Sample conversions and inputs -/

/-- A conversion that changes nothing: what `ToASCII` does on a plain ASCII name. -/
def toASCIIPlain (s : List Nat) : Except String (List Nat) := Except.ok s

/-- A fragment of the IDNA conversion, label by label: the label `ü` (bytes
`C3 BC`) becomes its Punycode form `xn--tda`, the label `xn--tda` and an ASCII
label that does not begin with `xn--` stay as they are, and any other label is
outside the fragment (reported as an error here). -/
def toASCIIDemo (s : List Nat) : Except String (List Nat) :=
  if (splitDots s).all
      (fun l => l == [0xC3, 0xBC] || l == str "xn--tda"
        || (l.all (fun c => decide (c < 0x80)) && !(str "xn--").isPrefixOf l))
  then
    Except.ok (joinDots ((splitDots s).map
      (fun l => if l = [0xC3, 0xBC] then str "xn--tda" else l)))
  else Except.error "label outside the fragment"

/-- A 255-byte address of valid form: 64 letters, `@`, a 190-byte domain. -/
def longAddress : List Nat :=
  List.replicate 64 0x61 ++ [0x40] ++ List.replicate 62 0x62 ++ [0x2E]
    ++ List.replicate 61 0x63 ++ [0x2E] ++ List.replicate 61 0x64 ++ str ".com"

/-- The 101-byte address `a@ü.ü. ... .ü.com` with 32 labels `ü`. -/
def longIdn : List Nat :=
  str "a@" ++ (List.replicate 32 [0xC3, 0xBC, 0x2E]).flatten ++ str "com"

/-- The 259-byte domain `xn--tda.xn--tda. ... .xn--tda.com` with 32 labels `xn--tda`. -/
def longIdnAscii : List Nat := (List.replicate 32 (str "xn--tda.")).flatten ++ str "com"

/-- The 26 bytes of `"quoted local"@example.com`, the space unescaped. -/
def quotedLocal : List Nat := [0x22] ++ str "quoted local" ++ [0x22] ++ str "@example.com"

/-- The 27 bytes of `"quoted\ local"@example.com`, the space escaped by a backslash. -/
def quotedEscaped : List Nat :=
  [0x22] ++ str "quoted" ++ [0x5C] ++ str " local" ++ [0x22] ++ str "@example.com"

/-- The address `user@K.com` whose `K` is U+212A KELVIN SIGN (bytes `E2 84 AA`). -/
def kelvinAddress : List Nat := str "user@" ++ [0xE2, 0x84, 0xAA] ++ str ".com"

/-- The address `user@bücher.example`, `ü` being the bytes `C3 BC`. -/
def buecherAddress : List Nat := str "user@b" ++ [0xC3, 0xBC] ++ str "cher.example"

/-! ## Further tests on patterns, and a second sample conversion -/

namespace Regex

/-- The expression that matches nothing, as left by a derivative. -/
def isDead : Regex → Bool
  | noMatch => true
  | _ => false

/-- Every class of the expression is case-folded: the expression stands under `(?i)`. -/
def allFold (r : Regex) : Bool := r.classes.all (fun t => t.1)

end Regex

/-- Letter or digit of a Punycode payload. -/
def isAceDigit (c : Nat) : Bool := isAlnum c

/-- A fragment of the IDNA conversion of one label, after `Profile.process` of
`golang.org/x/net/idna` with no option set: the label `ü` becomes `xn--tda`, and
`xn--tda` is decoded and encoded back to itself; a label without the prefix `xn--`
stays as it is; the label `xn--` decodes to the empty label; a label `xn--` + `p`
where `p` has no `-` and holds a byte that is no Punycode digit is an error.  Any
other label is outside the fragment (reported as an error here). -/
def aceLabel (l : List Nat) : Except String (List Nat) :=
  if l = [0xC3, 0xBC] then Except.ok (str "xn--tda")
  else if l = str "xn--tda" then Except.ok l
  else if !(l.all (fun c => decide (c < 0x80))) then Except.error "label outside the fragment"
  else if !(str "xn--").isPrefixOf l then Except.ok l
  else if l.drop 4 = [] then Except.ok []
  else if !(l.drop 4).contains 0x2D && (l.drop 4).any (fun c => !isAceDigit c) then
    Except.error "invalid Punycode"
  else Except.error "label outside the fragment"

/-- The labels of a list converted one by one, the first error returned. -/
def aceLabels : List (List Nat) → Except String (List (List Nat))
  | [] => Except.ok []
  | l :: t =>
    match aceLabel l, aceLabels t with
    | Except.error e, _ => Except.error e
    | Except.ok _, Except.error e => Except.error e
    | Except.ok a, Except.ok r => Except.ok (a :: r)

/-- A sample conversion: the name split at its dots, each label converted by
`aceLabel`, the results joined by dots. -/
def toASCIIAce (s : List Nat) : Except String (List Nat) :=
  match aceLabels (splitDots s) with
  | Except.error e => Except.error e
  | Except.ok ls => Except.ok (joinDots ls)

/-- The lower-case form of a byte: an ASCII capital letter becomes the small one. -/
def lowerAscii (c : Nat) : Nat := if 0x41 ≤ c ∧ c ≤ 0x5A then c + 32 else c

/-- Two strings that differ at most in the case of ASCII letters. -/
def sameUpToCase (s t : List Nat) : Prop := s.map lowerAscii = t.map lowerAscii

instance (s t : List Nat) : Decidable (sameUpToCase s t) := by
  unfold sameUpToCase
  infer_instance

/-- The characters that the description of the simple pattern bars from a label:
whitespace (space, tab, newline, carriage return, form feed) and the punctuation
`" ' ( ) [ ] { } / , : ;`. -/
def labelBarred (c : Nat) : Bool :=
  c == 0x20 || c == 0x09 || c == 0x0A || c == 0x0D || c == 0x0C
    || c == 0x22 || c == 0x27 || c == 0x28 || c == 0x29 || c == 0x5B || c == 0x5D
    || c == 0x7B || c == 0x7D || c == 0x2F || c == 0x2C || c == 0x3A || c == 0x3B

/-- A label of the simple pattern, in the words of its description: not empty,
without dot, without `@`, without a barred character. -/
def IsSimpleLabel (lab : List Nat) : Prop :=
  lab ≠ [] ∧ ∀ c ∈ lab, c ≠ 0x2E ∧ c ≠ 0x40 ∧ labelBarred c = false

/-- The strings the description of the simple pattern admits: one or more labels
joined by single dots, one `@`, then a first label followed by at least one further
label after a dot. -/
def SimpleShape (s : List Nat) : Prop :=
  ∃ Ll Ld : List (List Nat), s = joinDots Ll ++ 0x40 :: joinDots Ld ∧ Ll ≠ [] ∧
    2 ≤ Ld.length ∧ (∀ lab ∈ Ll, IsSimpleLabel lab) ∧ (∀ lab ∈ Ld, IsSimpleLabel lab)

/-- The inputs that the description of the simple pattern lists as rejected: a
leading, trailing or doubled dot on either side of `@`, a domain without dot,
a whitespace character. -/
def SimpleFault (s : List Nat) : Prop :=
  (∃ t, s = 0x2E :: t) ∨ (∃ a, s = a ++ [0x2E]) ∨ (∃ a b, s = a ++ 0x2E :: 0x2E :: b) ∨
  (∃ a b, s = a ++ 0x2E :: 0x40 :: b) ∨ (∃ a b, s = a ++ 0x40 :: 0x2E :: b) ∨
  (∃ l d, s = l ++ 0x40 :: d ∧ 0x2E ∉ d) ∨
  (∃ c ∈ s, c = 0x20 ∨ c = 0x09 ∨ c = 0x0A ∨ c = 0x0D ∨ c = 0x0C)

/-- Letter or digit under `(?i)`: an ASCII letter or digit, or one of the two
runes that fold to a letter, U+017F and U+212A. -/
def letterDigit (c : Nat) : Bool := isAlnum c || c == 0x17F || c == 0x212A

/-- Letter under `(?i)`: an ASCII letter, U+017F or U+212A. -/
def letterFold (c : Nat) : Bool := isAlpha c || c == 0x17F || c == 0x212A

/-- A DNS label in the words of the description: letters, digits and hyphens, the
first and the last a letter or digit. -/
def IsDnsLabel (lab : List Nat) : Prop :=
  (∀ c ∈ lab, letterDigit c = true ∨ c = 0x2D) ∧
  (∃ c t, lab = c :: t ∧ letterDigit c = true) ∧
  (∃ t c, lab = t ++ [c] ∧ letterDigit c = true)

/-- A DNS-label domain in the words of the description: two or more DNS labels
joined by dots. -/
def IsDnsDomain (w : List Nat) : Prop :=
  ∃ L : List (List Nat), 2 ≤ L.length ∧ w = joinDots L ∧ ∀ lab ∈ L, IsDnsLabel lab

/-- Rune of `[A-Za-z0-9._%+-]` under `(?i)`. -/
def commonLocalRune (c : Nat) : Bool :=
  letterDigit c || c == 0x2E || c == 0x5F || c == 0x25 || c == 0x2B || c == 0x2D

/-- Rune of `[A-Za-z0-9.-]` under `(?i)`. -/
def commonDomainRune (c : Nat) : Bool := letterDigit c || c == 0x2E || c == 0x2D

/-- One occurrence of `[A-Za-z0-9._%+-]+ @ [A-Za-z0-9.-]+ . [A-Za-z]{2,24}`, the
classes read under `(?i)`. -/
def CommonOccurrence (w : List Nat) : Prop :=
  ∃ l d t : List Nat, w = l ++ 0x40 :: (d ++ 0x2E :: t) ∧
    l ≠ [] ∧ (∀ c ∈ l, commonLocalRune c = true) ∧
    d ≠ [] ∧ (∀ c ∈ d, commonDomainRune c = true) ∧
    2 ≤ t.length ∧ t.length ≤ 24 ∧ ∀ c ∈ t, letterFold c = true

/-- The 5 bytes of `"a@b"`, a quoted local part that holds an `@`. -/
def quotedAtLocal : List Nat := [0x22] ++ str "a@b" ++ [0x22]

/-- The 17 bytes of `"a@b"@example.com`. -/
def quotedAt : List Nat := quotedAtLocal ++ str "@example.com"

/-! ## Reading runes from bytes -/

theorem isCont_ascii {c : Nat} (hc : c < 0x80) : isCont c = false := by
  simp [isCont]; omega

theorem decode2_append (x c : Nat) (a b : List Nat) (hc : c < 0x80) :
    decode2 x (a ++ c :: b) = decode2 x a := by
  have hc' := isCont_ascii hc
  rcases a with _ | ⟨a1, a⟩ <;> simp [decode2, hc']

theorem decode3_append (x c : Nat) (a b : List Nat) (hc : c < 0x80) :
    decode3 x (a ++ c :: b) = decode3 x a := by
  have hc' := isCont_ascii hc
  rcases a with _ | ⟨a1, _ | ⟨a2, a⟩⟩
  · have h : c < (if x = 0xE0 then 0xA0 else 0x80) := by split_ifs <;> omega
    simp [decode3, h]
  · simp [decode3, hc']
  · have h1 : ¬ ((a ++ c :: b).length + 1 + 1 < 2) := by omega
    have h2 : ¬ (a.length + 1 + 1 < 2) := by omega
    simp only [decode3, List.cons_append, List.length_cons, List.getD_cons_zero,
      List.getD_cons_succ, h1, h2, if_false]

theorem decode4_append (x c : Nat) (a b : List Nat) (hc : c < 0x80) :
    decode4 x (a ++ c :: b) = decode4 x a := by
  have hc' := isCont_ascii hc
  rcases a with _ | ⟨a1, _ | ⟨a2, _ | ⟨a3, a⟩⟩⟩
  · have h : c < (if x = 0xF0 then 0x90 else 0x80) := by split_ifs <;> omega
    simp [decode4, h]
  · simp [decode4, hc']
  · simp [decode4, hc']
  · have h1 : ¬ ((a ++ c :: b).length + 1 + 1 + 1 < 3) := by omega
    have h2 : ¬ (a.length + 1 + 1 + 1 < 3) := by omega
    simp only [decode4, List.cons_append, List.length_cons, List.getD_cons_zero,
      List.getD_cons_succ, h1, h2, if_false]

theorem decodeRune_append (x c : Nat) (a b : List Nat) (hc : c < 0x80) :
    decodeRune (x :: (a ++ c :: b)) = decodeRune (x :: a) := by
  simp only [decodeRune, decode2_append _ _ _ _ hc, decode3_append _ _ _ _ hc,
    decode4_append _ _ _ _ hc]

theorem decodeRune_width (x : Nat) (a : List Nat) :
    1 ≤ (decodeRune (x :: a)).2 ∧ (decodeRune (x :: a)).2 ≤ a.length + 1 := by
  simp only [decodeRune, decode2, decode3, decode4]
  split_ifs <;> (dsimp only; omega)

theorem decode2_ge (x : Nat) (t : List Nat) (hx : 0xC2 ≤ x ∧ x ≤ 0xDF) :
    0x80 ≤ (decode2 x t).1 := by
  simp only [decode2]
  split_ifs <;> (dsimp only; omega)

theorem decode3_ge (x : Nat) (t : List Nat) (hx : 0xE0 ≤ x ∧ x ≤ 0xEF) :
    0x80 ≤ (decode3 x t).1 := by
  simp only [decode3]
  split_ifs <;> (dsimp only; omega)

theorem decode4_ge (x : Nat) (t : List Nat) (hx : 0xF0 ≤ x ∧ x ≤ 0xF4) :
    0x80 ≤ (decode4 x t).1 := by
  simp only [decode4]
  split_ifs <;> (dsimp only; omega)

theorem decodeRune_ascii (x : Nat) (a : List Nat) (h : (decodeRune (x :: a)).1 < 0x80) :
    (decodeRune (x :: a)).1 = x ∧ x < 0x80 := by
  simp only [decodeRune] at h ⊢
  split_ifs at h ⊢ with h1 h2 h3 h4
  · exact ⟨rfl, h1⟩
  · have := decode2_ge x a h2; omega
  · have := decode3_ge x a h3; omega
  · have := decode4_ge x a h4; omega
  · simp at h

theorem decodeRune_of_ascii (x : Nat) (a : List Nat) (hx : x < 0x80) :
    decodeRune (x :: a) = (x, 1) := by
  simp [decodeRune, hx]

/-- Reading across an ASCII byte: the runes before it, the byte, the runes after it. -/
theorem decodeFrom_append (c : Nat) (hc : c < 0x80) (b : List Nat) :
    ∀ (a : List Nat) (k : Nat), k ≤ a.length →
      decodeFrom (a ++ c :: b) k = decodeFrom a k ++ c :: decodeRunes b := by
  intro a
  induction a with
  | nil =>
    intro k hk
    have hk0 : k = 0 := by simpa using hk
    subst hk0
    simp [decodeFrom, decodeRunes, decodeRune_of_ascii _ _ hc]
  | cons x a ih =>
    intro k hk
    cases k with
    | zero =>
      have hw := decodeRune_width x a
      have e : decodeFrom (x :: (a ++ c :: b)) 0
          = (decodeRune (x :: (a ++ c :: b))).1
              :: decodeFrom (a ++ c :: b) ((decodeRune (x :: (a ++ c :: b))).2 - 1) := rfl
      rw [List.cons_append, e, decodeRune_append x c a b hc, ih _ (by omega)]
      rfl
    | succ k =>
      have e : decodeFrom (x :: (a ++ c :: b)) (k + 1) = decodeFrom (a ++ c :: b) k := rfl
      rw [List.cons_append, e, ih k (by simpa using hk)]
      rfl

theorem decodeRunes_append (a b : List Nat) (c : Nat) (hc : c < 0x80) :
    decodeRunes (a ++ c :: b) = decodeRunes a ++ c :: decodeRunes b :=
  decodeFrom_append c hc b a 0 (Nat.zero_le _)

theorem decodeRunes_cons_ascii (c : Nat) (b : List Nat) (hc : c < 0x80) :
    decodeRunes (c :: b) = c :: decodeRunes b := by
  simpa [decodeRunes, decodeFrom] using decodeRunes_append [] b c hc

/-- A string of ASCII bytes reads as itself. -/
theorem decodeRunes_ascii (s : List Nat) (h : ∀ x ∈ s, x < 0x80) : decodeRunes s = s := by
  induction s with
  | nil => rfl
  | cons x s ih =>
    rw [decodeRunes_cons_ascii x s (h x (List.mem_cons_self _ _)),
      ih (fun y hy => h y (List.mem_cons_of_mem _ hy))]

/-- An ASCII rune that is read stands in the string as a byte. -/
theorem mem_of_mem_decodeFrom (r : Nat) (hr : r < 0x80) :
    ∀ (s : List Nat) (k : Nat), r ∈ decodeFrom s k → r ∈ s := by
  intro s
  induction s with
  | nil => intro k h; simp [decodeFrom] at h
  | cons x s ih =>
    intro k h
    cases k with
    | zero =>
      simp only [decodeFrom, List.mem_cons] at h
      rcases h with h | h
      · have := decodeRune_ascii x s (h ▸ hr)
        exact List.mem_cons.mpr (Or.inl (h.trans this.1))
      · exact List.mem_cons_of_mem _ (ih _ h)
    | succ k =>
      simp only [decodeFrom] at h
      exact List.mem_cons_of_mem _ (ih _ h)

theorem mem_of_mem_decodeRunes {r : Nat} {s : List Nat} (hr : r < 0x80)
    (h : r ∈ decodeRunes s) : r ∈ s :=
  mem_of_mem_decodeFrom r hr s 0 h

/-- An ASCII byte of the string is read as that rune. -/
theorem mem_decodeRunes_of_mem {c : Nat} {s : List Nat} (hc : c < 0x80) (h : c ∈ s) :
    c ∈ decodeRunes s := by
  obtain ⟨a, b, rfl⟩ := List.append_of_mem h
  rw [decodeRunes_append a b c hc]
  simp

/-! ## The matcher decides the language -/

namespace Regex

theorem nullable_iff (r : Regex) : r.nullable = true ↔ [] ∈ r.lang := by
  induction r with
  | noMatch => simp [nullable, lang, Language.not_mem_zero]
  | empty => simp [nullable, lang, Language.mem_one]
  | cls f n rs =>
    simp only [nullable, lang]
    constructor
    · intro h; cases h
    · rintro ⟨c, hc, -⟩; cases hc
  | alt a b iha ihb => simp [nullable, lang, Language.mem_add, iha, ihb]
  | cat a b iha ihb =>
    simp only [nullable, lang, Bool.and_eq_true, iha, ihb, Language.mem_mul]
    constructor
    · rintro ⟨h1, h2⟩; exact ⟨[], h1, [], h2, rfl⟩
    · rintro ⟨u, hu, v, hv, huv⟩
      obtain ⟨rfl, rfl⟩ := List.append_eq_nil.mp huv
      exact ⟨hu, hv⟩
  | star a _ => simp [nullable, lang, Language.nil_mem_kstar]

theorem lang_mkAlt (a b : Regex) : (mkAlt a b).lang = a.lang + b.lang := by
  cases a <;> cases b <;> simp [mkAlt, lang]

theorem lang_mkCat (a b : Regex) : (mkCat a b).lang = a.lang * b.lang := by
  cases a <;> simp [mkCat, lang]

theorem cons_mem_mul {l m : Language Nat} {c : Nat} {w : List Nat} :
    c :: w ∈ l * m ↔
      ([] ∈ l ∧ c :: w ∈ m) ∨ ∃ u v, c :: u ∈ l ∧ v ∈ m ∧ u ++ v = w := by
  rw [Language.mem_mul]
  constructor
  · rintro ⟨u, hu, v, hv, huv⟩
    cases u with
    | nil => left; simp only [List.nil_append] at huv; subst huv; exact ⟨hu, hv⟩
    | cons x u =>
      right
      simp only [List.cons_append, List.cons.injEq] at huv
      obtain ⟨rfl, rfl⟩ := huv
      exact ⟨u, v, hu, hv, rfl⟩
  · rintro (⟨h1, h2⟩ | ⟨u, v, hu, hv, rfl⟩)
    · exact ⟨[], h1, _, h2, rfl⟩
    · exact ⟨_, hu, _, hv, rfl⟩

theorem cons_mem_kstar {l : Language Nat} {c : Nat} {w : List Nat} :
    c :: w ∈ KStar.kstar l ↔ ∃ u v, c :: u ∈ l ∧ v ∈ KStar.kstar l ∧ u ++ v = w := by
  constructor
  · intro h
    rw [Language.mem_kstar_iff_exists_nonempty] at h
    obtain ⟨S, hS, hmem⟩ := h
    cases S with
    | nil => simp at hS
    | cons x S =>
      have hx := hmem x (List.mem_cons_self _ _)
      cases x with
      | nil => exact absurd rfl hx.2
      | cons y x =>
        simp only [List.flatten_cons, List.cons_append, List.cons.injEq] at hS
        obtain ⟨rfl, rfl⟩ := hS
        refine ⟨x, S.flatten, hx.1, ?_, rfl⟩
        exact Language.join_mem_kstar (fun z hz => (hmem z (List.mem_cons_of_mem _ hz)).1)
  · rintro ⟨u, v, hu, hv, rfl⟩
    rw [Language.mem_kstar] at hv ⊢
    obtain ⟨S, rfl, hS⟩ := hv
    refine ⟨(c :: u) :: S, by simp, ?_⟩
    intro y hy
    rcases List.mem_cons.mp hy with rfl | hy
    · exact hu
    · exact hS y hy

theorem mem_lang_deriv (r : Regex) (c : Nat) (w : List Nat) :
    w ∈ (r.deriv c).lang ↔ c :: w ∈ r.lang := by
  induction r generalizing w with
  | noMatch => simp [deriv, lang, Language.not_mem_zero]
  | empty => simp [deriv, lang, Language.not_mem_zero, Language.mem_one]
  | cls f n rs =>
    simp only [deriv, lang]
    by_cases h : classMatch f n rs c = true
    · simp only [h, if_true, lang, Language.mem_one]
      constructor
      · rintro rfl; exact ⟨c, rfl, h⟩
      · rintro ⟨d, hd, -⟩
        simp only [List.cons.injEq] at hd
        exact hd.2
    · simp only [h, lang]
      constructor
      · intro hw; exact absurd hw (Language.not_mem_zero _)
      · rintro ⟨d, hd, hm⟩
        simp only [List.cons.injEq] at hd
        obtain ⟨rfl, -⟩ := hd
        exact absurd hm h
  | alt a b iha ihb => simp [deriv, lang, lang_mkAlt, Language.mem_add, iha, ihb]
  | cat a b iha ihb =>
    simp only [deriv, lang]
    rw [cons_mem_mul]
    by_cases h : a.nullable = true
    · simp only [h, if_true, lang_mkAlt, lang_mkCat, Language.mem_add, Language.mem_mul, ihb]
      have h0 := (nullable_iff a).mp h
      constructor
      · rintro (⟨u, hu, v, hv, rfl⟩ | hb)
        · exact Or.inr ⟨u, v, (iha u).mp hu, hv, rfl⟩
        · exact Or.inl ⟨h0, hb⟩
      · rintro (⟨-, hb⟩ | ⟨u, v, hu, hv, rfl⟩)
        · exact Or.inr hb
        · exact Or.inl ⟨u, (iha u).mpr hu, v, hv, rfl⟩
    · have h0 : [] ∉ a.lang := fun hx => h ((nullable_iff a).mpr hx)
      rw [if_neg h]
      simp only [lang_mkCat, Language.mem_mul]
      constructor
      · rintro ⟨u, hu, v, hv, rfl⟩
        exact Or.inr ⟨u, v, (iha u).mp hu, hv, rfl⟩
      · rintro (⟨hx, -⟩ | ⟨u, v, hu, hv, rfl⟩)
        · exact absurd hx h0
        · exact ⟨u, (iha u).mpr hu, v, hv, rfl⟩
  | star a iha =>
    simp only [deriv, lang, lang_mkCat, Language.mem_mul]
    rw [cons_mem_kstar]
    constructor
    · rintro ⟨u, hu, v, hv, rfl⟩
      exact ⟨u, v, (iha u).mp hu, hv, rfl⟩
    · rintro ⟨u, v, hu, hv, rfl⟩
      exact ⟨u, (iha u).mpr hu, v, hv, rfl⟩

theorem rmatch_iff (r : Regex) (w : List Nat) : r.rmatch w = true ↔ w ∈ r.lang := by
  induction w generalizing r with
  | nil => simpa [rmatch] using nullable_iff r
  | cons c w ih => simp only [rmatch, ih, mem_lang_deriv]

end Regex

theorem matchString_iff (re : Regex) (s : List Nat) :
    matchString re s = true ↔ decodeRunes s ∈ re.lang := by
  simp only [matchString, Regex.rmatch_iff]


/-! ## The split at the last separator -/

theorem lastIndexByte_lt (s : List Nat) (c : Nat) :
    -1 ≤ lastIndexByte s c ∧ lastIndexByte s c < s.length := by
  induction s with
  | nil => simp [lastIndexByte]
  | cons b t ih =>
    simp only [lastIndexByte, List.length_cons]
    split_ifs <;> omega

theorem lastIndexByte_not_mem (s : List Nat) (c : Nat) (h : c ∉ s) :
    lastIndexByte s c = -1 := by
  induction s with
  | nil => rfl
  | cons b t ih =>
    have hb : ¬ b = c := fun e => h (e ▸ List.mem_cons_self _ _)
    have ht := ih (fun hm => h (List.mem_cons_of_mem _ hm))
    simp [lastIndexByte, ht, hb]

theorem lastIndexByte_append (l d : List Nat) (c : Nat) (h : c ∉ d) :
    lastIndexByte (l ++ c :: d) c = l.length := by
  induction l with
  | nil => simp [lastIndexByte, lastIndexByte_not_mem d c h]
  | cons b t ih =>
    have e : lastIndexByte (b :: (t ++ c :: d)) c
        = if 0 ≤ lastIndexByte (t ++ c :: d) c then lastIndexByte (t ++ c :: d) c + 1
          else if b = c then 0 else -1 := rfl
    rw [List.cons_append, e, ih, if_pos (by omega), List.length_cons]
    push_cast
    rfl

/-- A string that holds `c` splits at its last `c`. -/
theorem exists_last_split (s : List Nat) (c : Nat) (h : c ∈ s) :
    ∃ l d, s = l ++ c :: d ∧ c ∉ d := by
  induction s with
  | nil => simp at h
  | cons b t ih =>
    by_cases ht : c ∈ t
    · obtain ⟨l, d, rfl, hd⟩ := ih ht
      exact ⟨b :: l, d, rfl, hd⟩
    · rcases List.mem_cons.mp h with rfl | h'
      · exact ⟨[], t, rfl, ht⟩
      · exact absurd h' ht

theorem splitAtLast_append (l d : List Nat) (h : 0x40 ∉ d) :
    splitAtLast (l ++ 0x40 :: d) = some ⟨l, d⟩ := by
  have hi := lastIndexByte_append l d 0x40 h
  simp only [splitAtLast, hi, sliceTo, sliceFrom]
  have h1 : (0 : Int) ≤ (l.length : Int) ∧ (l.length : Int) ≤ ((l ++ 0x40 :: d).length : Int) := by
    simp only [List.length_append, List.length_cons]
    push_cast
    omega
  have h2 : (0 : Int) ≤ (l.length : Int) + 1
      ∧ (l.length : Int) + 1 ≤ ((l ++ 0x40 :: d).length : Int) := by
    simp only [List.length_append, List.length_cons]
    push_cast
    omega
  rw [if_pos h1, if_pos h2]
  have e1 : ((l.length : Int)).toNat = l.length := by simp
  have e2 : ((l.length : Int) + 1).toNat = l.length + 1 := by omega
  simp only [e1, e2, List.take_left', List.drop_append_eq_append_drop]
  simp

theorem splitAtLast_not_mem (s : List Nat) (h : 0x40 ∉ s) : splitAtLast s = none := by
  simp [splitAtLast, lastIndexByte_not_mem s 0x40 h, sliceTo]

/-- The split succeeds exactly on the strings that hold an `@`, and cuts at the last one. -/
theorem splitAtLast_eq_some {s : List Nat} {e : Email} (h : splitAtLast s = some e) :
    s = e.Local ++ 0x40 :: e.Domain ∧ 0x40 ∉ e.Domain := by
  by_cases hm : 0x40 ∈ s
  · obtain ⟨l, d, rfl, hd⟩ := exists_last_split s 0x40 hm
    rw [splitAtLast_append l d hd] at h
    cases h
    exact ⟨rfl, hd⟩
  · rw [splitAtLast_not_mem s hm] at h
    cases h

theorem emailIsTooLong_iff (s : List Nat) : emailIsTooLong s = true ↔ 254 < s.length := by
  simp [emailIsTooLong, _maxEmailLength]

theorem localPartIsTooLong_iff (s : List Nat) : localPartIsTooLong s = true ↔ 64 < s.length := by
  simp [localPartIsTooLong, _maxLocalLength]

/-- What a successful strict parse says about its input. -/
theorem ParseRfc5322_ok {s : List Nat} {e : Email} (h : ParseRfc5322 s = Outcome.ok e) :
    s.length ≤ 254 ∧ matchString _rfc5322Regexp s = true ∧ splitAtLast s = some e
      ∧ e.Local.length ≤ 64 := by
  unfold ParseRfc5322 at h
  split_ifs at h with h1 h2
  cases hs : splitAtLast s with
  | none => simp [hs] at h
  | some e' =>
    simp only [hs] at h
    split_ifs at h with h3
    cases h
    refine ⟨?_, by simpa using h2, rfl, ?_⟩
    · have := (emailIsTooLong_iff s).not.mp h1; omega
    · have := (localPartIsTooLong_iff _).not.mp h3; omega

/-- What a successful common parse says about its input. -/
theorem ParseCommon_ok {s : List Nat} {e : Email} (h : ParseCommon s = Outcome.ok e) :
    s.length ≤ 254 ∧ matchString _commonRegexp s = true ∧ splitAtLast s = some e
      ∧ e.Local.length ≤ 64 := by
  unfold ParseCommon at h
  split_ifs at h with h1 h2
  cases hs : splitAtLast s with
  | none => simp [hs] at h
  | some e' =>
    simp only [hs] at h
    split_ifs at h with h3
    cases h
    refine ⟨?_, by simpa using h2, rfl, ?_⟩
    · have := (emailIsTooLong_iff s).not.mp h1; omega
    · have := (localPartIsTooLong_iff _).not.mp h3; omega

/-- What a successful simple parse says about its input: the split `e0` of the
input, and the two ways the result comes from it. -/
theorem ParseSimple_ok {toASCII : List Nat → Except String (List Nat)} {s : List Nat}
    {e : Email} (h : ParseSimple toASCII s = Outcome.ok e) :
    s.length ≤ 254 ∧ matchString _simpleRegexp s = true ∧ e.Local.length ≤ 64 ∧
      ∃ e0, splitAtLast s = some e0 ∧ toASCII e0.Domain = Except.ok e.Domain ∧
        ((e.Domain = e0.Domain ∧ e.Local = e0.Local) ∨
         (e.Domain ≠ e0.Domain ∧ toASCII e0.Local = Except.ok e.Local)) := by
  unfold ParseSimple at h
  split_ifs at h with h1 h2
  have hlen : s.length ≤ 254 := by
    have := (emailIsTooLong_iff s).not.mp h1; omega
  cases hs : splitAtLast s with
  | none => simp [hs] at h
  | some e0 =>
    simp only [hs] at h
    cases hd : toASCII e0.Domain with
    | error err => simp [hd] at h
    | ok dA =>
      simp only [hd] at h
      split_ifs at h with h3 h4
      · cases hl : toASCII e0.Local with
        | error err => simp [hl] at h
        | ok lA =>
          simp only [hl] at h
          split_ifs at h with h5
          cases h
          refine ⟨hlen, by simpa using h2, ?_, e0, rfl, hd, Or.inr ⟨h3, hl⟩⟩
          have := (localPartIsTooLong_iff lA).not.mp h5
          simpa using this
      · have h3' : dA = e0.Domain := by simpa using h3
        have h6 := (localPartIsTooLong_iff e0.Local).not.mp h4
        cases h
        refine ⟨hlen, by simpa using h2, by omega, _, rfl, by rw [hd, h3'], Or.inl ⟨rfl, rfl⟩⟩

/-! ## Languages of the building blocks -/

namespace Regex

theorem lang_forall (P : Nat → Prop) :
    ∀ (r : Regex), (∀ t ∈ r.classes, ∀ c, classMatch t.1 t.2.1 t.2.2 c = true → P c) →
      ∀ w ∈ r.lang, ∀ x ∈ w, P x := by
  intro r
  induction r with
  | noMatch => intro _ w hw; exact absurd hw (Language.not_mem_zero _)
  | empty =>
    intro _ w hw x hx
    rw [lang, Language.mem_one] at hw
    subst hw
    simp at hx
  | cls f n rs =>
    intro h w hw x hx
    obtain ⟨c, rfl, hc⟩ := hw
    rw [List.mem_singleton] at hx
    subst hx
    exact h (f, n, rs) (by simp [classes]) _ hc
  | alt a b iha ihb =>
    intro h w hw x hx
    rcases (Language.mem_add _ _ _).mp hw with hw | hw
    · exact iha (fun t ht => h t (by simp [classes, ht])) w hw x hx
    · exact ihb (fun t ht => h t (by simp [classes, ht])) w hw x hx
  | cat a b iha ihb =>
    intro h w hw x hx
    obtain ⟨u, hu, v, hv, rfl⟩ := Language.mem_mul.mp hw
    rcases List.mem_append.mp hx with hx | hx
    · exact iha (fun t ht => h t (by simp [classes, ht])) u hu x hx
    · exact ihb (fun t ht => h t (by simp [classes, ht])) v hv x hx
  | star a iha =>
    intro h w hw x hx
    obtain ⟨L, rfl, hL⟩ := Language.mem_kstar.mp hw
    obtain ⟨y, hy, hxy⟩ := List.mem_flatten.mp hx
    exact iha (fun t ht => h t (by simpa [classes] using ht)) y (hL y hy) x hxy

/-- A rune that no class holds is in no matched text. -/
theorem not_mem_of_excludesRune {c : Nat} {r : Regex} (h : excludesRune c r = true)
    {w : List Nat} (hw : w ∈ r.lang) : c ∉ w := by
  intro hc
  refine lang_forall (fun x => x ≠ c) r ?_ w hw c hc rfl
  intro t ht x hx hxc
  subst hxc
  have := (List.all_eq_true.mp h) t ht
  simp [hx] at this

theorem foldOrbit_small {y r : Nat} (hy : y ∈ foldOrbit r) (h : y < 0x41) : y = r := by
  unfold foldOrbit at hy
  split_ifs at hy <;> simp at hy <;> omega

theorem foldOrbit_ascii {y r : Nat} (hy : y ∈ foldOrbit r) (h : y < 0x80) :
    foldedAscii r = true := by
  unfold foldOrbit at hy
  simp only [foldedAscii, Bool.or_eq_true, decide_eq_true_eq, beq_iff_eq]
  split_ifs at hy <;> simp at hy <;> omega

theorem inRanges_le {rs : List (Nat × Nat)} {y b : Nat} (h : ∀ p ∈ rs, p.2 < b)
    (hy : inRanges rs y = true) : y < b := by
  simp only [inRanges, List.any_eq_true, Bool.and_eq_true, decide_eq_true_eq] at hy
  obtain ⟨p, hp, -, h2⟩ := hy
  have := h p hp
  omega

/-- A positive class of ASCII ranges holds only ASCII runes, U+017F and U+212A. -/
theorem classMatch_foldedAscii {f : Bool} {rs : List (Nat × Nat)} {c : Nat}
    (h : ∀ p ∈ rs, p.2 < 0x80) (hc : classMatch f false rs c = true) :
    foldedAscii c = true := by
  simp only [classMatch, Bool.false_xor] at hc
  cases f with
  | true =>
    simp only [if_true, List.any_eq_true] at hc
    obtain ⟨y, hy, hin⟩ := hc
    exact foldOrbit_ascii hy (inRanges_le h hin)
  | false =>
    simp only [Bool.false_eq_true, if_false] at hc
    have := inRanges_le h hc
    simp [foldedAscii, this]

/-- Every rune of a text matched by an expression of ASCII classes. -/
theorem foldedAscii_of_asciiClasses {r : Regex} (h : asciiClasses r = true)
    {w : List Nat} (hw : w ∈ r.lang) : ∀ x ∈ w, foldedAscii x = true := by
  refine lang_forall (fun x => foldedAscii x = true) r ?_ w hw
  intro t ht c hc
  have := (List.all_eq_true.mp h) t ht
  simp only [Bool.and_eq_true, Bool.not_eq_true', List.all_eq_true, decide_eq_true_eq] at this
  obtain ⟨f, n, rs⟩ := t
  simp only at this hc
  obtain ⟨hn, hrs⟩ := this
  subst hn
  exact classMatch_foldedAscii hrs hc

/-- A literal that every branch passes through is in every matched text. -/
theorem mem_of_requiresRune {c : Nat} :
    ∀ {r : Regex}, requiresRune c r = true → ∀ {w : List Nat}, w ∈ r.lang → c ∈ w := by
  intro r
  induction r with
  | noMatch => intro _ w hw; exact absurd hw (Language.not_mem_zero _)
  | empty => intro h; simp [requiresRune] at h
  | cls f n rs =>
    intro h w hw
    simp only [requiresRune, Bool.and_eq_true, Bool.not_eq_true', beq_iff_eq,
      decide_eq_true_eq] at h
    obtain ⟨⟨hn, hrs⟩, hc⟩ := h
    obtain ⟨x, rfl, hx⟩ := hw
    subst hn hrs
    have hx' : ∃ y ∈ foldOrbit x, y = c ∨ (f = false ∧ x = c) := by
      simp only [classMatch, Bool.false_xor] at hx
      cases f with
      | true =>
        simp only [if_true, List.any_eq_true, inRanges, List.any_cons, List.any_nil,
          Bool.or_false, Bool.and_eq_true, decide_eq_true_eq] at hx
        obtain ⟨y, hy, h1, h2⟩ := hx
        exact ⟨y, hy, Or.inl (by omega)⟩
      | false =>
        simp only [Bool.false_eq_true, if_false, inRanges, List.any_cons, List.any_nil,
          Bool.or_false, Bool.and_eq_true, decide_eq_true_eq] at hx
        have hxc : x = c := by omega
        have : x ∈ foldOrbit x := by
          unfold foldOrbit; split_ifs <;> simp <;> omega
        exact ⟨x, this, Or.inr ⟨rfl, hxc⟩⟩
    obtain ⟨y, hy, h1 | ⟨-, h2⟩⟩ := hx'
    · subst h1
      rw [foldOrbit_small hy hc]
      simp
    · subst h2; simp
  | alt a b iha ihb =>
    intro h w hw
    simp only [requiresRune, Bool.and_eq_true] at h
    rcases (Language.mem_add _ _ _).mp hw with hw | hw
    · exact iha h.1 hw
    · exact ihb h.2 hw
  | cat a b iha ihb =>
    intro h w hw
    simp only [requiresRune, Bool.or_eq_true] at h
    obtain ⟨u, hu, v, hv, rfl⟩ := Language.mem_mul.mp hw
    rcases h with h | h
    · exact List.mem_append_left _ (iha h hu)
    · exact List.mem_append_right _ (ihb h hv)
  | star a _ => intro h; simp [requiresRune] at h

theorem mem_lang_cls {f n : Bool} {rs : List (Nat × Nat)} {c : Nat}
    (h : classMatch f n rs c = true) : [c] ∈ (cls f n rs).lang :=
  ⟨c, rfl, h⟩

theorem mem_lang_lit (f : Bool) (c : Nat) (hc : c < 0x41) : [c] ∈ (lit f c).lang := by
  refine mem_lang_cls ?_
  have horb : foldOrbit c = [c] := by
    unfold foldOrbit; split_ifs <;> first | rfl | omega
  cases f <;> simp [classMatch, inRanges, horb]

theorem mem_lang_cat {a b : Regex} {u v : List Nat} (hu : u ∈ a.lang) (hv : v ∈ b.lang) :
    u ++ v ∈ (cat a b).lang :=
  Language.append_mem_mul hu hv

theorem mem_lang_star_flatten {a : Regex} {L : List (List Nat)} (h : ∀ y ∈ L, y ∈ a.lang) :
    L.flatten ∈ (star a).lang :=
  Language.join_mem_kstar h

theorem mem_lang_star_self {a : Regex} {w : List Nat} (h : w ∈ a.lang) : w ∈ (star a).lang := by
  have := mem_lang_star_flatten (a := a) (L := [w]) (by simpa using h)
  simpa using this

theorem nil_mem_lang_star (a : Regex) : [] ∈ (star a).lang :=
  Language.nil_mem_kstar _

theorem mem_lang_plus_flatten {a : Regex} {L : List (List Nat)} (hne : L ≠ [])
    (h : ∀ y ∈ L, y ∈ a.lang) : L.flatten ∈ (plus a).lang := by
  cases L with
  | nil => exact absurd rfl hne
  | cons y L =>
    rw [List.flatten_cons]
    exact mem_lang_cat (h y (List.mem_cons_self _ _))
      (mem_lang_star_flatten (fun z hz => h z (List.mem_cons_of_mem _ hz)))

theorem mem_lang_star_cls {f n : Bool} {rs : List (Nat × Nat)} {w : List Nat}
    (h : ∀ c ∈ w, classMatch f n rs c = true) : w ∈ (star (cls f n rs)).lang := by
  have := mem_lang_star_flatten (a := cls f n rs) (L := w.map (fun c => [c])) (by
    intro y hy
    obtain ⟨c, hc, rfl⟩ := List.mem_map.mp hy
    exact mem_lang_cls (h c hc))
  have e : (w.map (fun c => [c])).flatten = w := by
    clear this h
    induction w with
    | nil => rfl
    | cons c w ih => simp [ih]
  rwa [e] at this

theorem mem_lang_plus_cls {f n : Bool} {rs : List (Nat × Nat)} {w : List Nat} (hne : w ≠ [])
    (h : ∀ c ∈ w, classMatch f n rs c = true) : w ∈ (plus (cls f n rs)).lang := by
  cases w with
  | nil => exact absurd rfl hne
  | cons c w =>
    exact mem_lang_cat (u := [c]) (mem_lang_cls (h c (List.mem_cons_self _ _)))
      (mem_lang_star_cls (fun z hz => h z (List.mem_cons_of_mem _ hz)))

theorem mem_lang_opt_nil (a : Regex) : [] ∈ (opt a).lang :=
  (Language.mem_add _ _ _).mpr (Or.inr (by simp [lang, Language.mem_one]))

theorem mem_lang_opt_self {a : Regex} {w : List Nat} (h : w ∈ a.lang) : w ∈ (opt a).lang :=
  (Language.mem_add _ _ _).mpr (Or.inl h)

theorem mem_lang_rep_cls {f n : Bool} {rs : List (Nat × Nat)} :
    ∀ (k : Nat) (w : List Nat), w.length = k → (∀ c ∈ w, classMatch f n rs c = true) →
      w ∈ (rep k (cls f n rs)).lang := by
  intro k
  induction k with
  | zero =>
    intro w hw _
    have : w = [] := List.length_eq_zero.mp hw
    subst this
    simp [rep, lang, Language.mem_one]
  | succ k ih =>
    intro w hw h
    cases w with
    | nil => simp at hw
    | cons c w =>
      exact mem_lang_cat (u := [c]) (mem_lang_cls (h c (List.mem_cons_self _ _)))
        (ih w (by simpa using hw) (fun z hz => h z (List.mem_cons_of_mem _ hz)))

theorem mem_lang_upTo_cls {f n : Bool} {rs : List (Nat × Nat)} :
    ∀ (k : Nat) (w : List Nat), w.length ≤ k → (∀ c ∈ w, classMatch f n rs c = true) →
      w ∈ (upTo k (cls f n rs)).lang := by
  intro k
  induction k with
  | zero =>
    intro w hw _
    have : w = [] := List.length_eq_zero.mp (Nat.le_zero.mp hw)
    subst this
    simp [upTo, lang, Language.mem_one]
  | succ k ih =>
    intro w hw h
    cases w with
    | nil => exact mem_lang_opt_nil _
    | cons c w =>
      refine mem_lang_opt_self ?_
      exact mem_lang_cat (u := [c]) (mem_lang_cls (h c (List.mem_cons_self _ _)))
        (ih w (by simpa using hw) (fun z hz => h z (List.mem_cons_of_mem _ hz)))

theorem mem_lang_repRange_cls {f n : Bool} {rs : List (Nat × Nat)} (lo hi : Nat)
    (w : List Nat) (h1 : lo ≤ w.length) (h2 : w.length ≤ hi)
    (h : ∀ c ∈ w, classMatch f n rs c = true) : w ∈ (repRange lo hi (cls f n rs)).lang := by
  have e : w = w.take lo ++ w.drop lo := (List.take_append_drop lo w).symm
  rw [e]
  refine mem_lang_cat ?_ ?_
  · exact mem_lang_rep_cls lo _ (by simp; omega) (fun c hc => h c (List.mem_of_mem_take hc))
  · exact mem_lang_upTo_cls _ _ (by simp; omega) (fun c hc => h c (List.mem_of_mem_drop hc))

end Regex

/-! ## The three patterns and the separator -/

theorem decodeRunes_ne_nil {s : List Nat} (h : s ≠ []) : decodeRunes s ≠ [] := by
  cases s with
  | nil => exact absurd rfl h
  | cons b t => simp [decodeRunes, decodeFrom]

theorem rfc5322_has_at {s : List Nat} (h : matchString _rfc5322Regexp s = true) : 0x40 ∈ s := by
  rw [matchString_iff] at h
  exact mem_of_mem_decodeRunes (by decide) (Regex.mem_of_requiresRune (c := 0x40) (by decide) h)

theorem simple_has_at {s : List Nat} (h : matchString _simpleRegexp s = true) : 0x40 ∈ s := by
  rw [matchString_iff] at h
  exact mem_of_mem_decodeRunes (by decide) (Regex.mem_of_requiresRune (c := 0x40) (by decide) h)

theorem common_has_at {s : List Nat} (hs : s ≠ []) (h : matchString _commonRegexp s = true) :
    0x40 ∈ s := by
  rw [matchString_iff] at h
  obtain ⟨L, hL, hmem⟩ := Language.mem_kstar.mp h
  have hne : L.flatten ≠ [] := hL ▸ decodeRunes_ne_nil hs
  have : ∃ y ∈ L, (0x40 : Nat) ∈ y := by
    cases L with
    | nil => simp at hne
    | cons y L =>
      exact ⟨y, List.mem_cons_self _ _,
        Regex.mem_of_requiresRune (c := 0x40) (by decide) (hmem y (List.mem_cons_self _ _))⟩
  obtain ⟨y, hy, hy'⟩ := this
  refine mem_of_mem_decodeRunes (by decide) ?_
  rw [hL]
  exact List.mem_flatten.mpr ⟨y, hy, hy'⟩

theorem splitAtLast_ne_none {s : List Nat} (h : 0x40 ∈ s) : splitAtLast s ≠ none := by
  obtain ⟨l, d, rfl, hd⟩ := exists_last_split s 0x40 h
  rw [splitAtLast_append l d hd]
  simp

theorem ParseRfc5322_no_panic (s : List Nat) : ParseRfc5322 s ≠ Outcome.panic := by
  unfold ParseRfc5322
  split_ifs with h1 h2
  · simp
  · simp
  · have := splitAtLast_ne_none (rfc5322_has_at (by simpa using h2))
    cases hs : splitAtLast s with
    | none => exact absurd hs this
    | some e => simp only; split_ifs <;> simp

theorem ParseCommon_no_panic (s : List Nat) (hne : s ≠ []) : ParseCommon s ≠ Outcome.panic := by
  unfold ParseCommon
  split_ifs with h1 h2
  · simp
  · simp
  · have := splitAtLast_ne_none (common_has_at hne (by simpa using h2))
    cases hs : splitAtLast s with
    | none => exact absurd hs this
    | some e => simp only; split_ifs <;> simp

theorem ParseSimple_no_panic (toASCII : List Nat → Except String (List Nat)) (s : List Nat) :
    ParseSimple toASCII s ≠ Outcome.panic := by
  unfold ParseSimple
  split_ifs with h1 h2
  · simp
  · simp
  · have := splitAtLast_ne_none (simple_has_at (by simpa using h2))
    cases hs : splitAtLast s with
    | none => exact absurd hs this
    | some e =>
      simp only
      cases toASCII e.Domain with
      | error err => simp
      | ok dA =>
        simp only
        split_ifs
        · cases toASCII e.Local with
          | error err => simp
          | ok lA => simp only; split_ifs <;> simp
        · simp
        · simp

/-- The strict parse of a matching string that splits into `l`, `@`, `d`. -/
theorem ParseRfc5322_split {l d : List Nat} (hd : 0x40 ∉ d)
    (hlen : (l ++ 0x40 :: d).length ≤ 254)
    (hm : matchString _rfc5322Regexp (l ++ 0x40 :: d) = true) :
    ParseRfc5322 (l ++ 0x40 :: d)
      = if 64 < l.length then Outcome.error ParseError.localTooLong else Outcome.ok ⟨l, d⟩ := by
  have h1 : emailIsTooLong (l ++ 0x40 :: d) = false := by
    simpa [emailIsTooLong, _maxEmailLength] using hlen
  have hs := splitAtLast_append l d hd
  simp only [ParseRfc5322, h1, hm, hs, localPartIsTooLong, _maxLocalLength]
  simp

/-- The common parse of a matching string that splits into `l`, `@`, `d`. -/
theorem ParseCommon_split {l d : List Nat} (hd : 0x40 ∉ d)
    (hlen : (l ++ 0x40 :: d).length ≤ 254)
    (hm : matchString _commonRegexp (l ++ 0x40 :: d) = true) :
    ParseCommon (l ++ 0x40 :: d)
      = if 64 < l.length then Outcome.error ParseError.localTooLong else Outcome.ok ⟨l, d⟩ := by
  have h1 : emailIsTooLong (l ++ 0x40 :: d) = false := by
    simpa [emailIsTooLong, _maxEmailLength] using hlen
  have hs := splitAtLast_append l d hd
  simp only [ParseCommon, h1, hm, hs, localPartIsTooLong, _maxLocalLength]
  simp

/-- The simple parse of a matching string that splits into `l`, `@`, `d`, when the
conversion leaves `d` as it is. -/
theorem ParseSimple_split {toASCII : List Nat → Except String (List Nat)} {l d : List Nat}
    (hd : 0x40 ∉ d) (hlen : (l ++ 0x40 :: d).length ≤ 254)
    (hm : matchString _simpleRegexp (l ++ 0x40 :: d) = true)
    (hconv : toASCII d = Except.ok d) :
    ParseSimple toASCII (l ++ 0x40 :: d)
      = if 64 < l.length then Outcome.error ParseError.localTooLong else Outcome.ok ⟨l, d⟩ := by
  have h1 : emailIsTooLong (l ++ 0x40 :: d) = false := by
    simpa [emailIsTooLong, _maxEmailLength] using hlen
  have hs := splitAtLast_append l d hd
  simp only [ParseSimple, h1, hm, hs, hconv, localPartIsTooLong, _maxLocalLength]
  simp

/-! ## Length guard, result bounds, round trip -/

/-- C1: every string longer than 254 bytes is rejected with the too-long error
(`maximum email length exceeded`) by `ParseRfc5322`, `ParseCommon` and
`ParseSimple`, whatever it contains: the guard is the first test of each. -/
theorem too_long_rejected (s : List Nat) (h : 254 < s.length) :
    ParseRfc5322 s = Outcome.error ParseError.emailTooLong ∧
    ParseCommon s = Outcome.error ParseError.emailTooLong ∧
    ∀ toASCII : List Nat → Except String (List Nat),
      ParseSimple toASCII s = Outcome.error ParseError.emailTooLong := by
  have h1 := (emailIsTooLong_iff s).mpr h
  simp [ParseRfc5322, ParseCommon, ParseSimple, h1]

set_option maxRecDepth 100000 in
/-- The 255-byte address of valid form (64 letters, `@`, a 190-byte domain) fails
with the too-long error under the three policies. -/
theorem too_long_rejected_witness :
    254 < longAddress.length ∧
    ParseRfc5322 longAddress = Outcome.error ParseError.emailTooLong ∧
    ParseCommon longAddress = Outcome.error ParseError.emailTooLong ∧
    ∀ toASCII : List Nat → Except String (List Nat),
      ParseSimple toASCII longAddress = Outcome.error ParseError.emailTooLong :=
  ⟨by decide, too_long_rejected longAddress (by decide)⟩

/-- C2: when one of the three operations succeeds with `Email{Local, Domain}`,
`Local` has at most 64 bytes and `Domain` holds no `@`.  For `ParseSimple` the
returned domain is what `ToASCII` made of the domain of the input, so the
conversion is taken to put no `@` into a name that has none. -/
theorem result_bounds (toASCII : List Nat → Except String (List Nat))
    (hA : ∀ d d1, toASCII d = Except.ok d1 → 0x40 ∉ d → 0x40 ∉ d1)
    (s : List Nat) (e : Email) :
    (ParseRfc5322 s = Outcome.ok e → e.Local.length ≤ 64 ∧ 0x40 ∉ e.Domain) ∧
    (ParseCommon s = Outcome.ok e → e.Local.length ≤ 64 ∧ 0x40 ∉ e.Domain) ∧
    (ParseSimple toASCII s = Outcome.ok e → e.Local.length ≤ 64 ∧ 0x40 ∉ e.Domain) := by
  refine ⟨?_, ?_, ?_⟩
  · intro h
    obtain ⟨-, -, hs, hl⟩ := ParseRfc5322_ok h
    exact ⟨hl, (splitAtLast_eq_some hs).2⟩
  · intro h
    obtain ⟨-, -, hs, hl⟩ := ParseCommon_ok h
    exact ⟨hl, (splitAtLast_eq_some hs).2⟩
  · intro h
    obtain ⟨-, -, hl, e0, hs, hd, -⟩ := ParseSimple_ok h
    exact ⟨hl, hA _ _ hd (splitAtLast_eq_some hs).2⟩

/-- The bounds on the result of `user@example.com`, the conversion changing nothing. -/
theorem result_bounds_witness :
    ParseSimple toASCIIPlain (str "user@example.com")
        = Outcome.ok ⟨str "user", str "example.com"⟩ ∧
      (str "user").length ≤ 64 ∧ 0x40 ∉ str "example.com" :=
  ⟨by decide,
   (result_bounds toASCIIPlain (fun d d1 h hd => by cases h; exact hd)
      (str "user@example.com") ⟨str "user", str "example.com"⟩).2.2 (by decide)⟩

/-- C3: when `ParseRfc5322` or `ParseCommon` succeeds on `s` with
`Email{Local, Domain}`, then `Local + "@" + Domain` is `s`, byte for byte. -/
theorem strict_common_roundtrip (s : List Nat) (e : Email) :
    (ParseRfc5322 s = Outcome.ok e → e.Local ++ [0x40] ++ e.Domain = s) ∧
    (ParseCommon s = Outcome.ok e → e.Local ++ [0x40] ++ e.Domain = s) := by
  constructor
  · intro h
    obtain ⟨-, -, hs, -⟩ := ParseRfc5322_ok h
    simpa using (splitAtLast_eq_some hs).1.symm
  · intro h
    obtain ⟨-, -, hs, -⟩ := ParseCommon_ok h
    simpa using (splitAtLast_eq_some hs).1.symm

/-- The round trip of `User@Example.COM`, letter case kept. -/
theorem strict_common_roundtrip_witness :
    ParseRfc5322 (str "User@Example.COM") = Outcome.ok ⟨str "User", str "Example.COM"⟩ ∧
      str "User" ++ [0x40] ++ str "Example.COM" = str "User@Example.COM" :=
  ⟨by decide,
   (strict_common_roundtrip (str "User@Example.COM") ⟨str "User", str "Example.COM"⟩).1
     (by decide)⟩

/-! ## The empty string under the common policy -/

/-- C4: `ParseCommon` panics on the empty string: the starred group of the common
pattern matches it, `strings.LastIndexByte` returns `-1` and `emailStr[:-1]` is out
of range.  It is the only panic: `ParseCommon` on a non-empty string, `ParseRfc5322`
and `ParseSimple` always return an `Email` or an error. -/
theorem ParseCommon_empty_panics :
    ParseCommon [] = Outcome.panic ∧
    (∀ s : List Nat, s ≠ [] → ParseCommon s ≠ Outcome.panic) ∧
    (∀ s : List Nat, ParseRfc5322 s ≠ Outcome.panic) ∧
    (∀ (toASCII : List Nat → Except String (List Nat)) (s : List Nat),
      ParseSimple toASCII s ≠ Outcome.panic) :=
  ⟨by decide, ParseCommon_no_panic, ParseRfc5322_no_panic, ParseSimple_no_panic⟩

/-- `ParseCommon` on the two-byte string `a@` keeps clear of the panic. -/
theorem ParseCommon_empty_panics_witness :
    str "a@" ≠ [] ∧ ParseCommon (str "a@") ≠ Outcome.panic :=
  ⟨by decide, ParseCommon_empty_panics.2.1 (str "a@") (by decide)⟩

/-- C5: the empty string passes the length guard and matches the common pattern,
as the claim says, but `ParseCommon` does not complete with a result on it: the
split at index `-1` panics. -/
theorem ParseCommon_empty_no_result :
    emailIsTooLong [] = false ∧ matchString _commonRegexp [] = true ∧
    splitAtLast [] = none ∧ ParseCommon [] = Outcome.panic := by
  decide

/-! ## Quoted local parts -/

/-- C7, as stated, fails: the strict policy rejects `"quoted local"@example.com`
with its pattern-mismatch error, because the class of a quoted string leaves
out the space (`\x20`); a space is accepted only after a backslash. -/
theorem quoted_space_rejected :
    ParseRfc5322 quotedLocal = Outcome.error ParseError.notRfc5322 := by
  decide

/-- C7, amended: the strict policy accepts a quoted-string local part whose space
is escaped by a backslash, `"quoted\ local"@example.com`, and returns the local
part with its quotes; it rejects the same address with the space unescaped; and
`ParseCommon` fails on every string that holds a double quote. -/
theorem quoted_local_parts :
    ParseRfc5322 quotedEscaped
        = Outcome.ok ⟨[0x22] ++ str "quoted" ++ [0x5C] ++ str " local" ++ [0x22],
            str "example.com"⟩ ∧
    ParseRfc5322 quotedLocal = Outcome.error ParseError.notRfc5322 ∧
    ParseCommon quotedLocal = Outcome.error ParseError.notCommon ∧
    ∀ s : List Nat, 0x22 ∈ s →
      ParseCommon s = Outcome.error ParseError.emailTooLong ∨
      ParseCommon s = Outcome.error ParseError.notCommon := by
  refine ⟨by decide, by decide, by decide, ?_⟩
  intro s hs
  by_cases h1 : emailIsTooLong s = true
  · left; simp [ParseCommon, h1]
  · right
    have hm : matchString _commonRegexp s = false := by
      by_contra hm
      have hm' : matchString _commonRegexp s = true := by simpa using hm
      rw [matchString_iff] at hm'
      exact Regex.not_mem_of_excludesRune (c := 0x22) (by decide) hm'
        (mem_decodeRunes_of_mem (by decide) hs)
    simp [ParseCommon, h1, hm]

/-- The common policy on the quoted address with the escaped space. -/
theorem quoted_local_parts_witness :
    0x22 ∈ quotedEscaped ∧
      (ParseCommon quotedEscaped = Outcome.error ParseError.emailTooLong ∨
       ParseCommon quotedEscaped = Outcome.error ParseError.notCommon) :=
  ⟨by decide, quoted_local_parts.2.2.2 quotedEscaped (by decide)⟩

/-! ## Internationalized domains under the strict and common policies -/

/-- C9, as stated, fails: the domain of `user@K.com`, `K` being U+212A KELVIN SIGN,
holds a non-ASCII character and both policies accept the address, because the
case-insensitive class `[a-z]` holds the runes that fold to `k`. -/
theorem kelvin_domain_accepted :
    ParseRfc5322 kelvinAddress = Outcome.ok ⟨str "user", [0xE2, 0x84, 0xAA] ++ str ".com"⟩ ∧
    ParseCommon kelvinAddress = Outcome.ok ⟨str "user", [0xE2, 0x84, 0xAA] ++ str ".com"⟩ ∧
    0x212A ∈ decodeRunes ([0xE2, 0x84, 0xAA] ++ str ".com") := by
  decide

/-- C9, amended: an input of at most 254 bytes whose part after an `@` holds a
character that is neither ASCII nor U+017F nor U+212A (an ill-formed byte reads
as U+FFFD) fails under `ParseRfc5322` and `ParseCommon` with the pattern-mismatch
error; and the domain of every result of the two holds only ASCII characters,
U+017F and U+212A. -/
theorem idn_domain_rejected :
    (∀ l d : List Nat, (l ++ [0x40] ++ d).length ≤ 254 →
      (∃ r ∈ decodeRunes d, foldedAscii r = false) →
        ParseRfc5322 (l ++ [0x40] ++ d) = Outcome.error ParseError.notRfc5322 ∧
        ParseCommon (l ++ [0x40] ++ d) = Outcome.error ParseError.notCommon) ∧
    (∀ (s : List Nat) (e : Email),
      ParseRfc5322 s = Outcome.ok e ∨ ParseCommon s = Outcome.ok e →
        ∀ r ∈ decodeRunes e.Domain, foldedAscii r = true) := by
  have key : ∀ (re : Regex), Regex.asciiClasses re = true → ∀ l d : List Nat,
      matchString re (l ++ 0x40 :: d) = true → ∀ r ∈ decodeRunes d, foldedAscii r = true := by
    intro re hre l d hm r hr
    rw [matchString_iff, decodeRunes_append l d 0x40 (by decide)] at hm
    exact Regex.foldedAscii_of_asciiClasses hre hm r (by simp [hr])
  constructor
  · rintro l d hlen ⟨r, hr, hfr⟩
    have e : l ++ [0x40] ++ d = l ++ 0x40 :: d := by simp
    rw [e] at hlen ⊢
    have h1 : emailIsTooLong (l ++ 0x40 :: d) = false := by
      simpa [emailIsTooLong, _maxEmailLength] using hlen
    have hm1 : matchString _rfc5322Regexp (l ++ 0x40 :: d) = false := by
      by_contra hm
      have := key _rfc5322Regexp (by decide) l d (by simpa using hm) r hr
      rw [hfr] at this
      cases this
    have hm2 : matchString _commonRegexp (l ++ 0x40 :: d) = false := by
      by_contra hm
      have := key _commonRegexp (by decide) l d (by simpa using hm) r hr
      rw [hfr] at this
      cases this
    constructor
    · simp only [ParseRfc5322, h1, hm1]; simp
    · simp only [ParseCommon, h1, hm2]; simp
  · rintro s e (h | h)
    · obtain ⟨-, hm, hs, -⟩ := ParseRfc5322_ok h
      have hsp := (splitAtLast_eq_some hs).1
      rw [hsp] at hm
      exact key _rfc5322Regexp (by decide) _ _ hm
    · obtain ⟨-, hm, hs, -⟩ := ParseCommon_ok h
      have hsp := (splitAtLast_eq_some hs).1
      rw [hsp] at hm
      exact key _commonRegexp (by decide) _ _ hm

/-- The address `user@bücher.example` fails under both policies with the
pattern-mismatch error. -/
theorem idn_domain_rejected_witness :
    (str "user" ++ [0x40] ++ ([0x62, 0xC3, 0xBC] ++ str "cher.example")).length ≤ 254 ∧
    (∃ r ∈ decodeRunes ([0x62, 0xC3, 0xBC] ++ str "cher.example"), foldedAscii r = false) ∧
    ParseRfc5322 (str "user" ++ [0x40] ++ ([0x62, 0xC3, 0xBC] ++ str "cher.example"))
      = Outcome.error ParseError.notRfc5322 ∧
    ParseCommon (str "user" ++ [0x40] ++ ([0x62, 0xC3, 0xBC] ++ str "cher.example"))
      = Outcome.error ParseError.notCommon :=
  ⟨by decide, ⟨0xFC, by decide, by decide⟩,
   idn_domain_rejected.1 (str "user") ([0x62, 0xC3, 0xBC] ++ str "cher.example") (by decide)
     ⟨0xFC, by decide, by decide⟩⟩

/-! ## The limit on the local part -/

set_option maxRecDepth 100000 in
/-- C10: an input of at most 254 bytes that matches the pattern of the policy and
whose part before the last `@` is longer than 64 bytes fails with the
local-length error (`maximum local part length exceeded`) under `ParseRfc5322` and
`ParseCommon`, and under `ParseSimple` when `ToASCII` leaves the domain as it is.
So 65 letters before `@example.com` fail under the three policies, and 64 letters
succeed. -/
theorem local_too_long_rejected :
    (∀ (toASCII : List Nat → Except String (List Nat)) (l d : List Nat),
      0x40 ∉ d → (l ++ [0x40] ++ d).length ≤ 254 → 64 < l.length →
        (matchString _rfc5322Regexp (l ++ [0x40] ++ d) = true →
          ParseRfc5322 (l ++ [0x40] ++ d) = Outcome.error ParseError.localTooLong) ∧
        (matchString _commonRegexp (l ++ [0x40] ++ d) = true →
          ParseCommon (l ++ [0x40] ++ d) = Outcome.error ParseError.localTooLong) ∧
        (matchString _simpleRegexp (l ++ [0x40] ++ d) = true → toASCII d = Except.ok d →
          ParseSimple toASCII (l ++ [0x40] ++ d) = Outcome.error ParseError.localTooLong)) ∧
    ParseRfc5322 (List.replicate 65 0x61 ++ str "@example.com")
      = Outcome.error ParseError.localTooLong ∧
    ParseCommon (List.replicate 65 0x61 ++ str "@example.com")
      = Outcome.error ParseError.localTooLong ∧
    ParseSimple toASCIIPlain (List.replicate 65 0x61 ++ str "@example.com")
      = Outcome.error ParseError.localTooLong ∧
    ParseRfc5322 (List.replicate 64 0x61 ++ str "@example.com")
      = Outcome.ok ⟨List.replicate 64 0x61, str "example.com"⟩ ∧
    ParseCommon (List.replicate 64 0x61 ++ str "@example.com")
      = Outcome.ok ⟨List.replicate 64 0x61, str "example.com"⟩ ∧
    ParseSimple toASCIIPlain (List.replicate 64 0x61 ++ str "@example.com")
      = Outcome.ok ⟨List.replicate 64 0x61, str "example.com"⟩ := by
  refine ⟨?_, by decide, by decide, by decide, by decide, by decide, by decide⟩
  intro toASCII l d hd hlen hl
  have e : l ++ [0x40] ++ d = l ++ 0x40 :: d := by simp
  rw [e] at hlen ⊢
  refine ⟨fun hm => ?_, fun hm => ?_, fun hm hconv => ?_⟩
  · rw [ParseRfc5322_split hd hlen hm, if_pos hl]
  · rw [ParseCommon_split hd hlen hm, if_pos hl]
  · rw [ParseSimple_split hd hlen hm hconv, if_pos hl]

set_option maxRecDepth 100000 in
/-- The general statement at 65 letters before `@example.com`, under the strict
policy. -/
theorem local_too_long_rejected_witness :
    0x40 ∉ str "example.com" ∧
    (List.replicate 65 0x61 ++ [0x40] ++ str "example.com").length ≤ 254 ∧
    64 < (List.replicate 65 0x61).length ∧
    matchString _rfc5322Regexp (List.replicate 65 0x61 ++ [0x40] ++ str "example.com") = true ∧
    ParseRfc5322 (List.replicate 65 0x61 ++ [0x40] ++ str "example.com")
      = Outcome.error ParseError.localTooLong :=
  ⟨by decide, by decide, by decide, by decide,
   (local_too_long_rejected.1 toASCIIPlain (List.replicate 65 0x61) (str "example.com")
      (by decide) (by decide) (by decide)).1 (by decide)⟩

/-! ## Plain addresses -/

theorem isAlnum_lt {c : Nat} (h : isAlnum c = true) : c < 0x80 := by
  simp only [isAlnum, Bool.or_eq_true, Bool.and_eq_true, decide_eq_true_eq] at h
  omega

theorem isAlpha_isAlnum {c : Nat} (h : isAlpha c = true) : isAlnum c = true := by
  simp only [isAlpha, isAlnum, Bool.or_eq_true, Bool.and_eq_true, decide_eq_true_eq] at h ⊢
  omega

/-- The classes of the three patterns that hold every ASCII letter and digit. -/
theorem alnum_classes_below : ∀ c, c < 0x80 → isAlnum c = true →
    classMatch true false atext c = true ∧ classMatch true false alnumLower c = true ∧
    classMatch true false alnumHyphen c = true ∧
    classMatch true false commonLocalChars c = true ∧
    classMatch true false commonDomainChars c = true ∧
    classMatch false true simpleExcluded c = true ∧ c ≠ 0x40 := by
  decide

theorem alnum_classes {c : Nat} (h : isAlnum c = true) :
    classMatch true false atext c = true ∧ classMatch true false alnumLower c = true ∧
    classMatch true false alnumHyphen c = true ∧
    classMatch true false commonLocalChars c = true ∧
    classMatch true false commonDomainChars c = true ∧
    classMatch false true simpleExcluded c = true ∧ c ≠ 0x40 :=
  alnum_classes_below c (isAlnum_lt h) h

theorem alpha_upper_below : ∀ c, c < 0x80 → isAlpha c = true →
    classMatch true false upper c = true := by
  decide

theorem alpha_upper {c : Nat} (h : isAlpha c = true) : classMatch true false upper c = true :=
  alpha_upper_below c (isAlnum_lt (isAlpha_isAlnum h)) h

theorem joinDots_cons (a : List Nat) (t : List (List Nat)) :
    joinDots (a :: t) = a ++ (t.map (fun x => 0x2E :: x)).flatten := by
  induction t generalizing a with
  | nil => simp [joinDots]
  | cons b t ih => simp [joinDots, ih b]

theorem joinDots_concat (init : List (List Nat)) (last : List Nat) :
    joinDots (init ++ [last]) = (init.map (fun x => x ++ [0x2E])).flatten ++ last := by
  induction init with
  | nil => simp [joinDots]
  | cons a t ih =>
    cases t with
    | nil => simp [joinDots]
    | cons b t =>
      have e : joinDots ((a :: b :: t) ++ [last]) = a ++ 0x2E :: joinDots ((b :: t) ++ [last]) := rfl
      rw [e, ih]
      simp

theorem joinDots_concat_dot (init : List (List Nat)) (last : List Nat) (h : init ≠ []) :
    joinDots (init ++ [last]) = joinDots init ++ 0x2E :: last := by
  induction init with
  | nil => exact absurd rfl h
  | cons a t ih =>
    cases t with
    | nil => simp [joinDots]
    | cons b t =>
      have e : joinDots ((a :: b :: t) ++ [last]) = a ++ 0x2E :: joinDots ((b :: t) ++ [last]) := rfl
      have e2 : joinDots (a :: b :: t) = a ++ 0x2E :: joinDots (b :: t) := rfl
      rw [e, e2, ih (by simp)]
      simp

theorem mem_joinDots {L : List (List Nat)} {c : Nat} (h : c ∈ joinDots L) :
    c = 0x2E ∨ ∃ lab ∈ L, c ∈ lab := by
  cases L with
  | nil => simp [joinDots] at h
  | cons a t =>
    rw [joinDots_cons] at h
    rcases List.mem_append.mp h with h | h
    · exact Or.inr ⟨a, List.mem_cons_self _ _, h⟩
    · obtain ⟨y, hy, hc⟩ := List.mem_flatten.mp h
      obtain ⟨x, hx, rfl⟩ := List.mem_map.mp hy
      rcases List.mem_cons.mp hc with hc | hc
      · exact Or.inl hc
      · exact Or.inr ⟨x, List.mem_cons_of_mem _ hx, hc⟩

theorem PlainDomain.alnum_or_dot {init : List (List Nat)} {last : List Nat}
    (h : PlainDomain init last) :
    ∀ c ∈ joinDots (init ++ [last]), c = 0x2E ∨ isAlnum c = true := by
  intro c hc
  rcases mem_joinDots hc with h1 | ⟨lab, hlab, hcl⟩
  · exact Or.inl h1
  · right
    rcases List.mem_append.mp hlab with h2 | h2
    · exact (h.labels lab h2).2 c hcl
    · rw [List.mem_singleton] at h2
      subst h2
      exact isAlpha_isAlnum (h.last_alpha c hcl)

theorem PlainDomain.no_at {init : List (List Nat)} {last : List Nat}
    (h : PlainDomain init last) : 0x40 ∉ joinDots (init ++ [last]) := by
  intro hc
  rcases h.alnum_or_dot _ hc with h1 | h1
  · cases h1
  · exact (alnum_classes h1).2.2.2.2.2.2 rfl

theorem PlainDomain.ascii {init : List (List Nat)} {last : List Nat}
    (h : PlainDomain init last) : ∀ c ∈ joinDots (init ++ [last]), c < 0x80 := by
  intro c hc
  rcases h.alnum_or_dot _ hc with h1 | h1
  · omega
  · exact isAlnum_lt h1

/-- The runes of a plain address are its bytes. -/
theorem decodeRunes_plain {l : List Nat} {init : List (List Nat)} {last : List Nat}
    (hl : ∀ c ∈ l, isAlnum c = true) (h : PlainDomain init last) :
    decodeRunes (l ++ 0x40 :: joinDots (init ++ [last]))
      = l ++ 0x40 :: joinDots (init ++ [last]) := by
  apply decodeRunes_ascii
  intro c hc
  rcases List.mem_append.mp hc with h1 | h1
  · exact isAlnum_lt (hl c h1)
  · rcases List.mem_cons.mp h1 with h2 | h2
    · omega
    · exact h.ascii c h2

/-- A non-empty label of letters and digits matches `[a-z0-9](?:[a-z0-9-]*[a-z0-9])?`. -/
theorem mem_lang_rfcLabel {lab : List Nat} (hne : lab ≠ [])
    (h : ∀ c ∈ lab, isAlnum c = true) : lab ∈ rfcLabel.lang := by
  cases lab with
  | nil => exact absurd rfl hne
  | cons c rest =>
    have hc := (alnum_classes (h c (List.mem_cons_self _ _))).2.1
    refine Regex.mem_lang_cat (u := [c]) (Regex.mem_lang_cls hc) ?_
    rcases List.eq_nil_or_concat rest with hr | ⟨mid, z, hr⟩
    · subst hr; exact Regex.mem_lang_opt_nil _
    · subst hr
      refine Regex.mem_lang_opt_self ?_
      rw [List.concat_eq_append]
      refine Regex.mem_lang_cat ?_ ?_
      · refine Regex.mem_lang_star_cls ?_
        intro x hx
        exact (alnum_classes (h x (by simp [hx]))).2.2.1
      · exact Regex.mem_lang_cls (alnum_classes (h z (by simp))).2.1

theorem mem_lang_rfcDnsDomain {init : List (List Nat)} {last : List Nat}
    (h : PlainDomain init last) : joinDots (init ++ [last]) ∈ rfcDnsDomain.lang := by
  rw [joinDots_concat]
  refine Regex.mem_lang_cat ?_ ?_
  · refine Regex.mem_lang_plus_flatten (by simpa using h.init_ne) ?_
    intro y hy
    obtain ⟨lab, hlab, rfl⟩ := List.mem_map.mp hy
    exact Regex.mem_lang_cat (mem_lang_rfcLabel (h.labels lab hlab).1 (h.labels lab hlab).2)
      (Regex.mem_lang_lit true 0x2E (by decide))
  · refine mem_lang_rfcLabel ?_ (fun c hc => isAlpha_isAlnum (h.last_alpha c hc))
    intro hnil
    have := h.last_min
    rw [hnil] at this
    simp at this

theorem matchString_rfc5322_plain {l : List Nat} {init : List (List Nat)} {last : List Nat}
    (hne : l ≠ []) (hl : ∀ c ∈ l, isAlnum c = true) (h : PlainDomain init last) :
    matchString _rfc5322Regexp (l ++ 0x40 :: joinDots (init ++ [last])) = true := by
  rw [matchString_iff, decodeRunes_plain hl h]
  have e : l ++ 0x40 :: joinDots (init ++ [last])
      = (l ++ []) ++ ([0x40] ++ joinDots (init ++ [last])) := by simp
  rw [e]
  refine Regex.mem_lang_cat ?_ (Regex.mem_lang_cat (Regex.mem_lang_lit true 0x40 (by decide)) ?_)
  · refine (Language.mem_add _ _ _).mpr (Or.inl ?_)
    refine Regex.mem_lang_cat ?_ (Regex.nil_mem_lang_star _)
    exact Regex.mem_lang_plus_cls hne (fun c hc => (alnum_classes (hl c hc)).1)
  · refine Regex.mem_lang_star_self ?_
    exact (Language.mem_add _ _ _).mpr (Or.inl (mem_lang_rfcDnsDomain h))

theorem joinDots_ne_nil {init : List (List Nat)}
    (hne : init ≠ []) (h : ∀ lab ∈ init, lab ≠ []) : joinDots init ≠ [] := by
  cases init with
  | nil => exact absurd rfl hne
  | cons a t =>
    rw [joinDots_cons]
    have := h a (List.mem_cons_self _ _)
    simp [this]

theorem matchString_common_plain {l : List Nat} {init : List (List Nat)} {last : List Nat}
    (hne : l ≠ []) (hl : ∀ c ∈ l, isAlnum c = true) (h : PlainDomain init last) :
    matchString _commonRegexp (l ++ 0x40 :: joinDots (init ++ [last])) = true := by
  rw [matchString_iff, decodeRunes_plain hl h, joinDots_concat_dot init last h.init_ne]
  refine Regex.mem_lang_star_self ?_
  have e : l ++ 0x40 :: (joinDots init ++ 0x2E :: last)
      = l ++ ([0x40] ++ (joinDots init ++ ([0x2E] ++ last))) := by simp
  rw [e]
  refine Regex.mem_lang_cat ?_ (Regex.mem_lang_cat (Regex.mem_lang_lit true 0x40 (by decide))
    (Regex.mem_lang_cat ?_ (Regex.mem_lang_cat (Regex.mem_lang_lit true 0x2E (by decide)) ?_)))
  · exact Regex.mem_lang_plus_cls hne (fun c hc => (alnum_classes (hl c hc)).2.2.2.1)
  · refine Regex.mem_lang_plus_cls (joinDots_ne_nil h.init_ne (fun lab hlab => (h.labels lab hlab).1)) ?_
    intro c hc
    rcases mem_joinDots hc with h1 | ⟨lab, hlab, hcl⟩
    · subst h1; decide
    · exact (alnum_classes ((h.labels lab hlab).2 c hcl)).2.2.2.2.1
  · exact Regex.mem_lang_repRange_cls 2 24 last h.last_min h.last_max
      (fun c hc => alpha_upper (h.last_alpha c hc))

theorem matchString_simple_plain {l : List Nat} {init : List (List Nat)} {last : List Nat}
    (hne : l ≠ []) (hl : ∀ c ∈ l, isAlnum c = true) (h : PlainDomain init last) :
    matchString _simpleRegexp (l ++ 0x40 :: joinDots (init ++ [last])) = true := by
  rw [matchString_iff, decodeRunes_plain hl h]
  obtain ⟨first, rest, hfr⟩ : ∃ first rest, init = first :: rest := by
    cases hi : init with
    | nil => exact absurd hi h.init_ne
    | cons a t => exact ⟨a, t, rfl⟩
  have hall : ∀ lab ∈ init ++ [last], lab ≠ [] ∧ ∀ c ∈ lab, isAlnum c = true := by
    intro lab hlab
    rcases List.mem_append.mp hlab with h2 | h2
    · exact h.labels lab h2
    · rw [List.mem_singleton] at h2
      subst h2
      refine ⟨?_, fun c hc => isAlpha_isAlnum (h.last_alpha c hc)⟩
      intro hnil
      have := h.last_min
      rw [hnil] at this
      simp at this
  have hlabel : ∀ lab : List Nat, lab ≠ [] → (∀ c ∈ lab, isAlnum c = true) →
      lab ∈ simpleLabel.lang := fun lab h1 h2 =>
    Regex.mem_lang_plus_cls h1 (fun c hc => (alnum_classes (h2 c hc)).2.2.2.2.2.1)
  subst hfr
  have e : l ++ 0x40 :: joinDots (first :: rest ++ [last])
      = [] ++ (l ++ ([0x40] ++ (first ++ ((rest ++ [last]).map (fun x => 0x2E :: x)).flatten)))
      := by
    have : first :: rest ++ [last] = first :: (rest ++ [last]) := rfl
    rw [this, joinDots_cons]
    simp
  rw [e]
  refine Regex.mem_lang_cat (Regex.nil_mem_lang_star _) (Regex.mem_lang_cat (hlabel l hne hl)
    (Regex.mem_lang_cat (Regex.mem_lang_lit false 0x40 (by decide)) (Regex.mem_lang_cat ?_ ?_)))
  · exact hlabel first (hall first (by simp)).1 (hall first (by simp)).2
  · refine Regex.mem_lang_plus_flatten (by simp) ?_
    intro y hy
    obtain ⟨lab, hlab, rfl⟩ := List.mem_map.mp hy
    have hm : lab ∈ first :: rest ++ [last] := by
      have : first :: rest ++ [last] = first :: (rest ++ [last]) := rfl
      rw [this]
      exact List.mem_cons_of_mem _ hlab
    exact Regex.mem_lang_cat (u := [0x2E]) (Regex.mem_lang_lit false 0x2E (by decide))
      (hlabel lab (hall lab hm).1 (hall lab hm).2)

/-- C8: a plain address is accepted alike by the three policies.  For `l` made of
1 to 64 ASCII letters and digits and a domain `d` of two or more non-empty labels
of ASCII letters and digits joined by dots, the last label being 2 to 24 letters,
with `len(l) + 1 + len(d) <= 254`, each of `ParseRfc5322`, `ParseCommon` and
`ParseSimple` succeeds on `l + "@" + d` with `Local = l` and `Domain = d`; for
`ParseSimple`, given that `ToASCII` maps `d` to itself (as it does when no label
begins with `xn--`). -/
theorem plain_address_accepted (toASCII : List Nat → Except String (List Nat))
    (l : List Nat) (init : List (List Nat)) (last : List Nat)
    (hl0 : 1 ≤ l.length) (hl1 : l.length ≤ 64) (hl : ∀ c ∈ l, isAlnum c = true)
    (hinit : init ≠ []) (hlab : ∀ lab ∈ init, lab ≠ [] ∧ ∀ c ∈ lab, isAlnum c = true)
    (hlast0 : 2 ≤ last.length) (hlast1 : last.length ≤ 24)
    (hlast : ∀ c ∈ last, isAlpha c = true)
    (hlen : l.length + 1 + (joinDots (init ++ [last])).length ≤ 254) :
    ParseRfc5322 (l ++ [0x40] ++ joinDots (init ++ [last]))
      = Outcome.ok ⟨l, joinDots (init ++ [last])⟩ ∧
    ParseCommon (l ++ [0x40] ++ joinDots (init ++ [last]))
      = Outcome.ok ⟨l, joinDots (init ++ [last])⟩ ∧
    (toASCII (joinDots (init ++ [last])) = Except.ok (joinDots (init ++ [last])) →
      ParseSimple toASCII (l ++ [0x40] ++ joinDots (init ++ [last]))
        = Outcome.ok ⟨l, joinDots (init ++ [last])⟩) := by
  have hp : PlainDomain init last := ⟨hinit, hlab, hlast0, hlast1, hlast⟩
  have hne : l ≠ [] := by
    intro h; rw [h] at hl0; simp at hl0
  have e : l ++ [0x40] ++ joinDots (init ++ [last]) = l ++ 0x40 :: joinDots (init ++ [last]) := by
    simp
  have hlen' : (l ++ 0x40 :: joinDots (init ++ [last])).length ≤ 254 := by
    simp only [List.length_append, List.length_cons]
    omega
  have hn : ¬ 64 < l.length := by omega
  rw [e]
  refine ⟨?_, ?_, fun hconv => ?_⟩
  · rw [ParseRfc5322_split hp.no_at hlen' (matchString_rfc5322_plain hne hl hp), if_neg hn]
  · rw [ParseCommon_split hp.no_at hlen' (matchString_common_plain hne hl hp), if_neg hn]
  · rw [ParseSimple_split hp.no_at hlen' (matchString_simple_plain hne hl hp) hconv, if_neg hn]

/-- The address `user@example.com` gives `Local = "user"`, `Domain = "example.com"`
under the three policies. -/
theorem plain_address_accepted_witness :
    str "user" ++ [0x40] ++ joinDots ([str "example"] ++ [str "com"]) = str "user@example.com" ∧
    joinDots ([str "example"] ++ [str "com"]) = str "example.com" ∧
    ParseRfc5322 (str "user" ++ [0x40] ++ joinDots ([str "example"] ++ [str "com"]))
      = Outcome.ok ⟨str "user", joinDots ([str "example"] ++ [str "com"])⟩ ∧
    ParseCommon (str "user" ++ [0x40] ++ joinDots ([str "example"] ++ [str "com"]))
      = Outcome.ok ⟨str "user", joinDots ([str "example"] ++ [str "com"])⟩ ∧
    ParseSimple toASCIIPlain (str "user" ++ [0x40] ++ joinDots ([str "example"] ++ [str "com"]))
      = Outcome.ok ⟨str "user", joinDots ([str "example"] ++ [str "com"])⟩ :=
  ⟨by decide, by decide,
   (plain_address_accepted toASCIIPlain (str "user") [str "example"] (str "com")
      (by decide) (by decide) (by decide) (by decide) (by decide) (by decide) (by decide)
      (by decide) (by decide)).1,
   (plain_address_accepted toASCIIPlain (str "user") [str "example"] (str "com")
      (by decide) (by decide) (by decide) (by decide) (by decide) (by decide) (by decide)
      (by decide) (by decide)).2.1,
   (plain_address_accepted toASCIIPlain (str "user") [str "example"] (str "com")
      (by decide) (by decide) (by decide) (by decide) (by decide) (by decide) (by decide)
      (by decide) (by decide)).2.2 rfl⟩

/-! ## Parsing the result of the simple policy again -/

theorem mem_lang_lit_eq {f : Bool} {c : Nat} {w : List Nat} (hc : c < 0x41)
    (h : w ∈ (Regex.lit f c).lang) : w = [c] := by
  obtain ⟨x, rfl, hx⟩ := h
  have : x = c := by
    simp only [classMatch, Bool.false_xor] at hx
    cases f with
    | true =>
      simp only [if_true, List.any_eq_true, inRanges, List.any_cons, List.any_nil,
        Bool.or_false, Bool.and_eq_true, decide_eq_true_eq] at hx
      obtain ⟨y, hy, h1, h2⟩ := hx
      have hyc : y = c := by omega
      subst hyc
      exact (Regex.foldOrbit_small hy hc).symm
    | false =>
      simp only [Bool.false_eq_true, if_false, inRanges, List.any_cons, List.any_nil,
        Bool.or_false, Bool.and_eq_true, decide_eq_true_eq] at hx
      omega
  rw [this]

/-- A text that matches the simple pattern holds exactly one `@`. -/
theorem simple_count_at {w : List Nat} (hw : w ∈ _simpleRegexp.lang) : w.count 0x40 = 1 := by
  have hw1 : w ∈ (Regex.star (Regex.cat simpleLabel (Regex.lit false 0x2E))).lang
      * (simpleLabel.lang * ((Regex.lit false 0x40).lang
        * (simpleLabel.lang * (Regex.plus (Regex.cat (Regex.lit false 0x2E) simpleLabel)).lang)))
      := hw
  obtain ⟨u1, h1, r1, hr1, rfl⟩ := Language.mem_mul.mp hw1
  obtain ⟨u2, h2, r2, hr2, rfl⟩ := Language.mem_mul.mp hr1
  obtain ⟨u3, h3, r3, hr3, rfl⟩ := Language.mem_mul.mp hr2
  obtain ⟨u4, h4, u5, h5, rfl⟩ := Language.mem_mul.mp hr3
  have e3 := mem_lang_lit_eq (by decide) h3
  subst e3
  have n1 := Regex.not_mem_of_excludesRune (c := 0x40) (by decide) h1
  have n2 := Regex.not_mem_of_excludesRune (c := 0x40) (by decide) h2
  have n4 := Regex.not_mem_of_excludesRune (c := 0x40) (by decide) h4
  have n5 := Regex.not_mem_of_excludesRune (c := 0x40) (by decide) h5
  simp [List.count_append, List.count_eq_zero_of_not_mem, n1, n2, n4, n5]

/-- In a string that matches the simple pattern nothing after an `@` is an `@`. -/
theorem simple_no_at_after {l d : List Nat}
    (hm : matchString _simpleRegexp (l ++ 0x40 :: d) = true) : 0x40 ∉ d := by
  rw [matchString_iff, decodeRunes_append l d 0x40 (by decide)] at hm
  have hc := simple_count_at hm
  intro hd
  have h1 : 0 < (decodeRunes d).count 0x40 :=
    List.count_pos_iff.mpr (mem_decodeRunes_of_mem (by decide) hd)
  simp only [List.count_append, List.count_cons_self] at hc
  omega

set_option maxRecDepth 100000 in
/-- C6, as stated, fails: with a conversion that writes the label `ü` as
`xn--tda`, as IDNA does, `ParseSimple` accepts the 101-byte address
`a@ü.ü. ... .ü.com` (32 labels `ü`) and returns a 259-byte domain; the address
put together again from the result has 261 bytes and `ParseSimple` rejects it
with the too-long error. -/
theorem simple_reparse_too_long :
    ParseSimple toASCIIDemo longIdn = Outcome.ok ⟨str "a", longIdnAscii⟩ ∧
    ParseSimple toASCIIDemo (str "a" ++ [0x40] ++ longIdnAscii)
      = Outcome.error ParseError.emailTooLong := by
  constructor <;> decide

/-- C6, amended: let `ParseSimple` succeed on `s` with `Email{Local, Domain}`.
If `ToASCII` left the domain of `s` as it was, then `Local + "@" + Domain` is `s`
and `ParseSimple` on it returns the same `Local` and `Domain`.  In general
`ParseSimple` on `Local + "@" + Domain` returns the same `Local` and `Domain`
provided that string has at most 254 bytes, matches the simple pattern, and
`ToASCII` maps `Domain` to itself. -/
theorem simple_reparse (toASCII : List Nat → Except String (List Nat)) (s : List Nat)
    (e : Email) (h : ParseSimple toASCII s = Outcome.ok e) :
    ((e.Local ++ [0x40] ++ e.Domain).length ≤ 254 →
      matchString _simpleRegexp (e.Local ++ [0x40] ++ e.Domain) = true →
      toASCII e.Domain = Except.ok e.Domain →
        ParseSimple toASCII (e.Local ++ [0x40] ++ e.Domain) = Outcome.ok e) ∧
    (∀ e0 : Email, splitAtLast s = some e0 → toASCII e0.Domain = Except.ok e0.Domain →
      e.Local ++ [0x40] ++ e.Domain = s ∧
        ParseSimple toASCII (e.Local ++ [0x40] ++ e.Domain) = Outcome.ok e) := by
  obtain ⟨-, -, hl, e1, hs1, hd1, hcase⟩ := ParseSimple_ok h
  have eq : e.Local ++ [0x40] ++ e.Domain = e.Local ++ 0x40 :: e.Domain := by simp
  constructor
  · intro hlen hm hfix
    rw [eq] at hlen hm ⊢
    rw [ParseSimple_split (simple_no_at_after hm) hlen hm hfix, if_neg (by omega)]
  · intro e0 hs0 hfix
    have he : e1 = e0 := by
      rw [hs1] at hs0
      exact Option.some.inj hs0
    subst he
    have hdom : e.Domain = e1.Domain := by
      rw [hfix] at hd1
      exact (Except.ok.inj hd1).symm
    have hloc : e.Local = e1.Local := by
      rcases hcase with ⟨-, h2⟩ | ⟨h1, -⟩
      · exact h2
      · exact absurd hdom h1
    have hsplit := (splitAtLast_eq_some hs1).1
    have hse : e.Local ++ [0x40] ++ e.Domain = s := by
      rw [eq, hloc, hdom, ← hsplit]
    exact ⟨hse, by rw [hse]; exact h⟩

/-- The address `a@ü.com` gives `Local = "a"`, `Domain = "xn--tda.com"`, and
`a@xn--tda.com` gives the same again. -/
theorem simple_reparse_witness :
    ParseSimple toASCIIDemo (str "a@" ++ [0xC3, 0xBC] ++ str ".com")
      = Outcome.ok ⟨str "a", str "xn--tda.com"⟩ ∧
    (str "a" ++ [0x40] ++ str "xn--tda.com").length ≤ 254 ∧
    matchString _simpleRegexp (str "a" ++ [0x40] ++ str "xn--tda.com") = true ∧
    toASCIIDemo (str "xn--tda.com") = Except.ok (str "xn--tda.com") ∧
    ParseSimple toASCIIDemo (str "a" ++ [0x40] ++ str "xn--tda.com")
      = Outcome.ok ⟨str "a", str "xn--tda.com"⟩ :=
  ⟨by decide, by decide, by decide, by rfl,
   (simple_reparse toASCIIDemo (str "a@" ++ [0xC3, 0xBC] ++ str ".com")
      ⟨str "a", str "xn--tda.com"⟩ (by decide)).1 (by decide) (by decide) (by rfl)⟩

/-! ## More on reading runes -/

theorem decodeRunes_cons (x : Nat) (t : List Nat) :
    ∃ k, decodeRunes (x :: t) = (decodeRune (x :: t)).1 :: decodeFrom t k := ⟨_, rfl⟩

theorem decodeFrom_eq_drop : ∀ (t : List Nat) (k : Nat), decodeFrom t k = decodeRunes (t.drop k) := by
  intro t
  induction t with
  | nil => intro k; simp [decodeFrom, decodeRunes]
  | cons x t ih =>
    intro k
    cases k with
    | zero => rfl
    | succ k =>
      have e : decodeFrom (x :: t) (k + 1) = decodeFrom t k := rfl
      rw [e, ih k]
      rfl

/-- One step of reading: the first rune, then the runes of what is left. -/
theorem decodeRunes_step (x : Nat) (t : List Nat) :
    decodeRunes (x :: t)
      = (decodeRune (x :: t)).1 :: decodeRunes (t.drop ((decodeRune (x :: t)).2 - 1)) := by
  have e : decodeRunes (x :: t)
      = (decodeRune (x :: t)).1 :: decodeFrom t ((decodeRune (x :: t)).2 - 1) := rfl
  rw [e, decodeFrom_eq_drop]

/-- An ASCII rune of the text read comes from one byte: the string splits there. -/
theorem exists_split_of_decodeRunes (c : Nat) (hc : c < 0x80) (v : List Nat) :
    ∀ (n : Nat) (u s : List Nat), s.length ≤ n → decodeRunes s = u ++ c :: v →
      ∃ a b, s = a ++ c :: b ∧ decodeRunes a = u ∧ decodeRunes b = v := by
  intro n
  induction n with
  | zero =>
    intro u s hn h
    have hs : s = [] := List.length_eq_zero.mp (Nat.le_zero.mp hn)
    subst hs
    cases u <;> simp [decodeRunes, decodeFrom] at h
  | succ n ih =>
    intro u s hn h
    cases s with
    | nil => cases u <;> simp [decodeRunes, decodeFrom] at h
    | cons x t =>
      rw [decodeRunes_step] at h
      cases u with
      | nil =>
        simp only [List.nil_append, List.cons.injEq] at h
        obtain ⟨h1, h2⟩ := h
        have hx := decodeRune_ascii x t (by rw [h1]; exact hc)
        have hxc : x = c := by rw [← hx.1, h1]
        subst hxc
        refine ⟨[], t, rfl, rfl, ?_⟩
        rw [decodeRune_of_ascii x t hc] at h2
        simpa using h2
      | cons r u =>
        simp only [List.cons_append, List.cons.injEq] at h
        obtain ⟨h1, h2⟩ := h
        have hw := decodeRune_width x t
        obtain ⟨a, b, hab, -, hb⟩ := ih u (t.drop ((decodeRune (x :: t)).2 - 1))
          (by simp only [List.length_drop, List.length_cons] at hn ⊢; omega) h2
        refine ⟨x :: (t.take ((decodeRune (x :: t)).2 - 1) ++ a), b, ?_, ?_, hb⟩
        · have := List.take_append_drop ((decodeRune (x :: t)).2 - 1) t
          rw [hab] at this
          rw [List.cons_append, List.append_assoc, this]
        · have hs : x :: t = (x :: (t.take ((decodeRune (x :: t)).2 - 1) ++ a)) ++ c :: b := by
            have := List.take_append_drop ((decodeRune (x :: t)).2 - 1) t
            rw [hab] at this
            rw [List.cons_append, List.append_assoc, this]
          have hfull : decodeRunes (x :: t) = (r :: u) ++ c :: v := by
            rw [decodeRunes_step, h1, h2]
            rfl
          rw [hs, decodeRunes_append _ b c hc, hb] at hfull
          exact List.append_cancel_right hfull

theorem exists_split_decodeRunes {c : Nat} (hc : c < 0x80) {u v s : List Nat}
    (h : decodeRunes s = u ++ c :: v) :
    ∃ a b, s = a ++ c :: b ∧ decodeRunes a = u ∧ decodeRunes b = v :=
  exists_split_of_decodeRunes c hc v s.length u s (Nat.le_refl _) h

theorem decodeRunes_eq_nil {s : List Nat} (h : decodeRunes s = []) : s = [] := by
  by_contra hne
  exact decodeRunes_ne_nil hne h

/-! ## No match begins with the separator -/

theorem Regex.lang_of_isDead {r : Regex} (h : r.isDead = true) (w : List Nat) : w ∉ r.lang := by
  cases r <;> simp [Regex.isDead] at h
  exact Language.not_mem_zero w

/-- A string that matches a pattern none of whose texts begins with `@` has a byte
before its last `@`. -/
theorem local_ne_nil_of_match {re : Regex} (hre : (re.deriv 0x40).isDead = true)
    {s : List Nat} {e : Email} (hm : matchString re s = true) (hs : splitAtLast s = some e) :
    e.Local ≠ [] := by
  intro hnil
  have hsp := (splitAtLast_eq_some hs).1
  rw [hnil, List.nil_append] at hsp
  rw [matchString_iff, hsp, decodeRunes_cons_ascii 0x40 _ (by decide)] at hm
  exact Regex.lang_of_isDead hre _ ((Regex.mem_lang_deriv re 0x40 _).mpr hm)

/-! ## Strings without a separator -/

/-- C11: a non-empty string of at most 254 bytes that holds no `@` is rejected by
each of the three operations with its pattern-mismatch error (`doesn't match RFC
5322` for the strict policy, `doesn't match common email regexp` for the common and
the simple policy). -/
theorem no_separator_rejected (s : List Nat) (hne : s ≠ []) (hlen : s.length ≤ 254)
    (h : 0x40 ∉ s) :
    ParseRfc5322 s = Outcome.error ParseError.notRfc5322 ∧
    ParseCommon s = Outcome.error ParseError.notCommon ∧
    ∀ toASCII : List Nat → Except String (List Nat),
      ParseSimple toASCII s = Outcome.error ParseError.notCommon := by
  have h1 : emailIsTooLong s = false := by
    simpa [emailIsTooLong, _maxEmailLength] using hlen
  have m1 : matchString _rfc5322Regexp s = false := by
    by_contra hm
    exact h (rfc5322_has_at (by simpa using hm))
  have m2 : matchString _commonRegexp s = false := by
    by_contra hm
    exact h (common_has_at hne (by simpa using hm))
  have m3 : matchString _simpleRegexp s = false := by
    by_contra hm
    exact h (simple_has_at (by simpa using hm))
  refine ⟨?_, ?_, fun toASCII => ?_⟩
  · simp only [ParseRfc5322, h1, m1]; simp
  · simp only [ParseCommon, h1, m2]; simp
  · simp only [ParseSimple, h1, m3]; simp

/-- The string `not-an-email` fails under the three policies with the
pattern-mismatch error. -/
theorem no_separator_rejected_witness :
    str "not-an-email" ≠ [] ∧ (str "not-an-email").length ≤ 254 ∧ 0x40 ∉ str "not-an-email" ∧
    ParseRfc5322 (str "not-an-email") = Outcome.error ParseError.notRfc5322 ∧
    ParseCommon (str "not-an-email") = Outcome.error ParseError.notCommon ∧
    ∀ toASCII : List Nat → Except String (List Nat),
      ParseSimple toASCII (str "not-an-email") = Outcome.error ParseError.notCommon :=
  ⟨by decide, by decide, by decide,
   no_separator_rejected (str "not-an-email") (by decide) (by decide) (by decide)⟩

/-! ## The local part of a result -/

/-- C12, as stated, fails: with a conversion that decodes the label `xn--` to the
empty label and writes `ü` as `xn--tda`, as the IDNA conversion without options
does, `ParseSimple` accepts `xn--@ü.com` and returns an empty `Local`. -/
theorem simple_local_empty :
    ParseSimple toASCIIAce (str "xn--@" ++ [0xC3, 0xBC] ++ str ".com")
      = Outcome.ok ⟨[], str "xn--tda.com"⟩ := by
  decide

/-- C12, amended: the `Local` of a result of `ParseRfc5322` or `ParseCommon` is never
empty.  For `ParseSimple` the part of the input before its last `@` is never empty,
and the returned `Local` is that part or what `ToASCII` made of it; so the returned
`Local` is not empty when `ToASCII` gives no empty name for a name that is not
empty. -/
theorem local_never_empty :
    (∀ (s : List Nat) (e : Email), ParseRfc5322 s = Outcome.ok e → e.Local ≠ []) ∧
    (∀ (s : List Nat) (e : Email), ParseCommon s = Outcome.ok e → e.Local ≠ []) ∧
    (∀ (toASCII : List Nat → Except String (List Nat)) (s : List Nat) (e : Email),
      ParseSimple toASCII s = Outcome.ok e →
        ∃ e0 : Email, splitAtLast s = some e0 ∧ e0.Local ≠ [] ∧
          (e.Local = e0.Local ∨ toASCII e0.Local = Except.ok e.Local)) ∧
    (∀ (toASCII : List Nat → Except String (List Nat)) (s : List Nat) (e : Email),
      (∀ x y : List Nat, toASCII x = Except.ok y → x ≠ [] → y ≠ []) →
        ParseSimple toASCII s = Outcome.ok e → e.Local ≠ []) := by
  have simple : ∀ (toASCII : List Nat → Except String (List Nat)) (s : List Nat) (e : Email),
      ParseSimple toASCII s = Outcome.ok e →
        ∃ e0 : Email, splitAtLast s = some e0 ∧ e0.Local ≠ [] ∧
          (e.Local = e0.Local ∨ toASCII e0.Local = Except.ok e.Local) := by
    intro toASCII s e h
    obtain ⟨-, hm, -, e0, hs, -, hcase⟩ := ParseSimple_ok h
    refine ⟨e0, hs, @local_ne_nil_of_match _simpleRegexp (by decide) _ _ hm hs, ?_⟩
    rcases hcase with ⟨-, h2⟩ | ⟨-, h2⟩
    · exact Or.inl h2
    · exact Or.inr h2
  refine ⟨?_, ?_, simple, ?_⟩
  · intro s e h
    obtain ⟨-, hm, hs, -⟩ := ParseRfc5322_ok h
    exact @local_ne_nil_of_match _rfc5322Regexp (by decide) _ _ hm hs
  · intro s e h
    obtain ⟨-, hm, hs, -⟩ := ParseCommon_ok h
    exact @local_ne_nil_of_match _commonRegexp (by decide) _ _ hm hs
  · intro toASCII s e hA h
    obtain ⟨e0, -, hne, hcase⟩ := simple toASCII s e h
    rcases hcase with h1 | h1
    · rw [h1]; exact hne
    · exact hA _ _ h1 hne

/-- The result of `a@ü.com` under the sample conversion has the local part `a`. -/
theorem local_never_empty_witness :
    ParseSimple toASCIIAce (str "a@" ++ [0xC3, 0xBC] ++ str ".com")
      = Outcome.ok ⟨str "a", str "xn--tda.com"⟩ ∧
    ∃ e0 : Email, splitAtLast (str "a@" ++ [0xC3, 0xBC] ++ str ".com") = some e0 ∧
      e0.Local ≠ [] ∧
      (str "a" = e0.Local ∨ toASCIIAce e0.Local = Except.ok (str "a")) :=
  ⟨by decide,
   local_never_empty.2.2.1 toASCIIAce (str "a@" ++ [0xC3, 0xBC] ++ str ".com")
     ⟨str "a", str "xn--tda.com"⟩ (by decide)⟩

/-! ## Normalization under the simple policy -/

/-- C13: for an input of at most 254 bytes that matches the simple pattern, `l`
and `d` being its parts before and after the `@`: (1) when `ToASCII(d)` fails,
`ParseSimple` fails with the domain-conversion error; (2) when `ToASCII(d) = d`,
the local part is not converted and the result is `Local = l`, `Domain = d`, or the
local-length error when `len(l) > 64`; (3) when `ToASCII(d) = d1` differs from `d`,
`ParseSimple` fails with the local-conversion error when `ToASCII(l)` fails, and
otherwise returns `Domain = d1` and `Local = ToASCII(l)`, or the local-length error
when that converted local part exceeds 64 bytes. -/
theorem simple_normalization (toASCII : List Nat → Except String (List Nat))
    (l d : List Nat) (hlen : (l ++ [0x40] ++ d).length ≤ 254)
    (hm : matchString _simpleRegexp (l ++ [0x40] ++ d) = true) :
    (∀ err : String, toASCII d = Except.error err →
      ParseSimple toASCII (l ++ [0x40] ++ d) = Outcome.error (ParseError.domainToASCII err)) ∧
    (toASCII d = Except.ok d →
      ParseSimple toASCII (l ++ [0x40] ++ d)
        = if 64 < l.length then Outcome.error ParseError.localTooLong else Outcome.ok ⟨l, d⟩) ∧
    (∀ d1 : List Nat, toASCII d = Except.ok d1 → d1 ≠ d →
      (∀ err : String, toASCII l = Except.error err →
        ParseSimple toASCII (l ++ [0x40] ++ d)
          = Outcome.error (ParseError.localToASCII err)) ∧
      (∀ l1 : List Nat, toASCII l = Except.ok l1 →
        ParseSimple toASCII (l ++ [0x40] ++ d)
          = if 64 < l1.length then Outcome.error ParseError.localTooLong
            else Outcome.ok ⟨l1, d1⟩)) := by
  have e : l ++ [0x40] ++ d = l ++ 0x40 :: d := by simp
  rw [e] at hlen hm ⊢
  have hd := simple_no_at_after hm
  have h1 : emailIsTooLong (l ++ 0x40 :: d) = false := by
    simpa [emailIsTooLong, _maxEmailLength] using hlen
  have hs := splitAtLast_append l d hd
  refine ⟨fun err herr => ?_, fun hconv => ParseSimple_split hd hlen hm hconv,
    fun d1 hd1 hne => ⟨fun err herr => ?_, fun l1 hl1 => ?_⟩⟩
  · simp only [ParseSimple, h1, hm, hs, herr]; simp
  · simp only [ParseSimple, h1, hm, hs, hd1, herr]; simp [hne]
  · simp only [ParseSimple, h1, hm, hs, hd1, hl1, localPartIsTooLong, _maxLocalLength]
    simp [hne]

/-- The three cases on `a@ü.com`, `a@b.com` and `xn--!@ü.com` under the sample
conversion. -/
theorem simple_normalization_witness :
    ParseSimple toASCIIAce (str "a" ++ [0x40] ++ str "b.com") = Outcome.ok ⟨str "a", str "b.com"⟩ ∧
    ParseSimple toASCIIAce (str "a" ++ [0x40] ++ ([0xC3, 0xBC] ++ str ".com"))
      = Outcome.ok ⟨str "a", str "xn--tda.com"⟩ ∧
    ParseSimple toASCIIAce (str "xn--!" ++ [0x40] ++ ([0xC3, 0xBC] ++ str ".com"))
      = Outcome.error (ParseError.localToASCII "invalid Punycode") ∧
    ParseSimple toASCIIAce (str "a" ++ [0x40] ++ str "b.xn--!")
      = Outcome.error (ParseError.domainToASCII "invalid Punycode") :=
  ⟨by
    have h := (simple_normalization toASCIIAce (str "a") (str "b.com") (by decide)
      (by decide)).2.1 (by rfl)
    rw [if_neg (by decide)] at h
    exact h,
   by
    have h := ((simple_normalization toASCIIAce (str "a") ([0xC3, 0xBC] ++ str ".com")
      (by decide) (by decide)).2.2 (str "xn--tda.com") (by rfl) (by decide)).2 (str "a") (by rfl)
    rw [if_neg (by decide)] at h
    exact h,
   ((simple_normalization toASCIIAce (str "xn--!") ([0xC3, 0xBC] ++ str ".com")
      (by decide) (by decide)).2.2 (str "xn--tda.com") (by rfl) (by decide)).1
      "invalid Punycode" (by rfl),
   (simple_normalization toASCIIAce (str "a") (str "b.xn--!") (by decide) (by decide)).1
      "invalid Punycode" (by rfl)⟩

/-! ## The limit on the local part under the simple policy -/

set_option maxRecDepth 100000 in
/-- C18, as stated, fails: `ParseSimple` tests the length of the local part once,
after the conversion.  With a conversion that decodes the label `xn--` to the empty
label, as the IDNA conversion without options does, the input made of 16 times
`xn--.`, then `xn--@ü.com`, whose local part has 84 bytes, succeeds with a `Local`
of 16 dots; and an input whose local part has 67 bytes and does not convert fails
with the local-conversion error, not the local-length error. -/
theorem simple_long_local_accepted :
    ParseSimple toASCIIAce
        ((List.replicate 16 (str "xn--.")).flatten ++ str "xn--@" ++ [0xC3, 0xBC] ++ str ".com")
      = Outcome.ok ⟨List.replicate 16 0x2E, str "xn--tda.com"⟩ ∧
    64 < ((List.replicate 16 (str "xn--.")).flatten ++ str "xn--").length ∧
    ParseSimple toASCIIAce
        (List.replicate 61 0x61 ++ str ".xn--!@" ++ [0xC3, 0xBC] ++ str ".com")
      = Outcome.error (ParseError.localToASCII "invalid Punycode") ∧
    64 < (List.replicate 61 0x61 ++ str ".xn--!").length := by
  refine ⟨by decide, by decide, by decide, by decide⟩

/-- C18, amended: on every input on which `ParseSimple` succeeds the returned
`Local` has at most 64 bytes, and so has the part of the input before its last `@`
when `ToASCII` left the domain as it was (the local part is then not converted);
and an input of at most 254 bytes that matches the simple pattern, whose domain
`ToASCII` leaves as it is and whose local part exceeds 64 bytes, is rejected with
the local-length error. -/
theorem simple_local_limit (toASCII : List Nat → Except String (List Nat)) :
    (∀ (s : List Nat) (e : Email), ParseSimple toASCII s = Outcome.ok e →
      e.Local.length ≤ 64 ∧
      ∀ e0 : Email, splitAtLast s = some e0 → toASCII e0.Domain = Except.ok e0.Domain →
        e0.Local.length ≤ 64) ∧
    (∀ l d : List Nat, (l ++ [0x40] ++ d).length ≤ 254 →
      matchString _simpleRegexp (l ++ [0x40] ++ d) = true → toASCII d = Except.ok d →
      64 < l.length →
        ParseSimple toASCII (l ++ [0x40] ++ d) = Outcome.error ParseError.localTooLong) := by
  constructor
  · intro s e h
    obtain ⟨-, -, hl, e1, hs1, hd1, hcase⟩ := ParseSimple_ok h
    refine ⟨hl, fun e0 hs0 hfix => ?_⟩
    have he : e1 = e0 := by
      rw [hs1] at hs0
      exact Option.some.inj hs0
    subst he
    have hdom : e.Domain = e1.Domain := by
      rw [hfix] at hd1
      exact (Except.ok.inj hd1).symm
    rcases hcase with ⟨-, h2⟩ | ⟨h1, -⟩
    · rw [← h2]; exact hl
    · exact absurd hdom h1
  · intro l d hlen hm hconv hl
    have e : l ++ [0x40] ++ d = l ++ 0x40 :: d := by simp
    rw [e] at hlen hm ⊢
    rw [ParseSimple_split (simple_no_at_after hm) hlen hm hconv, if_pos hl]

set_option maxRecDepth 100000 in
/-- The limit at 65 letters before `@example.com`, the conversion changing nothing. -/
theorem simple_local_limit_witness :
    (List.replicate 65 0x61 ++ [0x40] ++ str "example.com").length ≤ 254 ∧
    matchString _simpleRegexp (List.replicate 65 0x61 ++ [0x40] ++ str "example.com") = true ∧
    64 < (List.replicate 65 0x61).length ∧
    ParseSimple toASCIIPlain (List.replicate 65 0x61 ++ [0x40] ++ str "example.com")
      = Outcome.error ParseError.localTooLong :=
  ⟨by decide, by decide, by decide,
   (simple_local_limit toASCIIPlain).2 (List.replicate 65 0x61) (str "example.com")
     (by decide) (by decide) rfl (by decide)⟩

/-! ## Case of letters under the strict and common policies -/

theorem foldOrbit_eq_of_lower {a b : Nat} (h : lowerAscii a = lowerAscii b) :
    foldOrbit a = foldOrbit b := by
  by_cases hab : a = b
  · rw [hab]
  · have hcase : (0x41 ≤ a ∧ a ≤ 0x5A ∧ b = a + 32) ∨ (0x41 ≤ b ∧ b ≤ 0x5A ∧ a = b + 32) := by
      simp only [lowerAscii] at h
      split_ifs at h <;> omega
    rcases hcase with ⟨h1, h2, rfl⟩ | ⟨h1, h2, rfl⟩
    · interval_cases a <;> rfl
    · interval_cases b <;> rfl

theorem classMatch_eq_of_lower {a b : Nat} (h : lowerAscii a = lowerAscii b) (n : Bool)
    (rs : List (Nat × Nat)) : classMatch true n rs a = classMatch true n rs b := by
  simp only [classMatch, if_true, foldOrbit_eq_of_lower h]

namespace Regex

theorem allFold_alt {a b : Regex} : allFold (alt a b) = (allFold a && allFold b) := by
  simp [allFold, classes, List.all_append]

theorem allFold_cat {a b : Regex} : allFold (cat a b) = (allFold a && allFold b) := by
  simp [allFold, classes, List.all_append]

theorem allFold_star {a : Regex} : allFold (star a) = allFold a := by
  simp [allFold, classes]

theorem allFold_mkAlt {a b : Regex} (ha : allFold a = true) (hb : allFold b = true) :
    allFold (mkAlt a b) = true := by
  cases a <;> cases b <;> simp_all [mkAlt, allFold_alt]

theorem allFold_mkCat {a b : Regex} (ha : allFold a = true) (hb : allFold b = true) :
    allFold (mkCat a b) = true := by
  cases a <;> simp_all [mkCat, allFold_cat]

theorem allFold_deriv (c : Nat) : ∀ {r : Regex}, allFold r = true → allFold (r.deriv c) = true := by
  intro r
  induction r with
  | noMatch => intro _; rfl
  | empty => intro _; rfl
  | cls f n rs => intro _; simp only [deriv]; split_ifs <;> rfl
  | alt a b iha ihb =>
    intro h
    rw [allFold_alt, Bool.and_eq_true] at h
    exact allFold_mkAlt (iha h.1) (ihb h.2)
  | cat a b iha ihb =>
    intro h
    rw [allFold_cat, Bool.and_eq_true] at h
    simp only [deriv]
    split_ifs
    · exact allFold_mkAlt (allFold_mkCat (iha h.1) h.2) (ihb h.2)
    · exact allFold_mkCat (iha h.1) h.2
  | star a iha =>
    intro h
    have h1 : allFold a = true := by rwa [allFold_star] at h
    exact allFold_mkCat (iha h1) h

/-- Under `(?i)` the derivative does not tell the two cases of a letter apart. -/
theorem deriv_eq_of_lower {a b : Nat} (hab : lowerAscii a = lowerAscii b) :
    ∀ {r : Regex}, allFold r = true → r.deriv a = r.deriv b := by
  intro r
  induction r with
  | noMatch => intro _; rfl
  | empty => intro _; rfl
  | cls f n rs =>
    intro h
    have hf : f = true := by simpa [allFold, classes] using h
    subst hf
    simp only [deriv, classMatch_eq_of_lower hab]
  | alt x y ihx ihy =>
    intro h
    rw [allFold_alt, Bool.and_eq_true] at h
    simp only [deriv, ihx h.1, ihy h.2]
  | cat x y ihx ihy =>
    intro h
    rw [allFold_cat, Bool.and_eq_true] at h
    simp only [deriv, ihx h.1, ihy h.2]
  | star x ihx =>
    intro h
    have h1 : allFold x = true := by rwa [allFold_star] at h
    simp only [deriv, ihx h1]

/-- Under `(?i)` two texts that differ in the case of ASCII letters match alike. -/
theorem rmatch_eq_of_sameUpToCase :
    ∀ (w v : List Nat) (r : Regex), allFold r = true → sameUpToCase w v →
      r.rmatch w = r.rmatch v := by
  intro w
  induction w with
  | nil =>
    intro v r _ h
    cases v with
    | nil => rfl
    | cons b v => simp [sameUpToCase] at h
  | cons a w ih =>
    intro v r hr h
    cases v with
    | nil => simp [sameUpToCase] at h
    | cons b v =>
      simp only [sameUpToCase, List.map_cons, List.cons.injEq] at h
      simp only [rmatch]
      rw [deriv_eq_of_lower h.1 hr]
      exact ih v _ (allFold_deriv b hr) h.2

end Regex

theorem lowerAscii_lt {a b : Nat} (h : lowerAscii a = lowerAscii b) (ha : a < 0x80) :
    b < 0x80 := by
  simp only [lowerAscii] at h
  split_ifs at h <;> omega

theorem lowerAscii_at {a : Nat} (h : lowerAscii a = 0x40) : a = 0x40 := by
  simp only [lowerAscii] at h
  split_ifs at h <;> omega

theorem sameUpToCase_ascii {s t : List Nat} (h : sameUpToCase s t) (hs : ∀ c ∈ s, c < 0x80) :
    ∀ c ∈ t, c < 0x80 := by
  induction s generalizing t with
  | nil =>
    cases t with
    | nil => intro c hc; simp at hc
    | cons b t => simp [sameUpToCase] at h
  | cons a s ih =>
    cases t with
    | nil => simp [sameUpToCase] at h
    | cons b t =>
      simp only [sameUpToCase, List.map_cons, List.cons.injEq] at h
      intro c hc
      rcases List.mem_cons.mp hc with rfl | hc
      · exact lowerAscii_lt h.1 (hs a (List.mem_cons_self _ _))
      · exact ih h.2 (fun x hx => hs x (List.mem_cons_of_mem _ hx)) c hc

theorem matchString_eq_of_sameUpToCase {re : Regex} (hre : Regex.allFold re = true)
    {s t : List Nat} (h : sameUpToCase s t) (hs : ∀ c ∈ s, c < 0x80) :
    matchString re s = matchString re t := by
  simp only [matchString, decodeRunes_ascii s hs, decodeRunes_ascii t (sameUpToCase_ascii h hs)]
  exact Regex.rmatch_eq_of_sameUpToCase s t re hre h

/-- The split of a string carries over to a string that differs in case. -/
theorem sameUpToCase_split {l d t : List Nat} (h : sameUpToCase (l ++ 0x40 :: d) t)
    (hd : 0x40 ∉ d) :
    ∃ l1 d1, t = l1 ++ 0x40 :: d1 ∧ l1.length = l.length ∧ 0x40 ∉ d1 := by
  simp only [sameUpToCase, List.map_append, List.map_cons] at h
  obtain ⟨l1, r1, rfl, hl1, hr1⟩ := List.map_eq_append_iff.mp h.symm
  obtain ⟨x, d1, rfl, hx, hd1⟩ := List.map_eq_cons_iff.mp hr1
  have hx40 : x = 0x40 := lowerAscii_at (by simpa [lowerAscii] using hx)
  subst hx40
  refine ⟨l1, d1, rfl, ?_, ?_⟩
  · have := congrArg List.length hl1
    simpa using this
  · intro hmem
    have : lowerAscii 0x40 ∈ d.map lowerAscii := by
      rw [← hd1]
      exact List.mem_map_of_mem _ hmem
    obtain ⟨y, hy, hy40⟩ := List.mem_map.mp this
    have : y = 0x40 := lowerAscii_at (by simpa [lowerAscii] using hy40)
    exact hd (this ▸ hy)

theorem sameUpToCase_length {s t : List Nat} (h : sameUpToCase s t) : s.length = t.length := by
  have := congrArg List.length h
  simpa using this

theorem ParseRfc5322_case {s t : List Nat} (hs : ∀ c ∈ s, c < 0x80) (h : sameUpToCase s t)
    {e : Email} (hok : ParseRfc5322 s = Outcome.ok e) : ∃ e1, ParseRfc5322 t = Outcome.ok e1 := by
  obtain ⟨hlen, hm, hsp, hl⟩ := ParseRfc5322_ok hok
  obtain ⟨hse, hd⟩ := splitAtLast_eq_some hsp
  rw [hse] at h
  obtain ⟨l1, d1, rfl, hl1, hd1⟩ := sameUpToCase_split h hd
  have hlen1 : (l1 ++ 0x40 :: d1).length ≤ 254 := by
    rw [← sameUpToCase_length h, ← hse]; exact hlen
  have hm1 : matchString _rfc5322Regexp (l1 ++ 0x40 :: d1) = true := by
    rw [← matchString_eq_of_sameUpToCase (by decide) h (hse ▸ hs), ← hse]; exact hm
  exact ⟨⟨l1, d1⟩, by rw [ParseRfc5322_split hd1 hlen1 hm1, if_neg (by omega)]⟩

theorem ParseCommon_case {s t : List Nat} (hs : ∀ c ∈ s, c < 0x80) (h : sameUpToCase s t)
    {e : Email} (hok : ParseCommon s = Outcome.ok e) : ∃ e1, ParseCommon t = Outcome.ok e1 := by
  obtain ⟨hlen, hm, hsp, hl⟩ := ParseCommon_ok hok
  obtain ⟨hse, hd⟩ := splitAtLast_eq_some hsp
  rw [hse] at h
  obtain ⟨l1, d1, rfl, hl1, hd1⟩ := sameUpToCase_split h hd
  have hlen1 : (l1 ++ 0x40 :: d1).length ≤ 254 := by
    rw [← sameUpToCase_length h, ← hse]; exact hlen
  have hm1 : matchString _commonRegexp (l1 ++ 0x40 :: d1) = true := by
    rw [← matchString_eq_of_sameUpToCase (by decide) h (hse ▸ hs), ← hse]; exact hm
  exact ⟨⟨l1, d1⟩, by rw [ParseCommon_split hd1 hlen1 hm1, if_neg (by omega)]⟩

/-- C20: the strict and common policies are case-insensitive and case-preserving.
For an ASCII string `s` and a string `t` that differs from `s` at most in the case
of ASCII letters, `ParseRfc5322` succeeds on `s` exactly when it succeeds on `t`,
and likewise `ParseCommon`; and a result on `t` put together again is `t` itself,
so `Local` and `Domain` keep the case of the input. -/
theorem case_insensitive (s t : List Nat) (hs : ∀ c ∈ s, c < 0x80) (h : sameUpToCase s t) :
    ((∃ e, ParseRfc5322 s = Outcome.ok e) ↔ (∃ e1, ParseRfc5322 t = Outcome.ok e1)) ∧
    ((∃ e, ParseCommon s = Outcome.ok e) ↔ (∃ e1, ParseCommon t = Outcome.ok e1)) ∧
    (∀ e1, ParseRfc5322 t = Outcome.ok e1 → e1.Local ++ [0x40] ++ e1.Domain = t) ∧
    (∀ e1, ParseCommon t = Outcome.ok e1 → e1.Local ++ [0x40] ++ e1.Domain = t) := by
  have ht := sameUpToCase_ascii h hs
  have h' : sameUpToCase t s := h.symm
  refine ⟨⟨?_, ?_⟩, ⟨?_, ?_⟩, ?_, ?_⟩
  · rintro ⟨e, he⟩; exact ParseRfc5322_case hs h he
  · rintro ⟨e, he⟩; exact ParseRfc5322_case ht h' he
  · rintro ⟨e, he⟩; exact ParseCommon_case hs h he
  · rintro ⟨e, he⟩; exact ParseCommon_case ht h' he
  · intro e1 he
    obtain ⟨-, -, hsp, -⟩ := ParseRfc5322_ok he
    simpa using (splitAtLast_eq_some hsp).1.symm
  · intro e1 he
    obtain ⟨-, -, hsp, -⟩ := ParseCommon_ok he
    simpa using (splitAtLast_eq_some hsp).1.symm

/-- The addresses `User@Example.COM` and `user@example.com`: both succeed under the
strict policy, each with its own case. -/
theorem case_insensitive_witness :
    sameUpToCase (str "User@Example.COM") (str "user@example.com") ∧
    ParseRfc5322 (str "User@Example.COM") = Outcome.ok ⟨str "User", str "Example.COM"⟩ ∧
    ParseRfc5322 (str "user@example.com") = Outcome.ok ⟨str "user", str "example.com"⟩ ∧
    ((∃ e, ParseRfc5322 (str "User@Example.COM") = Outcome.ok e) ↔
      (∃ e1, ParseRfc5322 (str "user@example.com") = Outcome.ok e1)) :=
  ⟨by decide, by decide, by decide,
   (case_insensitive (str "User@Example.COM") (str "user@example.com") (by decide)
      (by decide)).1⟩

/-! ## Texts of starred and repeated expressions -/

namespace Regex

theorem mem_lang_star_iff {a : Regex} {w : List Nat} :
    w ∈ (star a).lang ↔ ∃ L : List (List Nat), w = L.flatten ∧ ∀ y ∈ L, y ∈ a.lang :=
  Language.mem_kstar

theorem mem_lang_plus_iff {a : Regex} {w : List Nat} :
    w ∈ (plus a).lang ↔ ∃ L : List (List Nat), L ≠ [] ∧ w = L.flatten ∧ ∀ y ∈ L, y ∈ a.lang := by
  constructor
  · intro h
    obtain ⟨u, hu, v, hv, rfl⟩ := Language.mem_mul.mp h
    obtain ⟨L, rfl, hL⟩ := mem_lang_star_iff.mp hv
    refine ⟨u :: L, by simp, by simp, ?_⟩
    intro y hy
    rcases List.mem_cons.mp hy with rfl | hy
    · exact hu
    · exact hL y hy
  · rintro ⟨L, hne, rfl, hL⟩
    exact mem_lang_plus_flatten hne hL

theorem mem_lang_cls_iff {f n : Bool} {rs : List (Nat × Nat)} {w : List Nat} :
    w ∈ (cls f n rs).lang ↔ ∃ c, w = [c] ∧ classMatch f n rs c = true := Iff.rfl

theorem flatten_singletons (w : List Nat) : (w.map (fun c => [c])).flatten = w := by
  induction w with
  | nil => rfl
  | cons c w ih => simp [ih]

theorem mem_lang_star_cls_iff {f n : Bool} {rs : List (Nat × Nat)} {w : List Nat} :
    w ∈ (star (cls f n rs)).lang ↔ ∀ c ∈ w, classMatch f n rs c = true := by
  constructor
  · intro h
    exact lang_forall (fun c => classMatch f n rs c = true) (star (cls f n rs))
      (by intro t ht c hc; simp only [classes, List.mem_singleton] at ht; subst ht; exact hc) w h
  · exact mem_lang_star_cls

theorem mem_lang_plus_cls_iff {f n : Bool} {rs : List (Nat × Nat)} {w : List Nat} :
    w ∈ (plus (cls f n rs)).lang ↔ w ≠ [] ∧ ∀ c ∈ w, classMatch f n rs c = true := by
  constructor
  · intro h
    refine ⟨?_, ?_⟩
    · obtain ⟨u, hu, v, -, rfl⟩ := Language.mem_mul.mp h
      obtain ⟨c, rfl, -⟩ := hu
      simp
    · exact lang_forall (fun c => classMatch f n rs c = true) (plus (cls f n rs))
        (by
          intro t ht c hc
          simp only [plus, classes, List.mem_append, List.mem_singleton, or_self] at ht
          subst ht
          exact hc) w h
  · rintro ⟨h1, h2⟩
    exact mem_lang_plus_cls h1 h2

theorem mem_lang_cat_iff {a b : Regex} {w : List Nat} :
    w ∈ (cat a b).lang ↔ ∃ u v, w = u ++ v ∧ u ∈ a.lang ∧ v ∈ b.lang := by
  constructor
  · intro h
    obtain ⟨u, hu, v, hv, rfl⟩ := Language.mem_mul.mp h
    exact ⟨u, v, rfl, hu, hv⟩
  · rintro ⟨u, v, rfl, hu, hv⟩
    exact mem_lang_cat hu hv

theorem mem_lang_alt_iff {a b : Regex} {w : List Nat} :
    w ∈ (alt a b).lang ↔ w ∈ a.lang ∨ w ∈ b.lang :=
  Language.mem_add _ _ _

theorem mem_lang_empty_iff {w : List Nat} : w ∈ empty.lang ↔ w = [] :=
  Language.mem_one _

theorem mem_lang_opt_iff {a : Regex} {w : List Nat} :
    w ∈ (opt a).lang ↔ w ∈ a.lang ∨ w = [] := by
  rw [opt, mem_lang_alt_iff, mem_lang_empty_iff]

end Regex

theorem mem_lang_lit_iff {f : Bool} {c : Nat} (hc : c < 0x41) {w : List Nat} :
    w ∈ (Regex.lit f c).lang ↔ w = [c] :=
  ⟨mem_lang_lit_eq hc, fun h => h ▸ Regex.mem_lang_lit f c hc⟩

/-! ## Texts of the simple pattern -/

theorem mem_simpleLabel_iff {w : List Nat} :
    w ∈ simpleLabel.lang ↔ w ≠ [] ∧ ∀ c ∈ w, classMatch false true simpleExcluded c = true :=
  Regex.mem_lang_plus_cls_iff

theorem map_append_dot_flatten (labs : List (List Nat)) (last : List Nat) :
    (labs.map (fun x => x ++ [0x2E])).flatten ++ last = joinDots (labs ++ [last]) :=
  (joinDots_concat labs last).symm

/-- The texts of `(LABEL\.)*LABEL`: one or more labels joined by dots. -/
theorem mem_simple_local_iff {w : List Nat} :
    w ∈ (Regex.cat (Regex.star (Regex.cat simpleLabel (Regex.lit false 0x2E))) simpleLabel).lang ↔
      ∃ RL : List (List Nat), RL ≠ [] ∧ w = joinDots RL ∧ ∀ lab ∈ RL, lab ∈ simpleLabel.lang := by
  constructor
  · intro h
    obtain ⟨u, v, rfl, hu, hv⟩ := Regex.mem_lang_cat_iff.mp h
    obtain ⟨L, rfl, hL⟩ := Regex.mem_lang_star_iff.mp hu
    have hLab : ∀ y ∈ L, ∃ lab, y = lab ++ [0x2E] ∧ lab ∈ simpleLabel.lang := by
      intro y hy
      obtain ⟨a, b, rfl, ha, hb⟩ := Regex.mem_lang_cat_iff.mp (hL y hy)
      exact ⟨a, by rw [(mem_lang_lit_iff (by decide)).mp hb], ha⟩
    have : ∃ labs : List (List Nat), L = labs.map (fun x => x ++ [0x2E]) ∧
        ∀ lab ∈ labs, lab ∈ simpleLabel.lang := by
      clear hL hu h
      induction L with
      | nil => exact ⟨[], rfl, by simp⟩
      | cons y L ih =>
        obtain ⟨lab, rfl, hlab⟩ := hLab _ (List.mem_cons_self _ _)
        obtain ⟨labs, rfl, hlabs⟩ := ih (fun z hz => hLab z (List.mem_cons_of_mem _ hz))
        refine ⟨lab :: labs, rfl, ?_⟩
        intro z hz
        rcases List.mem_cons.mp hz with rfl | hz
        · exact hlab
        · exact hlabs z hz
    obtain ⟨labs, rfl, hlabs⟩ := this
    refine ⟨labs ++ [v], by simp, (joinDots_concat labs v).symm, ?_⟩
    intro lab hlab
    rcases List.mem_append.mp hlab with h1 | h1
    · exact hlabs lab h1
    · rw [List.mem_singleton] at h1
      rw [h1]; exact hv
  · rintro ⟨RL, hne, rfl, hRL⟩
    rcases List.eq_nil_or_concat RL with h0 | ⟨labs, last, rfl⟩
    · exact absurd h0 hne
    · rw [List.concat_eq_append, joinDots_concat]
      refine Regex.mem_lang_cat ?_ (hRL last (by simp))
      refine Regex.mem_lang_star_flatten ?_
      intro y hy
      obtain ⟨lab, hlab, rfl⟩ := List.mem_map.mp hy
      exact Regex.mem_lang_cat (hRL lab (by simp [hlab]))
        (Regex.mem_lang_lit false 0x2E (by decide))

/-- The texts of `LABEL(\.LABEL)+`: two or more labels joined by dots. -/
theorem mem_simple_domain_iff {w : List Nat} :
    w ∈ (Regex.cat simpleLabel (Regex.plus (Regex.cat (Regex.lit false 0x2E) simpleLabel))).lang ↔
      ∃ RD : List (List Nat), 2 ≤ RD.length ∧ w = joinDots RD ∧
        ∀ lab ∈ RD, lab ∈ simpleLabel.lang := by
  constructor
  · intro h
    obtain ⟨u, v, rfl, hu, hv⟩ := Regex.mem_lang_cat_iff.mp h
    obtain ⟨L, hne, rfl, hL⟩ := Regex.mem_lang_plus_iff.mp hv
    have hLab : ∀ y ∈ L, ∃ lab, y = 0x2E :: lab ∧ lab ∈ simpleLabel.lang := by
      intro y hy
      obtain ⟨a, b, rfl, ha, hb⟩ := Regex.mem_lang_cat_iff.mp (hL y hy)
      exact ⟨b, by rw [(mem_lang_lit_iff (by decide)).mp ha]; rfl, hb⟩
    have : ∃ labs : List (List Nat), L = labs.map (fun x => 0x2E :: x) ∧
        ∀ lab ∈ labs, lab ∈ simpleLabel.lang := by
      clear hL hv h hne
      induction L with
      | nil => exact ⟨[], rfl, by simp⟩
      | cons y L ih =>
        obtain ⟨lab, rfl, hlab⟩ := hLab _ (List.mem_cons_self _ _)
        obtain ⟨labs, rfl, hlabs⟩ := ih (fun z hz => hLab z (List.mem_cons_of_mem _ hz))
        refine ⟨lab :: labs, rfl, ?_⟩
        intro z hz
        rcases List.mem_cons.mp hz with rfl | hz
        · exact hlab
        · exact hlabs z hz
    obtain ⟨labs, rfl, hlabs⟩ := this
    refine ⟨u :: labs, ?_, (joinDots_cons u labs).symm, ?_⟩
    · cases labs with
      | nil => simp at hne
      | cons a t => simp
    · intro lab hlab
      rcases List.mem_cons.mp hlab with rfl | h1
      · exact hu
      · exact hlabs lab h1
  · rintro ⟨RD, hlen, rfl, hRD⟩
    cases RD with
    | nil => simp at hlen
    | cons first rest =>
      rw [joinDots_cons]
      refine Regex.mem_lang_cat (hRD first (by simp)) ?_
      refine Regex.mem_lang_plus_flatten ?_ ?_
      · cases rest with
        | nil => simp at hlen
        | cons a t => simp
      · intro y hy
        obtain ⟨lab, hlab, rfl⟩ := List.mem_map.mp hy
        exact Regex.mem_lang_cat (u := [0x2E]) (Regex.mem_lang_lit false 0x2E (by decide))
          (hRD lab (by simp [hlab]))

/-- The texts of the simple pattern: labels joined by dots, `@`, two or more labels
joined by dots. -/
theorem mem_simple_iff {w : List Nat} :
    w ∈ _simpleRegexp.lang ↔
      ∃ RL RD : List (List Nat), RL ≠ [] ∧ 2 ≤ RD.length ∧
        w = joinDots RL ++ 0x40 :: joinDots RD ∧
        (∀ lab ∈ RL, lab ∈ simpleLabel.lang) ∧ (∀ lab ∈ RD, lab ∈ simpleLabel.lang) := by
  have hdef : _simpleRegexp.lang
      = (Regex.star (Regex.cat simpleLabel (Regex.lit false 0x2E))).lang
        * (simpleLabel.lang * ((Regex.lit false 0x40).lang
          * (simpleLabel.lang
            * (Regex.plus (Regex.cat (Regex.lit false 0x2E) simpleLabel)).lang))) := rfl
  have hassoc : _simpleRegexp.lang
      = (Regex.cat (Regex.star (Regex.cat simpleLabel (Regex.lit false 0x2E))) simpleLabel).lang
        * ((Regex.lit false 0x40).lang
          * (Regex.cat simpleLabel
              (Regex.plus (Regex.cat (Regex.lit false 0x2E) simpleLabel))).lang) := by
    rw [hdef]
    simp only [Regex.lang, mul_assoc]
  rw [hassoc]
  constructor
  · intro h
    obtain ⟨u, hu, r, hr, rfl⟩ := Language.mem_mul.mp h
    obtain ⟨a, ha, v, hv, rfl⟩ := Language.mem_mul.mp hr
    obtain ⟨RL, hne, rfl, hRL⟩ := mem_simple_local_iff.mp hu
    obtain ⟨RD, hlen, rfl, hRD⟩ := mem_simple_domain_iff.mp hv
    rw [(mem_lang_lit_iff (by decide)).mp ha]
    exact ⟨RL, RD, hne, hlen, rfl, hRL, hRD⟩
  · rintro ⟨RL, RD, hne, hlen, rfl, hRL, hRD⟩
    refine Language.append_mem_mul (mem_simple_local_iff.mpr ⟨RL, hne, rfl, hRL⟩) ?_
    exact Language.append_mem_mul (a := [0x40]) (Regex.mem_lang_lit false 0x40 (by decide))
      (mem_simple_domain_iff.mpr ⟨RD, hlen, rfl, hRD⟩)

/-! ## Labels of a string -/

theorem splitDots_ne_nil (s : List Nat) : splitDots s ≠ [] := by
  induction s with
  | nil => simp [splitDots]
  | cons c t ih =>
    simp only [splitDots]
    split_ifs
    · simp
    · cases h : splitDots t with
      | nil => simp
      | cons a r => simp

theorem splitDots_dot (t : List Nat) : splitDots (0x2E :: t) = [] :: splitDots t := by
  simp [splitDots]

theorem splitDots_cons_ne {c : Nat} (hc : c ≠ 0x2E) (t : List Nat) :
    ∃ h r, splitDots t = h :: r ∧ splitDots (c :: t) = (c :: h) :: r := by
  cases h : splitDots t with
  | nil => exact absurd h (splitDots_ne_nil t)
  | cons a r =>
    refine ⟨a, r, rfl, ?_⟩
    simp [splitDots, hc, h]

theorem splitDots_append_dot (a b : List Nat) :
    splitDots (a ++ 0x2E :: b) = splitDots a ++ splitDots b := by
  induction a with
  | nil => simp [splitDots]
  | cons c a ih =>
    by_cases hc : c = 0x2E
    · subst hc
      rw [List.cons_append, splitDots_dot, splitDots_dot, ih]
      rfl
    · obtain ⟨h, r, h1, h2⟩ := splitDots_cons_ne hc a
      obtain ⟨h', r', h1', h2'⟩ := splitDots_cons_ne hc (a ++ 0x2E :: b)
      rw [List.cons_append, h2', h2]
      rw [ih, h1] at h1'
      simp only [List.cons_append, List.cons.injEq] at h1'
      rw [← h1'.1, ← h1'.2]
      rfl

theorem splitDots_of_not_mem {x : List Nat} (h : 0x2E ∉ x) : splitDots x = [x] := by
  induction x with
  | nil => rfl
  | cons c x ih =>
    have hc : c ≠ 0x2E := fun e => h (e ▸ List.mem_cons_self _ _)
    obtain ⟨a, r, h1, h2⟩ := splitDots_cons_ne hc x
    rw [ih (fun hm => h (List.mem_cons_of_mem _ hm))] at h1
    simp only [List.cons.injEq] at h1
    rw [h2, ← h1.1, ← h1.2]

/-- Labels without dots, joined by dots, are the labels of the string they make. -/
theorem splitDots_joinDots (L : List (List Nat)) (hne : L ≠ [])
    (h : ∀ lab ∈ L, 0x2E ∉ lab) : splitDots (joinDots L) = L := by
  induction L with
  | nil => exact absurd rfl hne
  | cons a t ih =>
    cases t with
    | nil => simpa [joinDots] using splitDots_of_not_mem (h a (List.mem_cons_self _ _))
    | cons b t =>
      have e : joinDots (a :: b :: t) = a ++ 0x2E :: joinDots (b :: t) := rfl
      rw [e, splitDots_append_dot, splitDots_of_not_mem (h a (List.mem_cons_self _ _)),
        ih (by simp) (fun lab hl => h lab (List.mem_cons_of_mem _ hl))]
      rfl

theorem splitDots_at_cons (b : List Nat) :
    ∃ h r, splitDots (0x40 :: b) = (0x40 :: h) :: r := by
  obtain ⟨h, r, -, h2⟩ := splitDots_cons_ne (c := 0x40) (by decide) b
  exact ⟨h, r, h2⟩

theorem splitDots_concat_at (a : List Nat) :
    ∃ init last, splitDots (a ++ [0x40]) = init ++ [last ++ [0x40]] := by
  induction a with
  | nil => exact ⟨[], [], by simp [splitDots]⟩
  | cons c a ih =>
    obtain ⟨init, last, hi⟩ := ih
    by_cases hc : c = 0x2E
    · subst hc
      exact ⟨[] :: init, last, by rw [List.cons_append, splitDots_dot, hi]; rfl⟩
    · obtain ⟨h, r, h1, h2⟩ := splitDots_cons_ne hc (a ++ [0x40])
      rw [hi] at h1
      cases init with
      | nil =>
        simp only [List.nil_append, List.cons.injEq] at h1
        refine ⟨[], c :: last, ?_⟩
        rw [List.cons_append, h2, ← h1.1, ← h1.2]
        rfl
      | cons i0 init =>
        simp only [List.cons_append, List.cons.injEq] at h1
        refine ⟨(c :: i0) :: init, last, ?_⟩
        rw [List.cons_append, h2, ← h1.1, ← h1.2]
        rfl

theorem joinDots_append_cons (A : List (List Nat)) (z : List Nat) (B : List (List Nat)) :
    joinDots (A ++ z :: B)
      = (A.map (fun x => x ++ [0x2E])).flatten ++ z ++ (B.map (fun x => 0x2E :: x)).flatten := by
  induction A with
  | nil => simp [joinDots_cons]
  | cons a A ih =>
    cases A with
    | nil =>
      have e : joinDots ([a] ++ z :: B) = a ++ 0x2E :: joinDots (z :: B) := rfl
      rw [e, joinDots_cons]
      simp
    | cons a' A =>
      have e : joinDots ((a :: a' :: A) ++ z :: B)
          = a ++ 0x2E :: joinDots ((a' :: A) ++ z :: B) := rfl
      rw [e, ih]
      simp

/-- Two joined names with a byte between them are one joined name: the last label
of the first, the byte, and the first label of the second make one label. -/
theorem joinDots_glue (A : List (List Nat)) (x : List Nat) (c : Nat) (y : List Nat)
    (B : List (List Nat)) :
    joinDots (A ++ [x]) ++ c :: joinDots (y :: B) = joinDots (A ++ (x ++ c :: y) :: B) := by
  rw [joinDots_concat, joinDots_cons, joinDots_append_cons]
  simp

/-! ## The simple pattern on bytes -/

theorem decodeRunes_joinDots (L : List (List Nat)) :
    decodeRunes (joinDots L) = joinDots (L.map decodeRunes) := by
  induction L with
  | nil => rfl
  | cons a t ih =>
    cases t with
    | nil => rfl
    | cons b t =>
      have e : joinDots (a :: b :: t) = a ++ 0x2E :: joinDots (b :: t) := rfl
      rw [e, decodeRunes_append a _ 0x2E (by decide), ih]
      rfl

/-- A string whose runes are labels joined by dots is itself labels joined by dots. -/
theorem exists_joinDots_of_decodeRunes :
    ∀ (RL : List (List Nat)) (s : List Nat), RL ≠ [] → decodeRunes s = joinDots RL →
      ∃ BL : List (List Nat), s = joinDots BL ∧ BL.map decodeRunes = RL := by
  intro RL
  induction RL with
  | nil => intro s h; exact absurd rfl h
  | cons r t ih =>
    intro s _ hs
    cases t with
    | nil => exact ⟨[s], rfl, by simpa [joinDots] using hs⟩
    | cons r' t' =>
      have e : joinDots (r :: r' :: t') = r ++ 0x2E :: joinDots (r' :: t') := rfl
      rw [e] at hs
      obtain ⟨a, b, rfl, ha, hb⟩ := exists_split_decodeRunes (by decide) hs
      obtain ⟨BL, rfl, hBL⟩ := ih b (by simp) hb
      cases BL with
      | nil => simp at hBL
      | cons b0 BL =>
        refine ⟨a :: b0 :: BL, rfl, ?_⟩
        simp only [List.map_cons, List.cons.injEq] at hBL ⊢
        exact ⟨ha, hBL.1, hBL.2⟩

theorem simpleExcluded_below : ∀ c, c < 0x80 →
    (inRanges simpleExcluded c = true ↔ (c = 0x2E ∨ c = 0x40 ∨ labelBarred c = true)) := by
  decide

theorem labelBarred_lt {c : Nat} (h : labelBarred c = true) : c < 0x80 := by
  simp only [labelBarred, Bool.or_eq_true, beq_iff_eq] at h
  omega

theorem simpleExcluded_iff (c : Nat) :
    inRanges simpleExcluded c = true ↔ (c = 0x2E ∨ c = 0x40 ∨ labelBarred c = true) := by
  by_cases hc : c < 0x80
  · exact simpleExcluded_below c hc
  · constructor
    · intro h
      have := @Regex.inRanges_le simpleExcluded _ 0x80 (by decide) h
      exact absurd this hc
    · rintro (h | h | h)
      · omega
      · omega
      · exact absurd (labelBarred_lt h) hc

theorem simple_classMatch_iff (c : Nat) :
    classMatch false true simpleExcluded c = true ↔
      (c ≠ 0x2E ∧ c ≠ 0x40 ∧ labelBarred c = false) := by
  have h := simpleExcluded_iff c
  simp only [classMatch, Bool.false_eq_true, if_false, Bool.true_xor, Bool.not_eq_true']
  constructor
  · intro hf
    have hn : ¬ (c = 0x2E ∨ c = 0x40 ∨ labelBarred c = true) := by
      rw [← h, hf]; simp
    push_neg at hn
    exact ⟨hn.1, hn.2.1, by simpa using hn.2.2⟩
  · rintro ⟨h1, h2, h3⟩
    by_contra hf
    have ht : inRanges simpleExcluded c = true := by simpa using hf
    rcases h.mp ht with e | e | e
    · exact h1 e
    · exact h2 e
    · rw [h3] at e; cases e

/-- A label in the words of the description is a string whose runes match `LABEL`. -/
theorem isSimpleLabel_iff (lab : List Nat) :
    IsSimpleLabel lab ↔ decodeRunes lab ∈ simpleLabel.lang := by
  rw [mem_simpleLabel_iff]
  constructor
  · rintro ⟨hne, hall⟩
    refine ⟨decodeRunes_ne_nil hne, fun r hr => ?_⟩
    by_contra hf
    have hex : inRanges simpleExcluded r = true := by
      simpa [classMatch] using hf
    have hlt := @Regex.inRanges_le simpleExcluded _ 0x80 (by decide) hex
    have hmem := mem_of_mem_decodeRunes hlt hr
    exact hf ((simple_classMatch_iff r).mpr (hall r hmem))
  · rintro ⟨hne, hall⟩
    refine ⟨fun h => hne (by rw [h]; rfl), fun c hc => ?_⟩
    by_contra hf
    have hex : inRanges simpleExcluded c = true := by
      rw [simpleExcluded_iff]
      by_contra hn
      push_neg at hn
      exact hf ⟨hn.1, hn.2.1, by simpa using hn.2.2⟩
    have hlt := @Regex.inRanges_le simpleExcluded _ 0x80 (by decide) hex
    have := hall c (mem_decodeRunes_of_mem hlt hc)
    exact hf ((simple_classMatch_iff c).mp this)

/-- A string passes the simple pattern exactly when it has the shape of the
description. -/
theorem matchString_simple_iff (s : List Nat) :
    matchString _simpleRegexp s = true ↔ SimpleShape s := by
  rw [matchString_iff, mem_simple_iff]
  constructor
  · rintro ⟨RL, RD, hne, hlen, hs, hRL, hRD⟩
    obtain ⟨a, b, rfl, ha, hb⟩ := exists_split_decodeRunes (by decide) hs
    obtain ⟨BL, rfl, hBL⟩ := exists_joinDots_of_decodeRunes RL a hne ha
    have hRDne : RD ≠ [] := by
      intro h; rw [h] at hlen; simp at hlen
    obtain ⟨BD, rfl, hBD⟩ := exists_joinDots_of_decodeRunes RD b hRDne hb
    refine ⟨BL, BD, rfl, ?_, ?_, ?_, ?_⟩
    · intro h; rw [h] at hBL; exact hne hBL.symm
    · rw [← hBD] at hlen; simpa using hlen
    · intro lab hlab
      exact (isSimpleLabel_iff lab).mpr (hRL _ (hBL ▸ List.mem_map_of_mem _ hlab))
    · intro lab hlab
      exact (isSimpleLabel_iff lab).mpr (hRD _ (hBD ▸ List.mem_map_of_mem _ hlab))
  · rintro ⟨Ll, Ld, rfl, hne, hlen, hLl, hLd⟩
    refine ⟨Ll.map decodeRunes, Ld.map decodeRunes, by simpa using hne, by simpa using hlen,
      ?_, ?_, ?_⟩
    · rw [decodeRunes_append _ _ 0x40 (by decide), decodeRunes_joinDots, decodeRunes_joinDots]
    · intro lab hlab
      obtain ⟨x, hx, rfl⟩ := List.mem_map.mp hlab
      exact (isSimpleLabel_iff x).mp (hLl x hx)
    · intro lab hlab
      obtain ⟨x, hx, rfl⟩ := List.mem_map.mp hlab
      exact (isSimpleLabel_iff x).mp (hLd x hx)

theorem not_mem_joinDots {L : List (List Nat)} {c : Nat} (hc : c ≠ 0x2E)
    (h : ∀ lab ∈ L, c ∉ lab) : c ∉ joinDots L := by
  intro hm
  rcases mem_joinDots hm with h1 | ⟨lab, hlab, hcl⟩
  · exact hc h1
  · exact h lab hlab hcl

theorem split_unique {c : Nat} : ∀ {a l b d : List Nat}, c ∉ a → c ∉ l →
    a ++ c :: b = l ++ c :: d → a = l ∧ b = d := by
  intro a
  induction a with
  | nil =>
    intro l b d _ hl h
    cases l with
    | nil => simpa using h
    | cons x l =>
      simp only [List.nil_append, List.cons_append, List.cons.injEq] at h
      exact absurd (h.1 ▸ List.mem_cons_self _ _) hl
  | cons y a ih =>
    intro l b d ha hl h
    cases l with
    | nil =>
      simp only [List.nil_append, List.cons_append, List.cons.injEq] at h
      exact absurd (h.1 ▸ List.mem_cons_self _ _) ha
    | cons x l =>
      simp only [List.cons_append, List.cons.injEq] at h
      obtain ⟨h1, h2⟩ := ih (fun hm => ha (List.mem_cons_of_mem _ hm))
        (fun hm => hl (List.mem_cons_of_mem _ hm)) h.2
      exact ⟨by rw [h.1, h1], h2⟩

/-- What the shape says about the labels of the whole string: none is empty, none
begins or ends with `@`; and the string holds one `@`, a dot after it, and no
barred character. -/
theorem SimpleShape.facts {s : List Nat} (h : SimpleShape s) :
    (∀ lab ∈ splitDots s, lab ≠ [] ∧ (∀ t, lab ≠ 0x40 :: t) ∧ (∀ t, lab ≠ t ++ [0x40])) ∧
    s.count 0x40 = 1 ∧
    (∀ l d, s = l ++ 0x40 :: d → 0x2E ∈ d) ∧
    (∀ c ∈ s, labelBarred c = false) := by
  obtain ⟨Ll, Ld, rfl, hne, hlen, hLl, hLd⟩ := h
  have hatL : (0x40 : Nat) ∉ joinDots Ll :=
    not_mem_joinDots (by decide) (fun lab hlab hc => (hLl lab hlab).2 _ hc |>.2.1 rfl)
  have hatD : (0x40 : Nat) ∉ joinDots Ld :=
    not_mem_joinDots (by decide) (fun lab hlab hc => (hLd lab hlab).2 _ hc |>.2.1 rfl)
  have hcount : (joinDots Ll ++ 0x40 :: joinDots Ld).count 0x40 = 1 := by
    simp [List.count_append, List.count_eq_zero_of_not_mem, hatL, hatD]
  refine ⟨?_, hcount, ?_, ?_⟩
  · rcases List.eq_nil_or_concat Ll with h0 | ⟨A, x, rfl⟩
    · exact absurd h0 hne
    · cases Ld with
      | nil => simp at hlen
      | cons y B =>
        rw [List.concat_eq_append] at hLl ⊢
        rw [joinDots_glue, splitDots_joinDots _ (by simp)]
        · intro lab hlab
          have hx := hLl x (by simp)
          have hy := hLd y (by simp)
          rcases List.mem_append.mp hlab with h1 | h1
          · have := hLl lab (by simp [h1])
            refine ⟨this.1, fun t ht => ?_, fun t ht => ?_⟩
            · exact (this.2 0x40 (by rw [ht]; simp)).2.1 rfl
            · exact (this.2 0x40 (by rw [ht]; simp)).2.1 rfl
          · rcases List.mem_cons.mp h1 with h2 | h2
            · subst h2
              refine ⟨by simp, fun t ht => ?_, fun t ht => ?_⟩
              · cases x with
                | nil => exact hx.1 rfl
                | cons x0 x =>
                  simp only [List.cons_append, List.cons.injEq] at ht
                  exact (hx.2 x0 (by simp)).2.1 ht.1
              · rcases List.eq_nil_or_concat y with hy0 | ⟨y1, z, rfl⟩
                · exact hy.1 hy0
                · rw [List.concat_eq_append] at ht hy
                  have e : x ++ 0x40 :: (y1 ++ [z]) = (x ++ 0x40 :: y1) ++ [z] := by simp
                  rw [e] at ht
                  have := List.append_inj' ht rfl
                  simp only [List.cons.injEq, and_true] at this
                  exact (hy.2 z (by simp)).2.1 this.2
            · have := hLd lab (by simp [h2])
              refine ⟨this.1, fun t ht => ?_, fun t ht => ?_⟩
              · exact (this.2 0x40 (by rw [ht]; simp)).2.1 rfl
              · exact (this.2 0x40 (by rw [ht]; simp)).2.1 rfl
        · intro lab hlab
          rcases List.mem_append.mp hlab with h1 | h1
          · exact fun hc => (hLl lab (by simp [h1])).2 _ hc |>.1 rfl
          · rcases List.mem_cons.mp h1 with h2 | h2
            · subst h2
              intro hc
              rcases List.mem_append.mp hc with h3 | h3
              · exact (hLl x (by simp)).2 _ h3 |>.1 rfl
              · rcases List.mem_cons.mp h3 with h4 | h4
                · cases h4
                · exact (hLd y (by simp)).2 _ h4 |>.1 rfl
            · exact fun hc => (hLd lab (by simp [h2])).2 _ hc |>.1 rfl
  · intro l d hs
    have hl : (0x40 : Nat) ∉ l := by
      intro hl
      have h1 : 0 < l.count 0x40 := List.count_pos_iff.mpr hl
      rw [hs] at hcount
      simp only [List.count_append, List.count_cons_self] at hcount
      omega
    obtain ⟨-, hd⟩ := split_unique hatL hl hs
    rw [← hd]
    cases Ld with
    | nil => simp at hlen
    | cons y B =>
      cases B with
      | nil => simp at hlen
      | cons y' B =>
        have e : joinDots (y :: y' :: B) = y ++ 0x2E :: joinDots (y' :: B) := rfl
        rw [e]
        simp
  · intro c hc
    rcases List.mem_append.mp hc with h1 | h1
    · rcases mem_joinDots h1 with h2 | ⟨lab, hlab, hcl⟩
      · subst h2; rfl
      · exact ((hLl lab hlab).2 c hcl).2.2
    · rcases List.mem_cons.mp h1 with h2 | h2
      · subst h2; rfl
      · rcases mem_joinDots h2 with h3 | ⟨lab, hlab, hcl⟩
        · subst h3; rfl
        · exact ((hLd lab hlab).2 c hcl).2.2

/-- None of the listed faults has the shape of the description. -/
theorem not_shape_of_fault {s : List Nat} (hf : SimpleFault s) : ¬ SimpleShape s := by
  intro hs
  obtain ⟨hlabs, -, hdot, hbar⟩ := hs.facts
  rcases hf with ⟨t, rfl⟩ | ⟨a, rfl⟩ | ⟨a, b, rfl⟩ | ⟨a, b, rfl⟩ | ⟨a, b, rfl⟩ |
    ⟨l, d, rfl, hd⟩ | ⟨c, hc, hw⟩
  · exact (hlabs [] (by rw [splitDots_dot]; simp)).1 rfl
  · exact (hlabs [] (by rw [splitDots_append_dot]; simp [splitDots])).1 rfl
  · exact (hlabs [] (by rw [splitDots_append_dot, splitDots_dot]; simp)).1 rfl
  · obtain ⟨h, r, hr⟩ := splitDots_at_cons b
    exact (hlabs (0x40 :: h) (by rw [splitDots_append_dot, hr]; simp)).2.1 h rfl
  · obtain ⟨init, last, hi⟩ := splitDots_concat_at a
    have e : a ++ 0x40 :: 0x2E :: b = (a ++ [0x40]) ++ 0x2E :: b := by simp
    exact (hlabs (last ++ [0x40]) (by rw [e, splitDots_append_dot, hi]; simp)).2.2 last rfl
  · exact hd (hdot l d rfl)
  · have := hbar c hc
    rcases hw with rfl | rfl | rfl | rfl | rfl <;> cases this

set_option maxRecDepth 100000 in
/-- C17, as stated, fails: an input of 255 spaces holds whitespace, and
`ParseSimple` rejects it with the length error, not with the pattern-mismatch
error, whatever the conversion. -/
theorem simple_fault_too_long :
    SimpleFault (List.replicate 255 0x20) ∧
    ∀ toASCII : List Nat → Except String (List Nat),
      ParseSimple toASCII (List.replicate 255 0x20) = Outcome.error ParseError.emailTooLong ∧
      ParseSimple toASCII (List.replicate 255 0x20) ≠ Outcome.error ParseError.notCommon := by
  have h : emailIsTooLong (List.replicate 255 0x20) = true := by decide
  refine ⟨Or.inr (Or.inr (Or.inr (Or.inr (Or.inr (Or.inr
    ⟨0x20, by decide, Or.inl rfl⟩))))), fun toASCII => ?_⟩
  have e : ParseSimple toASCII (List.replicate 255 0x20)
      = Outcome.error ParseError.emailTooLong := by
    simp only [ParseSimple, h]; simp
  exact ⟨e, by rw [e]; simp⟩

/-- C17, amended: a string passes the simple pattern exactly when it is one or more
non-empty labels joined by single dots, one `@`, and a first non-empty label
followed by at least one further non-empty label after a dot, no label holding a
dot, an `@`, whitespace or one of `" ' ( ) [ ] { } / , : ;`; such a string holds
exactly one `@`; and `ParseSimple` rejects with the pattern-mismatch error every
input of at most 254 bytes that has a leading, trailing or doubled dot on either
side of `@`, a domain without dot, or a whitespace character. -/
theorem simple_characterization :
    (∀ s : List Nat, matchString _simpleRegexp s = true ↔ SimpleShape s) ∧
    (∀ s : List Nat, SimpleShape s → s.count 0x40 = 1) ∧
    (∀ (toASCII : List Nat → Except String (List Nat)) (s : List Nat),
      s.length ≤ 254 → SimpleFault s →
        ParseSimple toASCII s = Outcome.error ParseError.notCommon) := by
  refine ⟨matchString_simple_iff, fun s hs => hs.facts.2.1, fun toASCII s hlen hf => ?_⟩
  have h1 : emailIsTooLong s = false := by
    simpa [emailIsTooLong, _maxEmailLength] using hlen
  have m : matchString _simpleRegexp s = false := by
    by_contra hm
    exact not_shape_of_fault hf ((matchString_simple_iff s).mp (by simpa using hm))
  simp only [ParseSimple, h1, m]; simp

/-- The input `user@localhost` has a domain without dot and is rejected with the
pattern-mismatch error. -/
theorem simple_characterization_witness :
    (str "user@localhost").length ≤ 254 ∧ SimpleFault (str "user@localhost") ∧
    ParseSimple toASCIIPlain (str "user@localhost") = Outcome.error ParseError.notCommon :=
  have hf : SimpleFault (str "user@localhost") :=
    Or.inr (Or.inr (Or.inr (Or.inr (Or.inr (Or.inl
      ⟨str "user", str "localhost", by decide, by decide⟩)))))
  ⟨by decide, hf,
   simple_characterization.2.2 toASCIIPlain (str "user@localhost") (by decide) hf⟩

/-! ## The parts of the strict pattern -/

theorem prefix_of_split {c : Nat} {a b l d : List Nat} (h : a ++ c :: b = l ++ c :: d)
    (hd : c ∉ d) : ∃ m, l = a ++ m ∧ (c ∉ b → m = []) := by
  rcases List.append_eq_append_iff.mp h with ⟨a', h1, h2⟩ | ⟨c', h1, h2⟩
  · refine ⟨a', h1, fun hb => ?_⟩
    cases a' with
    | nil => rfl
    | cons x a' =>
      simp only [List.cons_append, List.cons.injEq] at h2
      exact absurd (h2.2 ▸ (by simp : c ∈ a' ++ c :: d)) hb
  · cases c' with
    | nil => exact ⟨[], by simpa using h1.symm, fun _ => rfl⟩
    | cons x c' =>
      simp only [List.cons_append, List.cons.injEq] at h2
      exact absurd (h2.2 ▸ (by simp : c ∈ c' ++ c :: b)) hd

/-- The strict pattern read in its three parts: local part, `@`, domains. -/
theorem strict_parts_iff (s : List Nat) :
    matchString _rfc5322Regexp s = true ↔
      ∃ loc rest : List Nat, s = loc ++ 0x40 :: rest ∧
        matchString (Regex.alt rfcDotAtom rfcQuoted) loc = true ∧
        matchString (Regex.star (Regex.alt rfcDnsDomain rfcLiteral)) rest = true := by
  have hdef : _rfc5322Regexp
      = Regex.cat (Regex.alt rfcDotAtom rfcQuoted)
          (Regex.cat (Regex.lit true 0x40) (Regex.star (Regex.alt rfcDnsDomain rfcLiteral))) := rfl
  simp only [matchString_iff]
  rw [hdef]
  constructor
  · intro h
    obtain ⟨u, r, hs, hu, hr⟩ := Regex.mem_lang_cat_iff.mp h
    obtain ⟨a, v, rfl, ha, hv⟩ := Regex.mem_lang_cat_iff.mp hr
    rw [(mem_lang_lit_iff (by decide)).mp ha] at hs
    obtain ⟨loc, rest, rfl, hloc, hrest⟩ := exists_split_decodeRunes (c := 0x40) (by decide) hs
    exact ⟨loc, rest, rfl, hloc ▸ hu, hrest ▸ hv⟩
  · rintro ⟨loc, rest, rfl, hloc, hrest⟩
    rw [decodeRunes_append _ _ 0x40 (by decide)]
    exact Regex.mem_lang_cat hloc
      (Regex.mem_lang_cat (u := [0x40]) (Regex.mem_lang_lit true 0x40 (by decide)) hrest)

theorem open_bracket_of_lit {w : List Nat} (h : w ∈ (Regex.lit true 0x5B).lang) :
    w = [0x5B] := by
  obtain ⟨c, rfl, hc⟩ := h
  simp only [classMatch, Bool.false_xor, if_true, List.any_eq_true] at hc
  obtain ⟨y, hy, hin⟩ := hc
  have hy5 : y = 0x5B := by
    simp only [inRanges, List.any_cons, List.any_nil, Bool.or_false, Bool.and_eq_true,
      decide_eq_true_eq] at hin
    omega
  subst hy5
  have : c = 0x5B := by
    unfold foldOrbit at hy
    split_ifs at hy <;> simp at hy <;> omega
  rw [this]

theorem open_bracket_mem_literal {w : List Nat} (h : w ∈ rfcLiteral.lang) : 0x5B ∈ w := by
  have hdef : rfcLiteral = Regex.cat (Regex.lit true 0x5B)
      (Regex.seq [Regex.rep 3 (Regex.cat rfcOctet (Regex.lit true 0x2E)),
        Regex.alt rfcOctet
          (Regex.seq [Regex.star (Regex.cls true false alnumHyphen),
            Regex.cls true false alnumLower, Regex.lit true 0x3A,
            Regex.plus (Regex.alt (Regex.cls true false dtext)
              (Regex.cat (Regex.lit true 0x5C) (Regex.cls true false qpair)))]),
        Regex.lit true 0x5D]) := rfl
  rw [hdef] at h
  obtain ⟨u, v, rfl, hu, -⟩ := Regex.mem_lang_cat_iff.mp h
  rw [open_bracket_of_lit hu]
  simp

/-- After the separator an `@` stands only where a bracketed literal is. -/
theorem no_at_without_bracket {rest : List Nat}
    (h : matchString (Regex.star (Regex.alt rfcDnsDomain rfcLiteral)) rest = true)
    (hb : 0x5B ∉ rest) : 0x40 ∉ rest := by
  rw [matchString_iff] at h
  obtain ⟨L, hL, hmem⟩ := Regex.mem_lang_star_iff.mp h
  intro hat
  have hat2 : 0x40 ∈ decodeRunes rest := mem_decodeRunes_of_mem (by decide) hat
  rw [hL] at hat2
  obtain ⟨p, hp, hatp⟩ := List.mem_flatten.mp hat2
  rcases Regex.mem_lang_alt_iff.mp (hmem p hp) with h1 | h1
  · exact Regex.not_mem_of_excludesRune (c := 0x40) (r := rfcDnsDomain) (by decide) h1 hatp
  · have h5 : 0x5B ∈ p := open_bracket_mem_literal h1
    have : 0x5B ∈ decodeRunes rest := by
      rw [hL]; exact List.mem_flatten.mpr ⟨p, hp, h5⟩
    exact hb (mem_of_mem_decodeRunes (by decide) this)

/-! ## Where the strict policy splits -/

set_option maxRecDepth 100000 in
/-- C16, as stated, fails: the class of the bracketed literal holds `@`, so on
`u@[1.2.3.a:@]` the grammar separates `u` from `[1.2.3.a:@]` while the last `@` lies
inside the literal: the returned `Local` is `u@[1.2.3.a:`, neither a dot-atom nor a
quoted string, and the returned `Domain` is `]`. -/
theorem strict_split_inside_literal :
    ParseRfc5322 (str "u@[1.2.3.a:@]") = Outcome.ok ⟨str "u@[1.2.3.a:", str "]"⟩ ∧
    matchString (Regex.alt rfcDotAtom rfcQuoted) (str "u") = true ∧
    matchString (Regex.star (Regex.alt rfcDnsDomain rfcLiteral)) (str "[1.2.3.a:@]") = true ∧
    matchString (Regex.alt rfcDotAtom rfcQuoted) (str "u@[1.2.3.a:") = false ∧
    matchString (Regex.star (Regex.alt rfcDnsDomain rfcLiteral)) (str "]") = false := by
  refine ⟨by decide, by decide, by decide, by decide, by decide⟩

/-- C16, amended: a string on which `ParseRfc5322` succeeds is `loc@rest` with `loc`
a dot-atom or a complete quoted string and `rest` the text of the domains; the split
never lands before the grammar's separator (`loc` is a prefix of the returned
`Local`, so an `@` inside a quoted local part is not the split point); when no `@`
lies in `rest` the returned `Local` is `loc` and the returned `Domain` is `rest`;
and an `@` lies in `rest` only when `rest` holds a bracketed literal. -/
theorem strict_split (s : List Nat) (e : Email) (h : ParseRfc5322 s = Outcome.ok e) :
    ∃ loc rest : List Nat, s = loc ++ 0x40 :: rest ∧
      matchString (Regex.alt rfcDotAtom rfcQuoted) loc = true ∧
      matchString (Regex.star (Regex.alt rfcDnsDomain rfcLiteral)) rest = true ∧
      (∃ m, e.Local = loc ++ m) ∧
      (0x40 ∉ rest → e.Local = loc ∧ e.Domain = rest) ∧
      (0x5B ∉ rest → 0x40 ∉ rest) := by
  obtain ⟨-, hm, hs, -⟩ := ParseRfc5322_ok h
  obtain ⟨hsp, hd⟩ := splitAtLast_eq_some hs
  obtain ⟨loc, rest, hlr, hloc, hrest⟩ := (strict_parts_iff s).mp hm
  have heq : loc ++ 0x40 :: rest = e.Local ++ 0x40 :: e.Domain := by rw [← hlr, ← hsp]
  obtain ⟨m, hm1, hm2⟩ := prefix_of_split heq hd
  refine ⟨loc, rest, hlr, hloc, hrest, ⟨m, hm1⟩, fun hr => ?_, no_at_without_bracket hrest⟩
  have hm0 := hm2 hr
  subst hm0
  rw [List.append_nil] at hm1
  rw [hm1] at heq
  exact ⟨hm1, by simpa using heq.symm⟩

set_option maxRecDepth 100000 in
/-- The split on `"a@b"@example.com`: the `@` inside the quoted local part is not
the split point. -/
theorem strict_split_witness :
    ParseRfc5322 quotedAt = Outcome.ok ⟨quotedAtLocal, str "example.com"⟩ ∧
    ∃ loc rest : List Nat, quotedAt = loc ++ 0x40 :: rest ∧
      matchString (Regex.alt rfcDotAtom rfcQuoted) loc = true ∧
      matchString (Regex.star (Regex.alt rfcDnsDomain rfcLiteral)) rest = true ∧
      (∃ m, (Email.mk quotedAtLocal (str "example.com")).Local = loc ++ m) ∧
      (0x40 ∉ rest → (Email.mk quotedAtLocal (str "example.com")).Local = loc ∧
        (Email.mk quotedAtLocal (str "example.com")).Domain = rest) ∧
      (0x5B ∉ rest → 0x40 ∉ rest) :=
  ⟨by decide, strict_split quotedAt ⟨quotedAtLocal, str "example.com"⟩ (by decide)⟩

/-! ## Dotted names in the patterns -/

theorem exists_labels_of_suffixed {a : Regex} {f : Bool} {L : List (List Nat)}
    (hL : ∀ y ∈ L, y ∈ (Regex.cat a (Regex.lit f 0x2E)).lang) :
    ∃ labs : List (List Nat), L = labs.map (fun x => x ++ [0x2E]) ∧
      ∀ lab ∈ labs, lab ∈ a.lang := by
  induction L with
  | nil => exact ⟨[], rfl, by simp⟩
  | cons y L ih =>
    obtain ⟨u, v, rfl, hu, hv⟩ := Regex.mem_lang_cat_iff.mp (hL _ (List.mem_cons_self _ _))
    rw [(mem_lang_lit_iff (by decide)).mp hv]
    obtain ⟨labs, rfl, hlabs⟩ := ih (fun z hz => hL z (List.mem_cons_of_mem _ hz))
    refine ⟨u :: labs, rfl, ?_⟩
    intro z hz
    rcases List.mem_cons.mp hz with rfl | hz
    · exact hu
    · exact hlabs z hz

theorem exists_labels_of_prefixed {a : Regex} {f : Bool} {L : List (List Nat)}
    (hL : ∀ y ∈ L, y ∈ (Regex.cat (Regex.lit f 0x2E) a).lang) :
    ∃ labs : List (List Nat), L = labs.map (fun x => 0x2E :: x) ∧
      ∀ lab ∈ labs, lab ∈ a.lang := by
  induction L with
  | nil => exact ⟨[], rfl, by simp⟩
  | cons y L ih =>
    obtain ⟨u, v, rfl, hu, hv⟩ := Regex.mem_lang_cat_iff.mp (hL _ (List.mem_cons_self _ _))
    rw [(mem_lang_lit_iff (by decide)).mp hu]
    obtain ⟨labs, rfl, hlabs⟩ := ih (fun z hz => hL z (List.mem_cons_of_mem _ hz))
    refine ⟨v :: labs, rfl, ?_⟩
    intro z hz
    rcases List.mem_cons.mp hz with rfl | hz
    · exact hv
    · exact hlabs z hz

/-- The texts of `X(\.X)*`: one or more texts of `X` joined by dots. -/
theorem mem_dotted_iff {a : Regex} {f : Bool} {w : List Nat} :
    w ∈ (Regex.cat a (Regex.star (Regex.cat (Regex.lit f 0x2E) a))).lang ↔
      ∃ L : List (List Nat), L ≠ [] ∧ w = joinDots L ∧ ∀ lab ∈ L, lab ∈ a.lang := by
  constructor
  · intro h
    obtain ⟨u, v, rfl, hu, hv⟩ := Regex.mem_lang_cat_iff.mp h
    obtain ⟨L, rfl, hL⟩ := Regex.mem_lang_star_iff.mp hv
    obtain ⟨labs, rfl, hlabs⟩ := exists_labels_of_prefixed hL
    refine ⟨u :: labs, by simp, (joinDots_cons u labs).symm, ?_⟩
    intro lab hlab
    rcases List.mem_cons.mp hlab with rfl | h1
    · exact hu
    · exact hlabs lab h1
  · rintro ⟨L, hne, rfl, hL⟩
    cases L with
    | nil => exact absurd rfl hne
    | cons first rest =>
      rw [joinDots_cons]
      refine Regex.mem_lang_cat (hL first (by simp)) (Regex.mem_lang_star_flatten ?_)
      intro y hy
      obtain ⟨lab, hlab, rfl⟩ := List.mem_map.mp hy
      exact Regex.mem_lang_cat (u := [0x2E]) (Regex.mem_lang_lit f 0x2E (by decide))
        (hL lab (by simp [hlab]))

/-- The texts of `(X\.)+X`: two or more texts of `X` joined by dots. -/
theorem mem_dotted_plus_iff {a : Regex} {f : Bool} {w : List Nat} :
    w ∈ (Regex.cat (Regex.plus (Regex.cat a (Regex.lit f 0x2E))) a).lang ↔
      ∃ L : List (List Nat), 2 ≤ L.length ∧ w = joinDots L ∧ ∀ lab ∈ L, lab ∈ a.lang := by
  constructor
  · intro h
    obtain ⟨u, v, rfl, hu, hv⟩ := Regex.mem_lang_cat_iff.mp h
    obtain ⟨L, hne, rfl, hL⟩ := Regex.mem_lang_plus_iff.mp hu
    obtain ⟨labs, rfl, hlabs⟩ := exists_labels_of_suffixed hL
    refine ⟨labs ++ [v], ?_, (joinDots_concat labs v).symm, ?_⟩
    · cases labs with
      | nil => simp at hne
      | cons x t => simp
    · intro lab hlab
      rcases List.mem_append.mp hlab with h1 | h1
      · exact hlabs lab h1
      · rw [List.mem_singleton] at h1
        rw [h1]; exact hv
  · rintro ⟨L, hlen, rfl, hL⟩
    rcases List.eq_nil_or_concat L with h0 | ⟨labs, last, rfl⟩
    · rw [h0] at hlen; simp at hlen
    · rw [List.concat_eq_append] at hL hlen ⊢
      rw [joinDots_concat]
      refine Regex.mem_lang_cat (Regex.mem_lang_plus_flatten ?_ ?_) (hL last (by simp))
      · cases labs with
        | nil => simp at hlen
        | cons x t => simp
      · intro y hy
        obtain ⟨lab, hlab, rfl⟩ := List.mem_map.mp hy
        exact Regex.mem_lang_cat (hL lab (by simp [hlab]))
          (Regex.mem_lang_lit f 0x2E (by decide))

/-! ## Classes under case folding -/

/-- A folded class of ASCII ranges is known from its ASCII runes and the two runes
that fold to a letter. -/
theorem classMatch_fold_eq {rs : List (Nat × Nat)} {g : Nat → Bool}
    (hrs : ∀ p ∈ rs, p.2 < 0x80)
    (hlow : ∀ c, c < 0x80 → classMatch true false rs c = g c)
    (h1 : classMatch true false rs 0x17F = g 0x17F)
    (h2 : classMatch true false rs 0x212A = g 0x212A)
    (hg : ∀ c, g c = true → foldedAscii c = true) (c : Nat) :
    classMatch true false rs c = g c := by
  by_cases hc : c < 0x80
  · exact hlow c hc
  by_cases hc1 : c = 0x17F
  · rw [hc1]; exact h1
  by_cases hc2 : c = 0x212A
  · rw [hc2]; exact h2
  have hnf : foldedAscii c = false := by
    simp [foldedAscii, hc, hc1, hc2]
  have ha : classMatch true false rs c = false := by
    by_contra hx
    have := classMatch_foldedAscii hrs (by simpa using hx)
    rw [hnf] at this; cases this
  have hb : g c = false := by
    by_contra hx
    have := hg c (by simpa using hx)
    rw [hnf] at this; cases this
  rw [ha, hb]

theorem letterDigit_folded (c : Nat) (h : letterDigit c = true) : foldedAscii c = true := by
  simp only [letterDigit, isAlnum, Bool.or_eq_true, Bool.and_eq_true, decide_eq_true_eq,
    beq_iff_eq] at h
  simp only [foldedAscii, Bool.or_eq_true, decide_eq_true_eq, beq_iff_eq]
  omega

theorem alnumLower_eq (c : Nat) : classMatch true false alnumLower c = letterDigit c :=
  classMatch_fold_eq (by decide) (by decide) (by decide) (by decide) letterDigit_folded c

theorem alnumHyphen_eq (c : Nat) :
    classMatch true false alnumHyphen c = (letterDigit c || c == 0x2D) := by
  refine classMatch_fold_eq (g := fun c => letterDigit c || c == 0x2D) (by decide) (by decide)
    (by decide) (by decide) ?_ c
  intro c h
  simp only [Bool.or_eq_true, beq_iff_eq] at h
  rcases h with h | h
  · exact letterDigit_folded c h
  · subst h; decide

/-! ## DNS labels and domains -/

theorem mem_rfcLabel_iff {w : List Nat} : w ∈ rfcLabel.lang ↔ IsDnsLabel w := by
  have hdef : rfcLabel = Regex.cat (Regex.cls true false alnumLower)
      (Regex.opt (Regex.cat (Regex.star (Regex.cls true false alnumHyphen))
        (Regex.cls true false alnumLower))) := rfl
  rw [hdef]
  constructor
  · intro h
    obtain ⟨u, v, rfl, hu, hv⟩ := Regex.mem_lang_cat_iff.mp h
    obtain ⟨c, rfl, hc⟩ := hu
    rw [alnumLower_eq] at hc
    rcases Regex.mem_lang_opt_iff.mp hv with hv | rfl
    · obtain ⟨m, l, rfl, hm, hl⟩ := Regex.mem_lang_cat_iff.mp hv
      obtain ⟨c2, rfl, hc2⟩ := hl
      rw [alnumLower_eq] at hc2
      have hm2 := Regex.mem_lang_star_cls_iff.mp hm
      refine ⟨?_, ⟨c, m ++ [c2], rfl, hc⟩, ⟨[c] ++ m, c2, by simp, hc2⟩⟩
      intro x hx
      simp only [List.singleton_append, List.mem_cons, List.mem_append, List.mem_singleton,
        List.not_mem_nil, or_false] at hx
      rcases hx with rfl | hx | rfl
      · exact Or.inl hc
      · have := hm2 x hx
        rw [alnumHyphen_eq] at this
        simpa using this
      · exact Or.inl hc2
    · refine ⟨?_, ⟨c, [], rfl, hc⟩, ⟨[], c, rfl, hc⟩⟩
      intro x hx
      simp only [List.append_nil, List.mem_singleton] at hx
      rw [hx]; exact Or.inl hc
  · rintro ⟨hall, ⟨c, t, rfl, hc⟩, ⟨t2, c2, ht2, hc2⟩⟩
    have e : c :: t = [c] ++ t := rfl
    rw [e]
    refine Regex.mem_lang_cat ⟨c, rfl, by rw [alnumLower_eq]; exact hc⟩ ?_
    rcases List.eq_nil_or_concat t with h0 | ⟨m, l, rfl⟩
    · rw [h0]; exact Regex.mem_lang_opt_nil _
    · rw [List.concat_eq_append] at ht2 hall ⊢
      have hl : l = c2 := by
        have e2 : c :: (m ++ [l]) = (c :: m) ++ [l] := rfl
        rw [e2] at ht2
        have := List.append_inj' ht2 rfl
        simpa using this.2
      refine Regex.mem_lang_opt_self (Regex.mem_lang_cat ?_ ⟨l, rfl, ?_⟩)
      · refine Regex.mem_lang_star_cls ?_
        intro x hx
        rw [alnumHyphen_eq]
        have := hall x (by simp [hx])
        simpa using this
      · rw [alnumLower_eq, hl]; exact hc2

/-- The texts of the DNS-domain part are the domains of two or more DNS labels. -/
theorem mem_rfcDnsDomain_iff {w : List Nat} : w ∈ rfcDnsDomain.lang ↔ IsDnsDomain w := by
  have hdef : rfcDnsDomain
      = Regex.cat (Regex.plus (Regex.cat rfcLabel (Regex.lit true 0x2E))) rfcLabel := rfl
  rw [hdef, mem_dotted_plus_iff]
  constructor
  · rintro ⟨L, hlen, rfl, hL⟩
    exact ⟨L, hlen, rfl, fun lab hlab => mem_rfcLabel_iff.mp (hL lab hlab)⟩
  · rintro ⟨L, hlen, rfl, hL⟩
    exact ⟨L, hlen, rfl, fun lab hlab => mem_rfcLabel_iff.mpr (hL lab hlab)⟩

/-! ## The shape of a strictly accepted address -/

set_option maxRecDepth 100000 in
/-- C14, as stated, fails: the domain group of the strict pattern is starred, so
`user@` is accepted with an empty `Domain`, and `a@b.c[1.2.3.4]` is accepted with a
`Domain` that is neither one DNS-label domain nor one bracketed literal. -/
theorem strict_domain_not_single :
    ParseRfc5322 (str "user@") = Outcome.ok ⟨str "user", []⟩ ∧
    ParseRfc5322 (str "a@b.c[1.2.3.4]") = Outcome.ok ⟨str "a", str "b.c[1.2.3.4]"⟩ ∧
    matchString rfcDnsDomain (str "b.c[1.2.3.4]") = false ∧
    matchString rfcLiteral (str "b.c[1.2.3.4]") = false := by
  refine ⟨by decide, by decide, by decide, by decide⟩

/-- C14, amended: a string on which `ParseRfc5322` succeeds is `loc@rest` where
`loc` is a dot-atom or a double-quoted string and `rest` is a sequence of zero or
more parts, each a DNS-label domain or a bracketed literal; the returned `Domain` is
the end of `rest`, and is `rest` itself when `rest` holds no `@`.  A DNS-label domain
is two or more labels joined by dots, each of letters, digits and hyphens and
starting and ending with a letter or digit. -/
theorem strict_shape :
    (∀ (s : List Nat) (e : Email), ParseRfc5322 s = Outcome.ok e →
      ∃ loc rest : List Nat, s = loc ++ 0x40 :: rest ∧
        (matchString rfcDotAtom loc = true ∨ matchString rfcQuoted loc = true) ∧
        (∃ parts : List (List Nat), decodeRunes rest = parts.flatten ∧
          ∀ p ∈ parts, p ∈ rfcDnsDomain.lang ∨ p ∈ rfcLiteral.lang) ∧
        (∃ m, rest = m ++ e.Domain) ∧
        (0x40 ∉ rest → e.Domain = rest)) ∧
    (∀ p : List Nat, p ∈ rfcDnsDomain.lang ↔ IsDnsDomain p) := by
  refine ⟨fun s e h => ?_, fun p => mem_rfcDnsDomain_iff⟩
  obtain ⟨-, hm, hs, -⟩ := ParseRfc5322_ok h
  obtain ⟨hsp, hd⟩ := splitAtLast_eq_some hs
  obtain ⟨loc, rest, hlr, hloc, hrest⟩ := (strict_parts_iff s).mp hm
  have heq : loc ++ 0x40 :: rest = e.Local ++ 0x40 :: e.Domain := by rw [← hlr, ← hsp]
  obtain ⟨m, hm1, hm2⟩ := prefix_of_split heq hd
  refine ⟨loc, rest, hlr, ?_, ?_, ?_, fun hr => ?_⟩
  · rw [matchString_iff] at hloc
    rcases Regex.mem_lang_alt_iff.mp hloc with h1 | h1
    · exact Or.inl ((matchString_iff _ _).mpr h1)
    · exact Or.inr ((matchString_iff _ _).mpr h1)
  · rw [matchString_iff] at hrest
    obtain ⟨L, hL, hmem⟩ := Regex.mem_lang_star_iff.mp hrest
    exact ⟨L, hL, fun p hp => Regex.mem_lang_alt_iff.mp (hmem p hp)⟩
  · rw [hm1, List.append_assoc] at heq
    have h2 := List.append_cancel_left heq
    cases m with
    | nil => exact ⟨[], by simpa using h2⟩
    | cons x m =>
      simp only [List.cons_append, List.cons.injEq] at h2
      exact ⟨m ++ [0x40], by rw [h2.2]; simp⟩
  · have hm0 := hm2 hr
    subst hm0
    rw [List.append_nil] at hm1
    rw [hm1] at heq
    simpa using heq.symm

set_option maxRecDepth 100000 in
/-- The shape of `user@example.com`, accepted by the strict policy. -/
theorem strict_shape_witness :
    ParseRfc5322 (str "user@example.com") = Outcome.ok ⟨str "user", str "example.com"⟩ ∧
    ∃ loc rest : List Nat, str "user@example.com" = loc ++ 0x40 :: rest ∧
      (matchString rfcDotAtom loc = true ∨ matchString rfcQuoted loc = true) ∧
      (∃ parts : List (List Nat), decodeRunes rest = parts.flatten ∧
        ∀ p ∈ parts, p ∈ rfcDnsDomain.lang ∨ p ∈ rfcLiteral.lang) ∧
      (∃ m, rest = m ++ (Email.mk (str "user") (str "example.com")).Domain) ∧
      (0x40 ∉ rest → (Email.mk (str "user") (str "example.com")).Domain = rest) :=
  ⟨by decide,
   strict_shape.1 (str "user@example.com") ⟨str "user", str "example.com"⟩ (by decide)⟩

/-! ## Counted repetitions of a class -/

namespace Regex

theorem mem_lang_rep_cls_iff {f n : Bool} {rs : List (Nat × Nat)} :
    ∀ (k : Nat) (w : List Nat), w ∈ (rep k (cls f n rs)).lang ↔
      w.length = k ∧ ∀ c ∈ w, classMatch f n rs c = true := by
  intro k
  induction k with
  | zero =>
    intro w
    constructor
    · intro h
      have : w = [] := mem_lang_empty_iff.mp h
      subst this
      simp
    · rintro ⟨h1, h2⟩
      exact mem_lang_rep_cls 0 w h1 h2
  | succ k ih =>
    intro w
    constructor
    · intro h
      have hdef : rep (k + 1) (cls f n rs) = cat (cls f n rs) (rep k (cls f n rs)) := rfl
      rw [hdef] at h
      obtain ⟨u, v, rfl, hu, hv⟩ := mem_lang_cat_iff.mp h
      obtain ⟨c, rfl, hc⟩ := hu
      obtain ⟨h1, h2⟩ := (ih v).mp hv
      refine ⟨by simp [h1], ?_⟩
      intro x hx
      simp only [List.singleton_append, List.mem_cons] at hx
      rcases hx with rfl | hx
      · exact hc
      · exact h2 x hx
    · rintro ⟨h1, h2⟩
      exact mem_lang_rep_cls (k + 1) w h1 h2

theorem mem_lang_upTo_cls_iff {f n : Bool} {rs : List (Nat × Nat)} :
    ∀ (k : Nat) (w : List Nat), w ∈ (upTo k (cls f n rs)).lang ↔
      w.length ≤ k ∧ ∀ c ∈ w, classMatch f n rs c = true := by
  intro k
  induction k with
  | zero =>
    intro w
    constructor
    · intro h
      have : w = [] := mem_lang_empty_iff.mp h
      subst this
      simp
    · rintro ⟨h1, h2⟩
      exact mem_lang_upTo_cls 0 w h1 h2
  | succ k ih =>
    intro w
    constructor
    · intro h
      have hdef : upTo (k + 1) (cls f n rs)
          = opt (cat (cls f n rs) (upTo k (cls f n rs))) := rfl
      rw [hdef] at h
      rcases mem_lang_opt_iff.mp h with h | rfl
      · obtain ⟨u, v, rfl, hu, hv⟩ := mem_lang_cat_iff.mp h
        obtain ⟨c, rfl, hc⟩ := hu
        obtain ⟨h1, h2⟩ := (ih v).mp hv
        refine ⟨by simp; omega, ?_⟩
        intro x hx
        simp only [List.singleton_append, List.mem_cons] at hx
        rcases hx with rfl | hx
        · exact hc
        · exact h2 x hx
      · simp
    · rintro ⟨h1, h2⟩
      exact mem_lang_upTo_cls (k + 1) w h1 h2

theorem mem_lang_repRange_cls_iff {f n : Bool} {rs : List (Nat × Nat)} (lo hi : Nat)
    (hle : lo ≤ hi) (w : List Nat) :
    w ∈ (repRange lo hi (cls f n rs)).lang ↔
      (lo ≤ w.length ∧ w.length ≤ hi) ∧ ∀ c ∈ w, classMatch f n rs c = true := by
  constructor
  · intro h
    obtain ⟨u, v, rfl, hu, hv⟩ := mem_lang_cat_iff.mp h
    obtain ⟨h1, h2⟩ := (mem_lang_rep_cls_iff lo u).mp hu
    obtain ⟨h3, h4⟩ := (mem_lang_upTo_cls_iff (hi - lo) v).mp hv
    refine ⟨⟨by simp; omega, by simp; omega⟩, ?_⟩
    intro x hx
    rcases List.mem_append.mp hx with hx | hx
    · exact h2 x hx
    · exact h4 x hx
  · rintro ⟨⟨h1, h2⟩, h3⟩
    exact mem_lang_repRange_cls lo hi w h1 h2 h3

end Regex

/-! ## The group of the common pattern -/

theorem letterFold_folded (c : Nat) (h : letterFold c = true) : foldedAscii c = true := by
  simp only [letterFold, isAlpha, Bool.or_eq_true, Bool.and_eq_true, decide_eq_true_eq,
    beq_iff_eq] at h
  simp only [foldedAscii, Bool.or_eq_true, decide_eq_true_eq, beq_iff_eq]
  omega

theorem commonLocal_eq (c : Nat) :
    classMatch true false commonLocalChars c = commonLocalRune c := by
  refine classMatch_fold_eq (g := commonLocalRune) (by decide) (by decide) (by decide)
    (by decide) ?_ c
  intro c h
  simp only [commonLocalRune, Bool.or_eq_true, beq_iff_eq] at h
  rcases h with ((((h | h) | h) | h) | h) | h
  · exact letterDigit_folded c h
  all_goals (subst h; decide)

theorem commonDomain_eq (c : Nat) :
    classMatch true false commonDomainChars c = commonDomainRune c := by
  refine classMatch_fold_eq (g := commonDomainRune) (by decide) (by decide) (by decide)
    (by decide) ?_ c
  intro c h
  simp only [commonDomainRune, Bool.or_eq_true, beq_iff_eq] at h
  rcases h with (h | h) | h
  · exact letterDigit_folded c h
  all_goals (subst h; decide)

theorem upper_eq (c : Nat) : classMatch true false upper c = letterFold c :=
  classMatch_fold_eq (by decide) (by decide) (by decide) (by decide) letterFold_folded c

/-- The texts of the group of the common pattern are the occurrences of the
description, its classes read under `(?i)`. -/
theorem mem_commonGroup_iff {w : List Nat} : w ∈ commonGroup.lang ↔ CommonOccurrence w := by
  have hdef : commonGroup
      = Regex.cat (Regex.plus (Regex.cls true false commonLocalChars))
          (Regex.cat (Regex.lit true 0x40)
            (Regex.cat (Regex.plus (Regex.cls true false commonDomainChars))
              (Regex.cat (Regex.lit true 0x2E)
                (Regex.repRange 2 24 (Regex.cls true false upper))))) := rfl
  rw [hdef]
  constructor
  · intro h
    obtain ⟨l, r1, rfl, hl, h1⟩ := Regex.mem_lang_cat_iff.mp h
    obtain ⟨a, r2, rfl, ha, h2⟩ := Regex.mem_lang_cat_iff.mp h1
    obtain ⟨d, r3, rfl, hd, h3⟩ := Regex.mem_lang_cat_iff.mp h2
    obtain ⟨b, t, rfl, hb, ht⟩ := Regex.mem_lang_cat_iff.mp h3
    rw [(mem_lang_lit_iff (by decide)).mp ha, (mem_lang_lit_iff (by decide)).mp hb]
    obtain ⟨hl1, hl2⟩ := Regex.mem_lang_plus_cls_iff.mp hl
    obtain ⟨hd1, hd2⟩ := Regex.mem_lang_plus_cls_iff.mp hd
    obtain ⟨⟨ht1, ht2⟩, ht3⟩ := (Regex.mem_lang_repRange_cls_iff 2 24 (by decide) t).mp ht
    refine ⟨l, d, t, by simp, hl1, fun c hc => ?_, hd1, fun c hc => ?_, ht1, ht2,
      fun c hc => ?_⟩
    · rw [← commonLocal_eq]; exact hl2 c hc
    · rw [← commonDomain_eq]; exact hd2 c hc
    · rw [← upper_eq]; exact ht3 c hc
  · rintro ⟨l, d, t, rfl, hl1, hl2, hd1, hd2, ht1, ht2, ht3⟩
    refine Regex.mem_lang_cat (Regex.mem_lang_plus_cls hl1 fun c hc => ?_) ?_
    · rw [commonLocal_eq]; exact hl2 c hc
    refine Regex.mem_lang_cat (u := [0x40]) (Regex.mem_lang_lit true 0x40 (by decide)) ?_
    refine Regex.mem_lang_cat (Regex.mem_lang_plus_cls hd1 fun c hc => ?_) ?_
    · rw [commonDomain_eq]; exact hd2 c hc
    refine Regex.mem_lang_cat (u := [0x2E]) (Regex.mem_lang_lit true 0x2E (by decide)) ?_
    refine Regex.mem_lang_repRange_cls 2 24 t ht1 ht2 fun c hc => ?_
    rw [upper_eq]; exact ht3 c hc

theorem CommonOccurrence.count_at {w : List Nat} (h : CommonOccurrence w) :
    w.count 0x40 = 1 := by
  obtain ⟨l, d, t, rfl, -, hl, -, hd, -, -, ht⟩ := h
  have h1 : (0x40 : Nat) ∉ l := fun hm => by
    have := hl _ hm
    revert this; decide
  have h2 : (0x40 : Nat) ∉ d := fun hm => by
    have := hd _ hm
    revert this; decide
  have h3 : (0x40 : Nat) ∉ t := fun hm => by
    have := ht _ hm
    revert this; decide
  simp [List.count_append, List.count_cons, List.count_eq_zero_of_not_mem, h1, h2, h3]

theorem count_flatten_of_one {c : Nat} :
    ∀ L : List (List Nat), (∀ x ∈ L, x.count c = 1) → L.flatten.count c = L.length := by
  intro L
  induction L with
  | nil => intro _; rfl
  | cons x L ih =>
    intro h
    rw [List.flatten_cons, List.count_append, h x (List.mem_cons_self _ _),
      ih (fun y hy => h y (List.mem_cons_of_mem _ hy)), List.length_cons]
    omega

/-- An ASCII byte stands in the text read as often as in the string. -/
theorem count_decodeRunes {c : Nat} (hc : c < 0x80) :
    ∀ (n : Nat) (s : List Nat), s.length ≤ n → (decodeRunes s).count c = s.count c := by
  intro n
  induction n with
  | zero =>
    intro s hs
    have : s = [] := List.length_eq_zero.mp (Nat.le_zero.mp hs)
    subst this
    rfl
  | succ n ih =>
    intro s hs
    by_cases hm : c ∈ s
    · obtain ⟨a, b, rfl⟩ := List.append_of_mem hm
      rw [decodeRunes_append a b c hc]
      simp only [List.length_append, List.length_cons] at hs
      simp only [List.count_append, List.count_cons_self]
      rw [ih a (by omega), ih b (by omega)]
    · have h1 : c ∉ decodeRunes s := fun h => hm (mem_of_mem_decodeRunes hc h)
      rw [List.count_eq_zero_of_not_mem hm, List.count_eq_zero_of_not_mem h1]

/-- A string passes the common pattern exactly when it reads as a sequence of
occurrences, as many as it holds `@`. -/
theorem matchString_common_iff (s : List Nat) :
    matchString _commonRegexp s = true ↔
      ∃ L : List (List Nat), decodeRunes s = L.flatten ∧ L.length = s.count 0x40 ∧
        ∀ x ∈ L, CommonOccurrence x := by
  have hdef : _commonRegexp = Regex.star commonGroup := rfl
  rw [matchString_iff, hdef, Regex.mem_lang_star_iff]
  constructor
  · rintro ⟨L, hL, hmem⟩
    have hocc : ∀ x ∈ L, CommonOccurrence x := fun x hx => mem_commonGroup_iff.mp (hmem x hx)
    refine ⟨L, hL, ?_, hocc⟩
    rw [← count_decodeRunes (c := 0x40) (by decide) s.length s (Nat.le_refl _), hL,
      count_flatten_of_one L (fun x hx => (hocc x hx).count_at)]
  · rintro ⟨L, hL, -, hocc⟩
    exact ⟨L, hL, fun x hx => mem_commonGroup_iff.mpr (hocc x hx)⟩

/-! ## The shape of a commonly accepted address -/

set_option maxRecDepth 100000 in
/-- C15, as stated, fails: the group of the common pattern is starred, not optional,
so `a@b.coc@d.com` (two occurrences, two `@`) passes and is split into a `Local`
that holds an `@`; and under `(?i)` the class of the local part holds U+212A KELVIN
SIGN (bytes `E2 84 AA`), which is none of `[A-Za-z0-9._%+-]`. -/
theorem common_group_repeats :
    matchString _commonRegexp (str "a@b.coc@d.com") = true ∧
    (str "a@b.coc@d.com").count 0x40 = 2 ∧
    ParseCommon (str "a@b.coc@d.com") = Outcome.ok ⟨str "a@b.coc", str "d.com"⟩ ∧
    0x40 ∈ str "a@b.coc" ∧
    ParseCommon ([0xE2, 0x84, 0xAA] ++ str "@b.co")
      = Outcome.ok ⟨[0xE2, 0x84, 0xAA], str "b.co"⟩ := by
  refine ⟨by decide, by decide, by decide, by decide, by decide⟩

/-- C15, amended: a string passes the common pattern exactly when it reads as a
sequence of zero or more occurrences of `[A-Za-z0-9._%+-]+ @ [A-Za-z0-9.-]+ .
[A-Za-z]{2,24}`, the classes read under case folding (they also hold U+017F and
U+212A), as many occurrences as the string holds `@`; so a string with exactly one
`@` passes exactly when it reads as one occurrence; every string on which
`ParseCommon` succeeds holds at least one `@`, and when it holds exactly one, the
returned `Local` holds no `@` and reads as runes of the folded class
`[A-Za-z0-9._%+-]` only. -/
theorem common_shape :
    (∀ s : List Nat, matchString _commonRegexp s = true ↔
      ∃ L : List (List Nat), decodeRunes s = L.flatten ∧ L.length = s.count 0x40 ∧
        ∀ x ∈ L, CommonOccurrence x) ∧
    (∀ s : List Nat, s.count 0x40 = 1 →
      (matchString _commonRegexp s = true ↔ CommonOccurrence (decodeRunes s))) ∧
    (∀ (s : List Nat) (e : Email), ParseCommon s = Outcome.ok e →
      1 ≤ s.count 0x40 ∧
      (s.count 0x40 = 1 →
        0x40 ∉ e.Local ∧ ∀ c ∈ decodeRunes e.Local, commonLocalRune c = true)) := by
  have hone : ∀ s : List Nat, s.count 0x40 = 1 →
      (matchString _commonRegexp s = true ↔ CommonOccurrence (decodeRunes s)) := by
    intro s hc
    rw [matchString_common_iff]
    constructor
    · rintro ⟨L, hL, hlen, hocc⟩
      rw [hc] at hlen
      obtain ⟨x, rfl⟩ := List.length_eq_one.mp hlen
      rw [hL]
      simpa using hocc x (by simp)
    · intro h
      exact ⟨[decodeRunes s], by simp, by simp [hc], by simpa using h⟩
  refine ⟨matchString_common_iff, hone, fun s e h => ?_⟩
  obtain ⟨-, hm, hs, -⟩ := ParseCommon_ok h
  obtain ⟨hsp, hd⟩ := splitAtLast_eq_some hs
  have hcount : s.count 0x40 = e.Local.count 0x40 + 1 := by
    rw [hsp, List.count_append, List.count_cons_self, List.count_eq_zero_of_not_mem hd]
  refine ⟨by omega, fun h1 => ?_⟩
  have hloc : (0x40 : Nat) ∉ e.Local := by
    intro hmem
    have := List.count_pos_iff.mpr hmem
    omega
  refine ⟨hloc, ?_⟩
  obtain ⟨l, d, t, hw, -, hl, -⟩ := (hone s h1).mp hm
  obtain ⟨a, b, hab, ha, -⟩ := exists_split_decodeRunes (c := 0x40) (by decide) hw
  have ha0 : (0x40 : Nat) ∉ a := by
    intro hmem
    have h2 := List.count_pos_iff.mpr hmem
    rw [hab, List.count_append, List.count_cons_self] at h1
    omega
  have heq : a ++ 0x40 :: b = e.Local ++ 0x40 :: e.Domain := by rw [← hab, ← hsp]
  obtain ⟨h3, -⟩ := split_unique ha0 hloc heq
  rw [← h3, ha]
  exact hl

set_option maxRecDepth 100000 in
/-- The address `user@example.com`: one `@`, one occurrence, a `Local` of class
runes. -/
theorem common_shape_witness :
    (str "user@example.com").count 0x40 = 1 ∧
    ParseCommon (str "user@example.com") = Outcome.ok ⟨str "user", str "example.com"⟩ ∧
    CommonOccurrence (decodeRunes (str "user@example.com")) ∧
    1 ≤ (str "user@example.com").count 0x40 ∧
    ((str "user@example.com").count 0x40 = 1 →
      0x40 ∉ (Email.mk (str "user") (str "example.com")).Local ∧
      ∀ c ∈ decodeRunes (Email.mk (str "user") (str "example.com")).Local,
        commonLocalRune c = true) :=
  ⟨by decide, by decide,
   (common_shape.2.1 (str "user@example.com") (by decide)).mp (by decide),
   common_shape.2.2 (str "user@example.com") ⟨str "user", str "example.com"⟩ (by decide)⟩

/-! ## More on the labels of a string -/

theorem joinDots_cons_cons (c : Nat) (h : List Nat) (r : List (List Nat)) :
    joinDots ((c :: h) :: r) = c :: joinDots (h :: r) := by
  cases r <;> rfl

theorem joinDots_splitDots (x : List Nat) : joinDots (splitDots x) = x := by
  induction x with
  | nil => rfl
  | cons c t ih =>
    by_cases hc : c = 0x2E
    · subst hc
      rw [splitDots_dot]
      cases h : splitDots t with
      | nil => exact absurd h (splitDots_ne_nil t)
      | cons a r =>
        rw [h] at ih
        have e : joinDots ([] :: a :: r) = [] ++ 0x2E :: joinDots (a :: r) := rfl
        rw [e, ih]
        rfl
    · obtain ⟨h, r, h1, h2⟩ := splitDots_cons_ne hc t
      rw [h2, joinDots_cons_cons, ← h1, ih]

theorem mem_splitDots {x : List Nat} :
    ∀ {lab : List Nat}, lab ∈ splitDots x → 0x2E ∉ lab ∧ ∀ c ∈ lab, c ∈ x := by
  induction x with
  | nil =>
    intro lab h
    simp only [splitDots, List.mem_singleton] at h
    subst h
    simp
  | cons c t ih =>
    intro lab h
    by_cases hc : c = 0x2E
    · subst hc
      rw [splitDots_dot] at h
      rcases List.mem_cons.mp h with rfl | h
      · simp
      · obtain ⟨h1, h2⟩ := ih h
        exact ⟨h1, fun y hy => List.mem_cons_of_mem _ (h2 y hy)⟩
    · obtain ⟨a, r, h1, h2⟩ := splitDots_cons_ne hc t
      rw [h2] at h
      rcases List.mem_cons.mp h with rfl | h
      · obtain ⟨h3, h4⟩ := @ih a (by rw [h1]; simp)
        refine ⟨?_, ?_⟩
        · intro hm
          rcases List.mem_cons.mp hm with e | e
          · exact hc e.symm
          · exact h3 e
        · intro y hy
          rcases List.mem_cons.mp hy with e | e
          · rw [e]; simp
          · exact List.mem_cons_of_mem _ (h4 y e)
      · obtain ⟨h3, h4⟩ := @ih lab (by rw [h1]; exact List.mem_cons_of_mem _ h)
        exact ⟨h3, fun y hy => List.mem_cons_of_mem _ (h4 y hy)⟩

theorem two_le_length_splitDots {x : List Nat} (h : 0x2E ∈ x) : 2 ≤ (splitDots x).length := by
  obtain ⟨a, b, rfl⟩ := List.append_of_mem h
  rw [splitDots_append_dot, List.length_append]
  have h1 := List.length_pos.mpr (splitDots_ne_nil a)
  have h2 := List.length_pos.mpr (splitDots_ne_nil b)
  omega

/-- The labels of the text read are the labels of the string, read. -/
theorem splitDots_decodeRunes :
    ∀ (n : Nat) (x : List Nat), x.length ≤ n →
      splitDots (decodeRunes x) = (splitDots x).map decodeRunes := by
  intro n
  induction n with
  | zero =>
    intro x hx
    have : x = [] := List.length_eq_zero.mp (Nat.le_zero.mp hx)
    subst this
    rfl
  | succ n ih =>
    intro x hx
    by_cases hm : 0x2E ∈ x
    · obtain ⟨a, b, rfl⟩ := List.append_of_mem hm
      simp only [List.length_append, List.length_cons] at hx
      rw [decodeRunes_append a b 0x2E (by decide), splitDots_append_dot, splitDots_append_dot,
        ih a (by omega), ih b (by omega), List.map_append]
    · have h1 : 0x2E ∉ decodeRunes x := fun h => hm (mem_of_mem_decodeRunes (by decide) h)
      rw [splitDots_of_not_mem hm, splitDots_of_not_mem h1]
      rfl

theorem joinDots_glue_nil (A : List (List Nat)) (x y : List Nat) (B : List (List Nat)) :
    joinDots (A ++ [x]) ++ joinDots (y :: B) = joinDots (A ++ (x ++ y) :: B) := by
  rw [joinDots_concat, joinDots_cons, joinDots_append_cons]
  simp

/-- Dotted names written one after the other make one dotted name, when the labels
may be joined. -/
theorem flatten_dotted {P : List Nat → Prop} (hP : ∀ a b, P a → P b → P (a ++ b)) :
    ∀ parts : List (List Nat), parts ≠ [] →
      (∀ p ∈ parts, ∃ L : List (List Nat), 2 ≤ L.length ∧ p = joinDots L ∧ ∀ lab ∈ L, P lab) →
      ∃ G : List (List Nat), 2 ≤ G.length ∧ parts.flatten = joinDots G ∧ ∀ lab ∈ G, P lab := by
  intro parts
  induction parts with
  | nil => intro h; exact absurd rfl h
  | cons p parts ih =>
    intro _ hall
    obtain ⟨L, hlen, rfl, hL⟩ := hall p (List.mem_cons_self _ _)
    cases hparts : parts with
    | nil => exact ⟨L, hlen, by simp, hL⟩
    | cons q parts2 =>
      obtain ⟨G, hG, hflat, hGl⟩ := ih (by rw [hparts]; simp)
        (fun z hz => hall z (List.mem_cons_of_mem _ hz))
      rw [hparts] at hflat
      rw [List.flatten_cons, hflat]
      rcases List.eq_nil_or_concat L with h0 | ⟨A, x, rfl⟩
      · rw [h0] at hlen; simp at hlen
      · cases G with
        | nil => simp at hG
        | cons y B =>
          rw [List.concat_eq_append] at hL hlen ⊢
          refine ⟨A ++ (x ++ y) :: B, ?_, joinDots_glue_nil A x y B, ?_⟩
          · simp only [List.length_append, List.length_cons, List.length_nil] at hlen hG ⊢
            omega
          · intro lab hlab
            rcases List.mem_append.mp hlab with h1 | h1
            · exact hL lab (by simp [h1])
            · rcases List.mem_cons.mp h1 with rfl | h2
              · exact hP x y (hL x (by simp)) (hGl y (by simp))
              · exact hGl lab (by simp [h2])

/-! ## Runes the simple pattern admits in a label -/

theorem admitted_of_low {c : Nat} (h : c < 0x80 → inRanges simpleExcluded c = false) :
    classMatch false true simpleExcluded c = true := by
  have hf : inRanges simpleExcluded c = false := by
    by_contra hx
    have ht : inRanges simpleExcluded c = true := by simpa using hx
    have hlt := @Regex.inRanges_le simpleExcluded _ 0x80 (by decide) ht
    rw [h hlt] at ht
    cases ht
  simp [classMatch, hf]

theorem atext_low : ∀ c, c < 0x80 →
    (classMatch true false atext c = true ∧ c ≠ 0x27 ∧ c ≠ 0x2F ∧ c ≠ 0x7B ∧ c ≠ 0x7D) →
      inRanges simpleExcluded c = false := by
  decide

theorem letterDigit_low : ∀ c, c < 0x80 → (letterDigit c = true ∨ c = 0x2D) →
    inRanges simpleExcluded c = false := by
  decide

theorem commonLocal_low : ∀ c, c < 0x80 → (commonLocalRune c = true ∧ c ≠ 0x2E) →
    inRanges simpleExcluded c = false := by
  decide

theorem commonDomain_low : ∀ c, c < 0x80 → (commonDomainRune c = true ∧ c ≠ 0x2E) →
    inRanges simpleExcluded c = false := by
  decide

theorem letterFold_low : ∀ c, c < 0x80 → letterFold c = true →
    inRanges simpleExcluded c = false := by
  decide

theorem simpleLabel_append (a b : List Nat) (ha : a ∈ simpleLabel.lang)
    (hb : b ∈ simpleLabel.lang) : a ++ b ∈ simpleLabel.lang := by
  rw [mem_simpleLabel_iff] at ha hb ⊢
  refine ⟨by simp [ha.1], fun c hc => ?_⟩
  rcases List.mem_append.mp hc with h | h
  · exact ha.2 c h
  · exact hb.2 c h

theorem mem_joinDots_of_mem {L : List (List Nat)} {lab : List Nat} {c : Nat} (hlab : lab ∈ L)
    (hc : c ∈ lab) : c ∈ joinDots L := by
  cases L with
  | nil => simp at hlab
  | cons a t =>
    rw [joinDots_cons]
    rcases List.mem_cons.mp hlab with rfl | h
    · exact List.mem_append_left _ hc
    · refine List.mem_append_right _ (List.mem_flatten.mpr ⟨0x2E :: lab, ?_, ?_⟩)
      · exact List.mem_map.mpr ⟨lab, h, rfl⟩
      · exact List.mem_cons_of_mem _ hc

/-! ## From the strict and the common pattern to the simple one -/

/-- A string that passes the strict pattern, holds none of `" ' / [ { }` and does
not end with `@` passes the simple pattern. -/
theorem strict_passes_simple {s : List Nat} (hm : matchString _rfc5322Regexp s = true)
    (hbar : ∀ c ∈ s, c ≠ 0x22 ∧ c ≠ 0x27 ∧ c ≠ 0x2F ∧ c ≠ 0x5B ∧ c ≠ 0x7B ∧ c ≠ 0x7D)
    (hend : ∀ a, s ≠ a ++ [0x40]) : matchString _simpleRegexp s = true := by
  obtain ⟨loc, rest, rfl, hloc, hrest⟩ := (strict_parts_iff s).mp hm
  have hrne : rest ≠ [] := fun h => hend loc (by rw [h])
  have hin : ∀ {c : Nat}, c < 0x80 → c ∈ decodeRunes (loc ++ 0x40 :: rest) →
      c ≠ 0x22 ∧ c ≠ 0x27 ∧ c ≠ 0x2F ∧ c ≠ 0x5B ∧ c ≠ 0x7B ∧ c ≠ 0x7D :=
    fun hlt hc => hbar _ (mem_of_mem_decodeRunes hlt hc)
  rw [decodeRunes_append _ _ 0x40 (by decide)] at hin
  rw [matchString_iff] at hloc hrest
  rw [matchString_iff, mem_simple_iff, decodeRunes_append _ _ 0x40 (by decide)]
  -- the local part is a dot-atom
  have hdot : decodeRunes loc ∈ rfcDotAtom.lang := by
    rcases Regex.mem_lang_alt_iff.mp hloc with h | h
    · exact h
    · have hq : 0x22 ∈ decodeRunes loc :=
        Regex.mem_of_requiresRune (c := 0x22) (r := rfcQuoted) (by decide) h
      exact absurd rfl (hin (c := 0x22) (by decide) (by simp [hq])).1
  have hdef : rfcDotAtom = Regex.cat (Regex.plus (Regex.cls true false atext))
      (Regex.star (Regex.cat (Regex.lit true 0x2E)
        (Regex.plus (Regex.cls true false atext)))) := rfl
  rw [hdef, mem_dotted_iff] at hdot
  obtain ⟨LA, hLAne, hLA, hLAl⟩ := hdot
  -- the domains are DNS-label domains
  obtain ⟨parts, hparts, hmem⟩ := Regex.mem_lang_star_iff.mp hrest
  have hpne : parts ≠ [] := by
    intro h
    rw [h] at hparts
    exact decodeRunes_ne_nil hrne hparts
  have hdns : ∀ p ∈ parts, ∃ L : List (List Nat), 2 ≤ L.length ∧ p = joinDots L ∧
      ∀ lab ∈ L, lab ∈ simpleLabel.lang := by
    intro p hp
    rcases Regex.mem_lang_alt_iff.mp (hmem p hp) with h | h
    · obtain ⟨L, hlen, hpL, hL⟩ := mem_rfcDnsDomain_iff.mp h
      refine ⟨L, hlen, hpL, fun lab hlab => ?_⟩
      obtain ⟨hall, ⟨c, t, hct, -⟩, -⟩ := hL lab hlab
      rw [mem_simpleLabel_iff]
      refine ⟨by rw [hct]; simp, fun x hx => admitted_of_low fun hlt => ?_⟩
      exact letterDigit_low x hlt (hall x hx)
    · have h5 : 0x5B ∈ decodeRunes rest := by
        rw [hparts]
        exact List.mem_flatten.mpr ⟨p, hp, open_bracket_mem_literal h⟩
      exact absurd rfl (hin (c := 0x5B) (by decide) (by simp [h5])).2.2.2.1
  obtain ⟨G, hG, hflat, hGl⟩ := flatten_dotted simpleLabel_append parts hpne hdns
  refine ⟨LA, G, hLAne, hG, by rw [hLA, hparts, hflat], fun lab hlab => ?_, hGl⟩
  obtain ⟨hne, hall⟩ := Regex.mem_lang_plus_cls_iff.mp (hLAl lab hlab)
  rw [mem_simpleLabel_iff]
  refine ⟨hne, fun x hx => admitted_of_low fun hlt => ?_⟩
  have hx2 : x ∈ decodeRunes loc := by rw [hLA]; exact mem_joinDots_of_mem hlab hx
  obtain ⟨-, h1, h2, -, h3, h4⟩ := hin hlt (by simp [hx2])
  exact atext_low x hlt ⟨hall x hx, h1, h2, h3, h4⟩

/-- A string `l@d` that passes the common pattern, with no `@` in `l` or `d` and no
empty label in `l` or `d`, passes the simple pattern. -/
theorem common_passes_simple {l d : List Nat}
    (hm : matchString _commonRegexp (l ++ 0x40 :: d) = true) (hl : 0x40 ∉ l) (hd : 0x40 ∉ d)
    (hl0 : [] ∉ splitDots l) (hd0 : [] ∉ splitDots d) :
    matchString _simpleRegexp (l ++ 0x40 :: d) = true := by
  have hcount : (l ++ 0x40 :: d).count 0x40 = 1 := by
    simp [List.count_append, List.count_eq_zero_of_not_mem, hl, hd]
  obtain ⟨L, hL, hlen, hocc⟩ := (matchString_common_iff _).mp hm
  rw [hcount] at hlen
  obtain ⟨x, rfl⟩ := List.length_eq_one.mp hlen
  obtain ⟨l1, d1, t, hx, -, hl1, -, hd1, -, -, ht⟩ := hocc x (by simp)
  rw [decodeRunes_append _ _ 0x40 (by decide)] at hL
  simp only [List.flatten_cons, List.flatten_nil, List.append_nil] at hL
  rw [hx] at hL
  have hla : (0x40 : Nat) ∉ decodeRunes l := fun h => hl (mem_of_mem_decodeRunes (by decide) h)
  have hl1a : (0x40 : Nat) ∉ l1 := fun h => by
    have := hl1 _ h
    revert this; decide
  obtain ⟨e1, e2⟩ := split_unique hla hl1a hL
  rw [matchString_iff, mem_simple_iff, decodeRunes_append _ _ 0x40 (by decide)]
  have hdot : 0x2E ∈ decodeRunes d := by rw [e2]; simp
  refine ⟨splitDots (decodeRunes l), splitDots (decodeRunes d), splitDots_ne_nil _,
    two_le_length_splitDots hdot, by rw [joinDots_splitDots, joinDots_splitDots],
    fun lab hlab => ?_, fun lab hlab => ?_⟩
  · obtain ⟨h1, h2⟩ := mem_splitDots hlab
    rw [mem_simpleLabel_iff]
    refine ⟨?_, fun c hc => admitted_of_low fun hlt => ?_⟩
    · rw [splitDots_decodeRunes l.length l (Nat.le_refl _)] at hlab
      obtain ⟨b, hb, rfl⟩ := List.mem_map.mp hlab
      exact decodeRunes_ne_nil (fun h0 => hl0 (h0 ▸ hb))
    · have hc2 : c ∈ l1 := e1 ▸ h2 c hc
      exact commonLocal_low c hlt ⟨hl1 c hc2, fun h => h1 (h ▸ hc)⟩
  · obtain ⟨h1, h2⟩ := mem_splitDots hlab
    rw [mem_simpleLabel_iff]
    refine ⟨?_, fun c hc => admitted_of_low fun hlt => ?_⟩
    · rw [splitDots_decodeRunes d.length d (Nat.le_refl _)] at hlab
      obtain ⟨b, hb, rfl⟩ := List.mem_map.mp hlab
      exact decodeRunes_ne_nil (fun h0 => hd0 (h0 ▸ hb))
    · have hne : c ≠ 0x2E := fun h => h1 (h ▸ hc)
      have hc2 : c ∈ d1 ++ 0x2E :: t := e2 ▸ h2 c hc
      rcases List.mem_append.mp hc2 with h | h
      · exact commonDomain_low c hlt ⟨hd1 c h, hne⟩
      · rcases List.mem_cons.mp h with h | h
        · exact absurd h hne
        · exact letterFold_low c hlt (ht c h)

theorem ParseSimple_of_match (toASCII : List Nat → Except String (List Nat)) {s : List Nat}
    (hm : matchString _simpleRegexp s = true) :
    ParseSimple toASCII s ≠ Outcome.error ParseError.notCommon := by
  unfold ParseSimple
  split_ifs with h1 h2
  · simp
  · rw [hm] at h2; simp at h2
  · cases hs : splitAtLast s with
    | none => simp
    | some e =>
      simp only
      cases toASCII e.Domain with
      | error err => simp
      | ok dA =>
        simp only
        split_ifs
        · cases toASCII e.Local with
          | error err => simp
          | ok lA => simp only; split_ifs <;> simp
        · simp
        · simp

/-! ## The simple policy against the other two -/

set_option maxRecDepth 100000 in
/-- C19, as stated, fails: `a/b@example.com` passes the strict pattern and is
accepted by `ParseRfc5322`, `.a@b.com` passes the common pattern and is accepted by
`ParseCommon`, and `ParseSimple` rejects both with the pattern-mismatch error: the
simple pattern bars `/` from a label and admits no empty label. -/
theorem simple_not_most_permissive :
    ParseRfc5322 (str "a/b@example.com") = Outcome.ok ⟨str "a/b", str "example.com"⟩ ∧
    matchString _simpleRegexp (str "a/b@example.com") = false ∧
    ParseSimple toASCIIPlain (str "a/b@example.com") = Outcome.error ParseError.notCommon ∧
    ParseCommon (str ".a@b.com") = Outcome.ok ⟨str ".a", str "b.com"⟩ ∧
    matchString _simpleRegexp (str ".a@b.com") = false ∧
    ParseSimple toASCIIPlain (str ".a@b.com") = Outcome.error ParseError.notCommon := by
  refine ⟨by decide, by decide, by decide, by decide, by decide, by decide⟩

/-- C19, amended: a string that passes the strict pattern, holds none of the
characters `" ' / [ { }` and does not end with `@` passes the simple pattern; a
string `l@d` that passes the common pattern, with no `@` and no empty label (no
leading, trailing or doubled dot) in `l` and in `d`, passes the simple pattern; so
an input of these kinds on which `ParseRfc5322` or `ParseCommon` succeeds is not
rejected by `ParseSimple` with the pattern-mismatch error. -/
theorem simple_permissive :
    (∀ s : List Nat, matchString _rfc5322Regexp s = true →
      (∀ c ∈ s, c ≠ 0x22 ∧ c ≠ 0x27 ∧ c ≠ 0x2F ∧ c ≠ 0x5B ∧ c ≠ 0x7B ∧ c ≠ 0x7D) →
      (∀ a, s ≠ a ++ [0x40]) → matchString _simpleRegexp s = true) ∧
    (∀ l d : List Nat, matchString _commonRegexp (l ++ 0x40 :: d) = true →
      0x40 ∉ l → 0x40 ∉ d → [] ∉ splitDots l → [] ∉ splitDots d →
        matchString _simpleRegexp (l ++ 0x40 :: d) = true) ∧
    (∀ (toASCII : List Nat → Except String (List Nat)) (s : List Nat) (e : Email),
      ParseRfc5322 s = Outcome.ok e →
      (∀ c ∈ s, c ≠ 0x22 ∧ c ≠ 0x27 ∧ c ≠ 0x2F ∧ c ≠ 0x5B ∧ c ≠ 0x7B ∧ c ≠ 0x7D) →
      e.Domain ≠ [] → ParseSimple toASCII s ≠ Outcome.error ParseError.notCommon) ∧
    (∀ (toASCII : List Nat → Except String (List Nat)) (s : List Nat) (e : Email),
      ParseCommon s = Outcome.ok e → 0x40 ∉ e.Local →
      [] ∉ splitDots e.Local → [] ∉ splitDots e.Domain →
        ParseSimple toASCII s ≠ Outcome.error ParseError.notCommon) := by
  refine ⟨fun s hm hbar hend => strict_passes_simple hm hbar hend,
    fun l d hm hl hd hl0 hd0 => common_passes_simple hm hl hd hl0 hd0,
    fun toASCII s e h hbar hdom => ?_, fun toASCII s e h hl hl0 hd0 => ?_⟩
  · obtain ⟨-, hm, hs, -⟩ := ParseRfc5322_ok h
    obtain ⟨hsp, -⟩ := splitAtLast_eq_some hs
    refine ParseSimple_of_match toASCII (strict_passes_simple hm hbar fun a ha => ?_)
    rw [hsp] at ha
    rcases List.eq_nil_or_concat e.Domain with h0 | ⟨m, x, hx⟩
    · exact hdom h0
    · rw [hx, List.concat_eq_append] at ha
      have e1 : e.Local ++ 0x40 :: (m ++ [x]) = (e.Local ++ 0x40 :: m) ++ [x] := by simp
      rw [e1] at ha
      have h2 := (List.append_inj' ha rfl).2
      simp only [List.cons.injEq, and_true] at h2
      have h3 : (0x40 : Nat) ∈ e.Domain := by rw [hx, List.concat_eq_append, h2]; simp
      exact (splitAtLast_eq_some hs).2 h3
  · obtain ⟨-, hm, hs, -⟩ := ParseCommon_ok h
    obtain ⟨hsp, hd⟩ := splitAtLast_eq_some hs
    rw [hsp] at hm ⊢
    exact ParseSimple_of_match toASCII (common_passes_simple hm hl hd hl0 hd0)

set_option maxRecDepth 100000 in
/-- The address `user@example.com` passes the three patterns. -/
theorem simple_permissive_witness :
    matchString _rfc5322Regexp (str "user@example.com") = true ∧
    matchString _commonRegexp (str "user" ++ 0x40 :: str "example.com") = true ∧
    matchString _simpleRegexp (str "user@example.com") = true ∧
    matchString _simpleRegexp (str "user" ++ 0x40 :: str "example.com") = true ∧
    ParseSimple toASCIIPlain (str "user@example.com") ≠ Outcome.error ParseError.notCommon :=
  ⟨by decide, by decide,
   simple_permissive.1 (str "user@example.com") (by decide) (by decide)
     (fun a ha => by
       have h : (str "user@example.com").getLast? = some 0x40 := by rw [ha]; simp
       revert h; decide),
   simple_permissive.2.1 (str "user") (str "example.com") (by decide) (by decide) (by decide)
     (by decide) (by decide),
   simple_permissive.2.2.1 toASCIIPlain (str "user@example.com")
     ⟨str "user", str "example.com"⟩ (by decide) (by decide) (by decide)⟩

end Validate
